import Mathlib

/-!
# SPTK: Levinson-Durbin recursion, coefficient converters and tools

A shallow embedding of `src/math/levinson_durbin_recursion.cc`, of utilities of
`src/utils/sptk_utils.cc` (among them `ReadStream`), of the frame loops of the tools `levdur`
and `train`, of the tool `frame`, and of the converters between LPC and PARCOR coefficients,
with theorems about them.

## Arithmetic model

The C++ code computes on `double`.  The embedding computes exactly, in an arbitrary linearly
ordered field `F`, extended with one extra value NaN that every operation propagates and that no
comparison accepts.  Rounding, overflow, infinities and signed zeros are not modelled, with one
exception: the operations of the tool `train` round their exact result by a function `fl`,
which is `roundDouble`, the rounding of binary64 arithmetic, for the program.
`std::sqrt` belongs to the C++ library, not to the repository: the root it returns for a
non-negative argument is a parameter `rt` of `Run`; for a negative argument it returns NaN.
The concrete instances are evaluated on the rationals, with `Rat.sqrt` for `rt`, on inputs
whose final error is the square of a rational wherever the gain matters.

`int` is modelled by `Int`, under the assumption that `num_order + 1` does not overflow.
`std::vector<double>` is a `List`, a pointer argument that may be `NULL` is an `Option`.
-/

/-- A `double` of the model: a number of the field `F`, or NaN. -/
inductive Dbl (F : Type) where
  | num : F → Dbl F
  | nan : Dbl F
deriving DecidableEq, Repr

namespace Dbl

variable {F : Type} [LinearOrderedField F]

/-- Addition `x + y`; NaN propagates. -/
def add : Dbl F → Dbl F → Dbl F
  | num x, num y => num (x + y)
  | _, _ => nan

/-- Subtraction `x - y`; NaN propagates. -/
def sub : Dbl F → Dbl F → Dbl F
  | num x, num y => num (x - y)
  | _, _ => nan

/-- Multiplication `x * y`; NaN propagates. -/
def mul : Dbl F → Dbl F → Dbl F
  | num x, num y => num (x * y)
  | _, _ => nan

/-- Division `x / y`; NaN propagates.  A division by zero yields NaN here (the model has no
infinities); `Run` never divides by zero, it returns before. -/
def div : Dbl F → Dbl F → Dbl F
  | num x, num y => if y = 0 then nan else num (x / y)
  | _, _ => nan

/-- Unary minus `-x`. -/
def neg : Dbl F → Dbl F
  | num x => num (-x)
  | nan => nan

instance : Zero (Dbl F) := ⟨num 0⟩
instance : One (Dbl F) := ⟨num 1⟩
instance : Add (Dbl F) := ⟨add⟩
instance : Sub (Dbl F) := ⟨sub⟩
instance : Mul (Dbl F) := ⟨mul⟩
instance : Div (Dbl F) := ⟨div⟩
instance : Neg (Dbl F) := ⟨neg⟩

/-- The function `std::isnan`. -/
def isnan : Dbl F → Bool
  | nan => true
  | num _ => false

/-- The function `std::fabs`. -/
def fabs : Dbl F → Dbl F
  | num x => num |x|
  | nan => nan

/-- The comparison `x == y` of two doubles: false as soon as one of them is NaN. -/
def eq : Dbl F → Dbl F → Bool
  | num x, num y => decide (x = y)
  | _, _ => false

/-- The comparison `x <= y` of two doubles: false as soon as one of them is NaN. -/
def le : Dbl F → Dbl F → Bool
  | num x, num y => decide (x ≤ y)
  | _, _ => false

/-- The function `std::sqrt`: NaN for NaN and for a negative argument, otherwise the root `rt x`
the library returns. -/
def sqrt (rt : F → F) : Dbl F → Dbl F
  | num x => if x < 0 then nan else num (rt x)
  | nan => nan

/-- A double passes the check `0.0 == e || std::isnan(e)` of `Run`, that is, `Run` does not
return `false` on it, exactly when it is a non-zero number. -/
def usable (e : Dbl F) : Bool := !(eq 0 e || isnan e)

/-- The number a double holds (`0` for NaN). -/
def val : Dbl F → F
  | num x => x
  | nan => 0

end Dbl

/-- The method `std::vector<double>::resize(n)`: the first `n` elements are kept, new elements
are `0.0`. -/
def resize {F : Type} [LinearOrderedField F] (v : List (Dbl F)) (n : Nat) : List (Dbl F) :=
  v.take n ++ List.replicate (n - v.length) 0

/-- Modelled from the spec: the class `LevinsonDurbinRecursion::Buffer` is declared in the header
`SPTK/math/levinson_durbin_recursion.h`, which is not among the sources.  It is the scratch array
holding the coefficient row of the previous order, the member `c_` that `Run` resizes, reads and
writes. -/
structure Buffer (F : Type) where
  c_ : List (Dbl F)
deriving DecidableEq, Repr

/-- Modelled from the spec: the data members of the class `LevinsonDurbinRecursion`, declared in
the missing header: the order `num_order_` and the validity `is_valid_`, both set by the
constructor and never changed afterwards. -/
structure LevinsonDurbinRecursion where
  num_order_ : Int
  is_valid_ : Bool
deriving DecidableEq, Repr

namespace LevinsonDurbinRecursion

/-- The constructor `LevinsonDurbinRecursion(int num_order)`. -/
def new (num_order : Int) : LevinsonDurbinRecursion :=
  if num_order < 0 then { num_order_ := num_order, is_valid_ := false }
  else { num_order_ := num_order, is_valid_ := true }

/-- Modelled from the spec: the method `IsValid()`, defined in the missing header; it reports the
validity the constructor recorded. -/
def IsValid (self : LevinsonDurbinRecursion) : Bool := self.is_valid_

/-- What a call of `Run` leaves behind: the value returned and the contents of the three objects
the pointer arguments point to (`none` for a `NULL` pointer). -/
structure Outcome (F : Type) where
  ret : Bool
  linear_predictive_coefficients : Option (List (Dbl F))
  is_stable : Option Bool
  buffer : Option (Buffer F)
deriving DecidableEq, Repr

/-- The local variables of `Run` that the recursion changes: the arrays behind the pointers `a`
and `c`, the prediction error `e` and `*is_stable`. -/
structure Locals (F : Type) where
  a : List (Dbl F)
  c : List (Dbl F)
  e : Dbl F
  is_stable : Bool
deriving DecidableEq, Repr

variable {F : Type} [LinearOrderedField F]

/-- The first inner loop: `for (int j(1); j < i; ++j) k -= c[j] * r[i - j];` from the value `k`. -/
def reflectionLoop (r c : List (Dbl F)) (i : Nat) (k : Dbl F) : Dbl F :=
  (List.range' 1 (i - 1)).foldl (fun k j => k - c.getD j Dbl.nan * r.getD (i - j) Dbl.nan) k

/-- The second inner loop: `for (int j(1); j < i; ++j) a[j] = c[j] + k * c[i - j];`. -/
def updateLoop (c : List (Dbl F)) (i : Nat) (k : Dbl F) (a : List (Dbl F)) : List (Dbl F) :=
  (List.range' 1 (i - 1)).foldl
    (fun a j => a.set j (c.getD j Dbl.nan + k * c.getD (i - j) Dbl.nan)) a

/-- The third inner loop: `for (int j(0); j <= i; ++j) c[j] = a[j];`. -/
def copyLoop (a : List (Dbl F)) (i : Nat) (c : List (Dbl F)) : List (Dbl F) :=
  (List.range' 0 (i + 1)).foldl (fun c j => c.set j (a.getD j Dbl.nan)) c

/-- The loop `for (int i(1); i < length; ++i)` of `Run`, entered at `i` with `n = length - i`
iterations left.  The Boolean is `false` when the body executed `return false`. -/
def durbinLoop (r : List (Dbl F)) : Nat → Nat → Locals F → Bool × Locals F
  | 0, _, s => (true, s)
  | n + 1, i, s =>
    let k := reflectionLoop r s.c i (-(r.getD i Dbl.nan)) / s.e
    let is_stable := if Dbl.le 1 (Dbl.fabs k) then false else s.is_stable
    let a := (updateLoop s.c i k s.a).set i k
    let e := s.e * (1 - k * k)
    if Dbl.eq 0 e || Dbl.isnan e then
      (false, { a := a, c := s.c, e := e, is_stable := is_stable })
    else
      durbinLoop r n (i + 1) { a := a, c := copyLoop a i s.c, e := e, is_stable := is_stable }

/-- The method `Run(autocorrelation, linear_predictive_coefficients, is_stable, buffer)`. -/
def Run (rt : F → F) (self : LevinsonDurbinRecursion) (autocorrelation : List (Dbl F))
    (linear_predictive_coefficients : Option (List (Dbl F))) (is_stable : Option Bool)
    (buffer : Option (Buffer F)) : Outcome F :=
  let length : Int := self.num_order_ + 1
  match linear_predictive_coefficients, is_stable, buffer with
  | some out, some _, some buf =>
    if !self.is_valid_ || (autocorrelation.length : Int) ≠ length then
      ⟨false, linear_predictive_coefficients, is_stable, buffer⟩
    else
      let out := if out.length ≠ length.toNat then resize out length.toNat else out
      let c := if buf.c_.length ≠ length.toNat then resize buf.c_ length.toNat else buf.c_
      let a := out.set 0 0
      let e := autocorrelation.getD 0 Dbl.nan
      if Dbl.eq 0 e || Dbl.isnan e then
        ⟨false, some a, some true, some ⟨c⟩⟩
      else
        let (ok, s) := durbinLoop autocorrelation (length.toNat - 1) 1
          { a := a, c := c, e := e, is_stable := true }
        if ok then
          ⟨true, some (s.a.set 0 (Dbl.sqrt rt s.e)), some s.is_stable, some ⟨s.c⟩⟩
        else
          ⟨false, some s.a, some s.is_stable, some ⟨s.c⟩⟩
  | _, _, _ => ⟨false, linear_predictive_coefficients, is_stable, buffer⟩

/-- The in-place method `Run(input_and_output, is_stable, buffer)`. -/
def RunInPlace (rt : F → F) (self : LevinsonDurbinRecursion)
    (input_and_output : Option (List (Dbl F))) (is_stable : Option Bool)
    (buffer : Option (Buffer F)) : Outcome F :=
  match input_and_output with
  | none => ⟨false, input_and_output, is_stable, buffer⟩
  | some v =>
    let input := v
    Run rt self input input_and_output is_stable buffer

/-- The locals of `Run` on entering the loop, for an instance of order `M`. -/
def start (R out : List (Dbl F)) (buf : Buffer F) (M : Nat) : Locals F :=
  { a := (if out.length ≠ M + 1 then resize out (M + 1) else out).set 0 0
    c := if buf.c_.length ≠ M + 1 then resize buf.c_ (M + 1) else buf.c_
    e := R.getD 0 Dbl.nan
    is_stable := true }

end LevinsonDurbinRecursion

/-! ## The reference recursion

Durbin's recursion as the specification words it, by rows indexed by the order: `e_0 = R(0)`,
`k_i = -(R(i) + Σ_{j=1..i-1} a^(i-1)(j) R(i-j)) / e_(i-1)`,
`a^(i)(j) = a^(i-1)(j) + k_i a^(i-1)(i-j)` for `j = 1..i-1`, `a^(i)(i) = k_i`,
`e_i = e_(i-1) (1 - k_i^2)`.  It is stated over any type with the arithmetic operations, to be
read both in the model of `double` and in the field itself. -/

namespace Durbin

variable {D : Type} [Zero D] [One D] [Add D] [Sub D] [Mul D] [Div D] [Neg D]

/-- Row `i` of the reference recursion: the coefficients `a^(i)(j)` and the error `e_i`. -/
structure Row (D : Type) where
  a : Nat → D
  e : D

/-- The reflection coefficient `k_i` computed from row `i - 1`. -/
def refl (r : Nat → D) (i : Nat) (prev : Row D) : D :=
  -(r i + ((List.range' 1 (i - 1)).map (fun j => prev.a j * r (i - j))).sum) / prev.e

/-- The rows of the reference recursion on the autocorrelation `r`. -/
def row (r : Nat → D) : Nat → Row D
  | 0 => { a := fun _ => 0, e := r 0 }
  | i + 1 =>
    let prev := row r i
    let k := refl r (i + 1) prev
    { a := fun j =>
        if 1 ≤ j ∧ j < i + 1 then prev.a j + k * prev.a (i + 1 - j)
        else if j = i + 1 then k else 0
      e := prev.e * (1 - k * k) }

/-- The reflection coefficient `k_i` of the reference recursion, `i ≥ 1`. -/
def k (r : Nat → D) (i : Nat) : D := refl r i (row r (i - 1))

/-- The error `e_i` of the reference recursion. -/
def e (r : Nat → D) (i : Nat) : D := (row r i).e

/-- The coefficient `a^(i)(j)` of the reference recursion. -/
def a (r : Nat → D) (i j : Nat) : D := (row r i).a j

/-- The output vector of the reference: slot 0 is `sqrt(e_M)`, slots `1..M` are
`a^(M)(1..M)`. -/
def lpc {F : Type} [LinearOrderedField F] (rt : F → F) (r : Nat → Dbl F) (M : Nat) :
    List (Dbl F) :=
  Dbl.sqrt rt (e r M) :: (List.range' 1 M).map (a r M)

/-- The errors `e_0`, ..., `e_M` of the reference are all non-zero numbers. -/
def regular {F : Type} [LinearOrderedField F] (r : Nat → Dbl F) (M : Nat) : Bool :=
  (List.range (M + 1)).all (fun m => Dbl.usable (e r m))

/-- No reflection coefficient `k_1`, ..., `k_M` of the reference satisfies `1.0 <= fabs(k)`. -/
def stable {F : Type} [LinearOrderedField F] (r : Nat → Dbl F) (M : Nat) : Bool :=
  (List.range' 1 M).all (fun m => !Dbl.le 1 (Dbl.fabs (k r m)))

end Durbin

/-- The autocorrelation vector read as a function of the index. -/
def lag {F : Type} (autocorrelation : List (Dbl F)) (j : Nat) : Dbl F :=
  autocorrelation.getD j Dbl.nan

/-- The locals of `Run` hold row `i` of the reference: the invariant of the loop on entering
iteration `i + 1`, for arrays of `len` elements. -/
structure LevinsonDurbinRecursion.HoldsRow {F : Type} [LinearOrderedField F]
    (R : List (Dbl F)) (len i : Nat) (s : LevinsonDurbinRecursion.Locals F) : Prop where
  len_a : s.a.length = len
  len_c : s.c.length = len
  e_eq : s.e = Durbin.e (lag R) i
  a_zero : s.a.getD 0 Dbl.nan = 0
  a_eq : ∀ j, 1 ≤ j → j ≤ i → s.a.getD j Dbl.nan = Durbin.a (lag R) i j
  c_eq : ∀ j, 1 ≤ j → j ≤ i → s.c.getD j Dbl.nan = Durbin.a (lag R) i j

open LevinsonDurbinRecursion


/-! ## Utilities of `src/utils/sptk_utils.cc` -/

/-- The comparison `x < y` of two doubles: false as soon as one of them is NaN. -/
def Dbl.lt {F : Type} [LinearOrderedField F] : Dbl F → Dbl F → Bool
  | Dbl.num x, Dbl.num y => decide (x < y)
  | _, _ => false

/-- The function `IsPowerOfTwo(int num)`: `!((num < 1) || (num & (num - 1)))`.  The right operand
of `||` is evaluated for `1 <= num` only, where `num - 1` does not overflow and `&` works on
two non-negative numbers. -/
def IsPowerOfTwo (num : Int) : Bool :=
  !(decide (num < 1) || decide (Int.land num (num - 1) ≠ 0))

/-- The function `IsValidAlpha(double alpha)`. -/
def IsValidAlpha {F : Type} [LinearOrderedField F] (alpha : Dbl F) : Bool :=
  Dbl.lt (Dbl.fabs alpha) 1

/-- The function `IsValidGamma(double gamma)`. -/
def IsValidGamma {F : Type} [LinearOrderedField F] (gamma : Dbl F) : Bool :=
  Dbl.le (Dbl.fabs gamma) 1

/-- The function `ExtractSign(double x)`. -/
def ExtractSign {F : Type} [LinearOrderedField F] (x : Dbl F) : Int :=
  if Dbl.lt 0 x then 1 else if Dbl.lt x 0 then -1 else 0

/-! ## The converters between LPC and PARCOR coefficients

Of `ParcorCoefficientsToLinearPredictiveCoefficients`,
`LinearPredictiveCoefficientsToParcorCoefficients` and
`LinearPredictiveCoefficientsStabilityCheck` the sources hold declarations and callers only: the
constructors and the methods `Run` are modelled from the specification.  A call of `Run` that
fails is `none`; the buffers, which only hold intermediate rows, are left out. -/

/-- Modelled from the spec: the upward recursion of `ParcorCoefficientsToLinearPredictiveCoefficients`,
whose sources are missing.  Row `i` is `a^(i)`: `a^(0)` is empty,
`a^(i)(m) = a^(i-1)(m) + k(i) a^(i-1)(i-m)` for `m = 1..i-1`, and `a^(i)(i) = k(i)`. -/
def ParcorToLpc.row {D : Type} [Zero D] [Add D] [Mul D] (k : Nat → D) : Nat → Nat → D
  | 0 => fun _ => 0
  | i + 1 => fun m =>
    if 1 ≤ m ∧ m < i + 1 then row k i m + k (i + 1) * row k i (i + 1 - m)
    else if m = i + 1 then k (i + 1) else 0

/-- Modelled from the spec: the data members of the class
`ParcorCoefficientsToLinearPredictiveCoefficients`, whose header is missing: the order and the
validity the constructor recorded. -/
structure ParcorCoefficientsToLinearPredictiveCoefficients where
  num_order_ : Int
  is_valid_ : Bool
deriving DecidableEq, Repr

namespace ParcorCoefficientsToLinearPredictiveCoefficients

/-- Modelled from the spec: the constructor, whose source is missing; the instance is invalid
when the order is negative. -/
def new (num_order : Int) : ParcorCoefficientsToLinearPredictiveCoefficients :=
  { num_order_ := num_order, is_valid_ := !decide (num_order < 0) }

/-- Modelled from the spec: the method `IsValid()`, called in `par2lpc.cc`, whose source is
missing. -/
def IsValid (self : ParcorCoefficientsToLinearPredictiveCoefficients) : Bool := self.is_valid_

/-- Modelled from the spec: the method `Run`, whose source is missing.  It fails only on an
invalid order or a vector whose length is not `M + 1`; it copies the gain slot and leaves
`a^(M)(1..M)` in slots `1..M`. -/
def Run {F : Type} [LinearOrderedField F] (self : ParcorCoefficientsToLinearPredictiveCoefficients)
    (parcor_coefficients : List (Dbl F)) : Option (List (Dbl F)) :=
  if !self.is_valid_ || decide ((parcor_coefficients.length : Int) ≠ self.num_order_ + 1) then
    none
  else
    some (parcor_coefficients.getD 0 Dbl.nan ::
      (List.range' 1 self.num_order_.toNat).map
        (ParcorToLpc.row (fun i => parcor_coefficients.getD i Dbl.nan) self.num_order_.toNat))

end ParcorCoefficientsToLinearPredictiveCoefficients

/-- Modelled from the spec: one step of the downward recursion of
`LinearPredictiveCoefficientsToParcorCoefficients::Run`, whose source is missing: from `a^(i)`,
with `k(i) = a^(i)(i)`, the row `a^(i-1)(m) = (a^(i)(m) + k(i) a^(i)(i-m)) / (1 - k(i)^2)` for
`m = 1..i-1`. -/
def LpcToParcor.stepDown {D : Type} [Zero D] [One D] [Add D] [Sub D] [Mul D] [Div D]
    (i : Nat) (a : Nat → D) : Nat → D :=
  fun m => if 1 ≤ m ∧ m < i then (a m + a i * a (i - m)) / (1 - a i * a i) else 0

/-- Modelled from the spec: the rows of the downward recursion from `a^(M)`; `rowDown M a j` is
`a^(M-j)`. -/
def LpcToParcor.rowDown {D : Type} [Zero D] [One D] [Add D] [Sub D] [Mul D] [Div D]
    (M : Nat) (a : Nat → D) : Nat → Nat → D
  | 0 => a
  | j + 1 => LpcToParcor.stepDown (M - j) (rowDown M a j)

/-- Modelled from the spec: the reflection coefficient `k(i) = a^(i)(i)` the downward recursion
takes from `a^(M) = a`. -/
def LpcToParcor.k {D : Type} [Zero D] [One D] [Add D] [Sub D] [Mul D] [Div D]
    (M : Nat) (a : Nat → D) (i : Nat) : D :=
  LpcToParcor.rowDown M a (M - i) i

/-- The downward step that undoes the upward step of `ParcorToLpc.row`: the documented step
of `LpcToParcor` with `-` in place of `+`,
`a^(i-1)(m) = (a^(i)(m) - k(i) a^(i)(i-m)) / (1 - k(i)^2)` for `m = 1..i-1`.  It is not the
recursion the header and the specification give; it is the one a round trip needs. -/
def LpcToParcor.stepDownInverse {D : Type} [Zero D] [One D] [Add D] [Sub D] [Mul D] [Div D]
    (i : Nat) (a : Nat → D) : Nat → D :=
  fun m => if 1 ≤ m ∧ m < i then (a m - a i * a (i - m)) / (1 - a i * a i) else 0

/-- The rows of the downward recursion with the step `stepDownInverse`, from `a^(M)`;
`rowDownInverse M a j` is `a^(M-j)`. -/
def LpcToParcor.rowDownInverse {D : Type} [Zero D] [One D] [Add D] [Sub D] [Mul D] [Div D]
    (M : Nat) (a : Nat → D) : Nat → Nat → D
  | 0 => a
  | j + 1 => LpcToParcor.stepDownInverse (M - j) (rowDownInverse M a j)

/-- The reflection coefficient `k(i) = a^(i)(i)` that the downward recursion with the step
`stepDownInverse` takes from `a^(M) = a`. -/
def LpcToParcor.kInverse {D : Type} [Zero D] [One D] [Add D] [Sub D] [Mul D] [Div D]
    (M : Nat) (a : Nat → D) (i : Nat) : D :=
  LpcToParcor.rowDownInverse M a (M - i) i

/-- The data members of the class `LinearPredictiveCoefficientsToParcorCoefficients`. -/
structure LinearPredictiveCoefficientsToParcorCoefficients (F : Type) where
  num_order_ : Int
  gamma_ : Dbl F
  is_valid_ : Bool
deriving DecidableEq, Repr

namespace LinearPredictiveCoefficientsToParcorCoefficients

variable {F : Type} [LinearOrderedField F]

/-- Modelled from the spec: the constructor, whose source is missing; it fails validity if
`M < 0` or `|gamma| > 1`. -/
def new (num_order : Int) (gamma : Dbl F) : LinearPredictiveCoefficientsToParcorCoefficients F :=
  { num_order_ := num_order, gamma_ := gamma
    is_valid_ := !(decide (num_order < 0) || Dbl.lt 1 (Dbl.fabs gamma)) }

/-- The method `IsValid()`. -/
def IsValid (self : LinearPredictiveCoefficientsToParcorCoefficients F) : Bool := self.is_valid_

/-- Modelled from the spec: the method `Run`, whose source is missing.  It fails on an invalid
instance or a vector whose length is not `M + 1`.  Otherwise it starts from
`a^(M)(i) = gamma * input(i)`, takes `k(i) = a^(i)(i)` for `i = M, ..., 1`, copies the gain slot,
and reports stability `true` when no `k(i)` had `1 <= |k(i)|`. -/
def Run (self : LinearPredictiveCoefficientsToParcorCoefficients F)
    (linear_predictive_coefficients : List (Dbl F)) : Option (List (Dbl F) × Bool) :=
  if !self.is_valid_ ||
      decide ((linear_predictive_coefficients.length : Int) ≠ self.num_order_ + 1) then
    none
  else
    let M := self.num_order_.toNat
    let a : Nat → Dbl F := fun i => self.gamma_ * linear_predictive_coefficients.getD i Dbl.nan
    some (linear_predictive_coefficients.getD 0 Dbl.nan ::
        (List.range' 1 M).map (LpcToParcor.k M a),
      (List.range' 1 M).all (fun i => !Dbl.le 1 (Dbl.fabs (LpcToParcor.k M a i))))

/-- The method `Run` as modelled above, with the downward step `stepDownInverse` in place of
the documented one: the same checks, the same initial condition, the same flag. -/
def RunInverse (self : LinearPredictiveCoefficientsToParcorCoefficients F)
    (linear_predictive_coefficients : List (Dbl F)) : Option (List (Dbl F) × Bool) :=
  if !self.is_valid_ ||
      decide ((linear_predictive_coefficients.length : Int) ≠ self.num_order_ + 1) then
    none
  else
    let M := self.num_order_.toNat
    let a : Nat → Dbl F := fun i => self.gamma_ * linear_predictive_coefficients.getD i Dbl.nan
    some (linear_predictive_coefficients.getD 0 Dbl.nan ::
        (List.range' 1 M).map (LpcToParcor.kInverse M a),
      (List.range' 1 M).all (fun i => !Dbl.le 1 (Dbl.fabs (LpcToParcor.kInverse M a i))))

end LinearPredictiveCoefficientsToParcorCoefficients

/-- The data members of the class `LinearPredictiveCoefficientsStabilityCheck`; its two
converters are determined by the order. -/
structure LinearPredictiveCoefficientsStabilityCheck (F : Type) where
  num_order_ : Int
  margin_ : Dbl F
  is_valid_ : Bool
deriving DecidableEq, Repr

namespace LinearPredictiveCoefficientsStabilityCheck

variable {F : Type} [LinearOrderedField F]

/-- Modelled from the spec: the constructor, whose source is missing; it fails validity if
`M < 0` or the margin is not in `[0, 1)`. -/
def new (num_order : Int) (margin : Dbl F) : LinearPredictiveCoefficientsStabilityCheck F :=
  { num_order_ := num_order, margin_ := margin
    is_valid_ := !(decide (num_order < 0) || !(Dbl.le 0 margin && Dbl.lt margin 1)) }

/-- The method `IsValid()`. -/
def IsValid (self : LinearPredictiveCoefficientsStabilityCheck F) : Bool := self.is_valid_

/-- Modelled from the spec: the clamp of `Run`, whose source is missing: a reflection coefficient
whose magnitude is at least `1 - margin` becomes `sign(k) (1 - margin)`. -/
def clamp (margin k : Dbl F) : Dbl F :=
  if Dbl.le (1 - margin) (Dbl.fabs k) then
    Dbl.num ((ExtractSign k : Int) : F) * (1 - margin)
  else k

/-- Modelled from the spec: the PARCOR vector after the clamp, the gain slot untouched. -/
def clampAll (margin : Dbl F) : List (Dbl F) → List (Dbl F)
  | [] => []
  | gain :: ks => gain :: ks.map (clamp margin)

/-- Modelled from the spec: the method `Run`, whose source is missing.  It fails on an invalid
instance and when `LpcToParcor` (gamma = 1) fails on the input; the flag is the one that
conversion reports; when the pointer to the modified coefficients is not `NULL`, they become
`ParcorToLpc` of the clamped PARCOR vector. -/
def Run (self : LinearPredictiveCoefficientsStabilityCheck F)
    (linear_predictive_coefficients : List (Dbl F))
    (modified_linear_predictive_coefficients : Option (List (Dbl F))) :
    Option (Option (List (Dbl F)) × Bool) :=
  if !self.is_valid_ then none
  else
    match (LinearPredictiveCoefficientsToParcorCoefficients.new self.num_order_ 1).Run
        linear_predictive_coefficients with
    | none => none
    | some (parcor_coefficients, is_stable) =>
      match modified_linear_predictive_coefficients with
      | none => some (none, is_stable)
      | some _ =>
        match (ParcorCoefficientsToLinearPredictiveCoefficients.new self.num_order_).Run
            (clampAll self.margin_ parcor_coefficients) with
        | none => none
        | some modified => some (some modified, is_stable)

end LinearPredictiveCoefficientsStabilityCheck

/-! ## The tool `levdur` (`src/main/levdur.cc`)

The frames `ReadStream` delivers are a list of vectors; `WriteStream` and the error stream are
the lists they append to, and every write succeeds. -/

/-- The enumeration `WarningType` of `levdur.cc`. -/
inductive WarningType where
  | kIgnore
  | kWarn
  | kExit
deriving DecidableEq, Repr

/-- What the frame loop of `levdur` has produced and the objects it keeps between frames. -/
structure LevdurState (F : Type) where
  stdout : List (List (Dbl F))
  unstable_frames : List Nat
  linear_predictive_coefficients : List (Dbl F)
  buffer : Buffer F
deriving DecidableEq, Repr

/-- The frame loop of `main` in `levdur.cc`, entered at `frame_index` with the frames still to
be read; the first component is the exit status when `main` returns. -/
def levdurLoop {F : Type} [LinearOrderedField F] (rt : F → F)
    (levinson_durbin_recursion : LevinsonDurbinRecursion) (warning_type : WarningType) :
    List (List (Dbl F)) → Nat → LevdurState F → Int × LevdurState F
  | [], _, s => (0, s)
  | autocorrelation :: frames, frame_index, s =>
    let r := LevinsonDurbinRecursion.Run rt levinson_durbin_recursion autocorrelation
      (some s.linear_predictive_coefficients) (some false) (some s.buffer)
    let s1 : LevdurState F :=
      { s with
        linear_predictive_coefficients :=
          r.linear_predictive_coefficients.getD s.linear_predictive_coefficients
        buffer := r.buffer.getD s.buffer }
    let is_stable := r.is_stable.getD false
    if !r.ret then (1, s1)
    else
      let s2 : LevdurState F :=
        if !is_stable && decide (WarningType.kIgnore ≠ warning_type) then
          { s1 with unstable_frames := s1.unstable_frames ++ [frame_index] }
        else s1
      if !is_stable && decide (WarningType.kIgnore ≠ warning_type) &&
          decide (WarningType.kExit = warning_type) then (1, s2)
      else
        levdurLoop rt levinson_durbin_recursion warning_type frames (frame_index + 1)
          { s2 with stdout := s2.stdout ++ [s2.linear_predictive_coefficients] }

/-- The part of `main` in `levdur.cc` after the options are read: the instance is constructed and
checked, the vectors are allocated, and the frame loop runs. -/
def levdur {F : Type} [LinearOrderedField F] (rt : F → F) (num_order : Int)
    (warning_type : WarningType) (frames : List (List (Dbl F))) : Int × LevdurState F :=
  let levinson_durbin_recursion := LevinsonDurbinRecursion.new num_order
  let start : LevdurState F :=
    { stdout := [], unstable_frames := []
      linear_predictive_coefficients := List.replicate (num_order + 1).toNat 0
      buffer := ⟨[]⟩ }
  if !levinson_durbin_recursion.IsValid then (1, start)
  else levdurLoop rt levinson_durbin_recursion warning_type frames 0 start

/-! ## The tool `train` (`src/main/train.cc`) -/

/-- The enumeration `NormalizationType` of `train.cc`. -/
inductive NormalizationType where
  | kNone
  | kPower
  | kMagnitude
deriving DecidableEq, Repr

/-- Rounding of a rational to the nearest integer, ties to the even one. -/
def roundHalfEven (x : ℚ) : ℤ :=
  if x - (⌊x⌋ : ℚ) < 1 / 2 then ⌊x⌋
  else if 1 / 2 < x - (⌊x⌋ : ℚ) then ⌊x⌋ + 1
  else if ⌊x⌋ % 2 = 0 then ⌊x⌋ else ⌊x⌋ + 1

/-- The power `2^z` for an integer exponent. -/
def pow2 (z : ℤ) : ℚ := if 0 ≤ z then 2 ^ z.toNat else 1 / 2 ^ (-z).toNat

/-- The number `floor(log2 n)` for `1 ≤ n < 2^fuel` (`0` for `n = 0`). -/
def log2Fuel : Nat → Nat → Nat
  | 0, _ => 0
  | fuel + 1, n => if n < 2 then 0 else log2Fuel fuel (n / 2) + 1

/-- The binary exponent of a non-zero rational `x`: the `e` with `2^e ≤ |x| < 2^(e+1)`. -/
def binaryExponent (x : ℚ) : ℤ :=
  if pow2 ((log2Fuel 2048 x.num.natAbs : ℤ) - (log2Fuel 2048 x.den : ℤ)) ≤ |x| then
    (log2Fuel 2048 x.num.natAbs : ℤ) - (log2Fuel 2048 x.den : ℤ)
  else (log2Fuel 2048 x.num.natAbs : ℤ) - (log2Fuel 2048 x.den : ℤ) - 1

/-- The rounding of IEEE 754 binary64 arithmetic in its default mode: the nearest number with a
significand of 53 bits, ties to the even significand.  The exponent is not bounded: overflow
and subnormal numbers are not modelled; `train` meets neither. -/
def roundDouble (x : ℚ) : ℚ :=
  if x = 0 then 0
  else (roundHalfEven (x * pow2 (52 - binaryExponent x)) : ℚ) * pow2 (binaryExponent x - 52)

/-- The double an arithmetic operation returns when its exact result is rounded by `fl`. -/
def Dbl.round {F : Type} (fl : F → F) : Dbl F → Dbl F
  | Dbl.num x => Dbl.num (fl x)
  | Dbl.nan => Dbl.nan

/-- The loop of `main` in `train.cc` with `n` samples left to write, entered with the phase
accumulator `phase`; the result is the samples written.  Every operation on doubles returns its
exact result rounded by `fl`: `phase += frequency - 1.0` rounds the difference and then the
sum.  With `fl = roundDouble` this is the arithmetic of the program; with `fl = id` it is exact
arithmetic. -/
def trainLoop {F : Type} [LinearOrderedField F] (fl : F → F) (frequency pulse : Dbl F) :
    Nat → Dbl F → List (Dbl F)
  | 0, _ => []
  | n + 1, phase =>
    if Dbl.le 1 phase then
      pulse :: trainLoop fl frequency pulse n (Dbl.round fl (phase + Dbl.round fl (frequency - 1)))
    else 0 :: trainLoop fl frequency pulse n (Dbl.round fl (phase + frequency))

/-- The part of `main` in `train.cc` after the options are read, for an output length
`output_length`: the samples written to the standard output.  The quotient `1.0 / period` is
rounded by `fl`; `rt` is the double `std::sqrt` returns. -/
def train {F : Type} [LinearOrderedField F] (fl : F → F) (rt : F → F) (output_length : Nat)
    (period : Dbl F) (normalization_type : NormalizationType) : List (Dbl F) :=
  let pulse : Dbl F :=
    match normalization_type with
    | NormalizationType.kNone => 1
    | NormalizationType.kPower => Dbl.sqrt rt period
    | NormalizationType.kMagnitude => period
  let frequency : Dbl F := Dbl.round fl (1 / period)
  trainLoop fl frequency pulse output_length 1

/-- The value of the phase accumulator of `train` on entering iteration `i`, for an integer
period `P` and exact arithmetic: `1` when `i` is a multiple of `P`, `(i mod P) / P` otherwise. -/
def trainPhase {F : Type} [LinearOrderedField F] (P i : Nat) : Dbl F :=
  Dbl.num (if i % P = 0 then 1 else ((i % P : Nat) : F) / (P : F))

/-! ## The tool `frame` (`src/main/frame.cc`) and `ReadStream` (`src/utils/sptk_utils.cc`)

The input stream holds whole doubles and is modelled at that granularity: byte counts are counts
of doubles (`type_byte` is the unit).  The frames `WriteStream` writes to `std::cout` are the
list they are appended to, and every write succeeds. -/

/-- The state of a `std::istream`: the doubles not extracted yet and the state bits `eofbit` and
`failbit`.  The bit `badbit` is never set: no read fails for another reason than the end of the
data. -/
structure IStream (F : Type) where
  rest : List (Dbl F)
  eofbit : Bool
  failbit : Bool
deriving DecidableEq, Repr

namespace IStream

variable {F : Type}

/-- The member `good()`: no state bit is set. -/
def good (s : IStream F) : Bool := !s.eofbit && !s.failbit

/-- The member `read` of the C++ library, for `n` doubles: the values extracted (`gcount` is
their number) and the state it leaves.  On a stream that is not good nothing is extracted and
`failbit` is set; when the data end before `n` values, `eofbit` and `failbit` are set. -/
def read (s : IStream F) (n : Nat) : List (Dbl F) × IStream F :=
  if !s.good then ([], { s with failbit := true })
  else if n ≤ s.rest.length then (s.rest.take n, { s with rest := s.rest.drop n })
  else (s.rest, { rest := [], eofbit := true, failbit := true })

/-- The member `ignore` of the C++ library, for `n` doubles: `eofbit` is set when the data end
before `n` values were discarded. -/
def ignore (s : IStream F) (n : Nat) : IStream F :=
  if !s.good then { s with failbit := true }
  else if n ≤ s.rest.length then { s with rest := s.rest.drop n }
  else { s with rest := [], eofbit := true }

/-- The test `peek() == traits_type::eof()` and the state `peek` leaves: on a stream that is
not good `peek` sets `failbit` and returns `eof()`, at the end of the data it sets `eofbit`. -/
def peekIsEof (s : IStream F) : Bool × IStream F :=
  if !s.good then (true, { s with failbit := true })
  else if s.rest.isEmpty then (true, { s with eofbit := true })
  else (false, s)

end IStream

/-- Writing the values `vals` into a vector from position `point` on, as `read`, `std::fill`,
`std::fill_n` and `std::copy` do; the vector is long enough in every use. -/
def store {F : Type} (sequence : List (Dbl F)) (point : Nat) (vals : List (Dbl F)) :
    List (Dbl F) :=
  sequence.take point ++ vals ++ sequence.drop (point + vals.length)

/-- The function `ReadStream(zero_padding, stream_skip, read_point, read_size, sequence_to_read,
input_stream, actual_read_size)` for a vector of doubles, neither the vector nor the stream
being `NULL`; `actual_read_size` is `none` for `NULL`.  The result is the value returned, the
vector, the stream and `*actual_read_size`.  The number of zeros to pad,
`ceil((num_read_bytes - gcount) / type_byte)`, is `read_size` minus the number of values read,
never negative. -/
def ReadStream {F : Type} [LinearOrderedField F] (zero_padding : Bool)
    (stream_skip read_point read_size : Int) (sequence_to_read : List (Dbl F))
    (input_stream : IStream F) (actual_read_size : Option Int) :
    Bool × List (Dbl F) × IStream F × Option Int :=
  if stream_skip < 0 || read_point < 0 || read_size ≤ 0 || input_stream.eofbit then
    (false, sequence_to_read, input_stream, actual_read_size)
  else
    let input_stream :=
      if 0 < stream_skip then input_stream.ignore stream_skip.toNat else input_stream
    if 0 < stream_skip && input_stream.eofbit then
      (false, sequence_to_read, input_stream, actual_read_size)
    else
      let «end» : Int := read_point + read_size
      let sequence_to_read :=
        if sequence_to_read.length < «end».toNat then resize sequence_to_read «end».toNat
        else sequence_to_read
      let (vals, input_stream) := input_stream.read read_size.toNat
      let sequence_to_read := store sequence_to_read read_point.toNat vals
      let gcount : Int := vals.length
      let actual_read_size := actual_read_size.map (fun _ => gcount)
      if read_size = gcount then
        (!input_stream.failbit, sequence_to_read, input_stream, actual_read_size)
      else if zero_padding && 0 < gcount then
        let num_zeros : Int := read_size - gcount
        (true, store sequence_to_read («end» - num_zeros).toNat
          (List.replicate num_zeros.toNat 0), input_stream, actual_read_size)
      else (false, sequence_to_read, input_stream, actual_read_size)

/-- The enumeration `FramingTypes` of `frame.cc`, without its last member `kNumFramingTypes`,
which only counts the others and which the option `-n` does not accept. -/
inductive FramingTypes where
  | kBegginingOfDataIsCenterOfFirstFrame
  | kBegginingOfDataIsStartOfFirstFrame
deriving DecidableEq, Repr

/-- The function `WriteData(data, zero_mean)` of `frame.cc`: the frame, less its mean when
`zero_mean` is set, is appended to the output. -/
def WriteData {F : Type} [LinearOrderedField F] (data : List (Dbl F)) (zero_mean : Bool)
    (stdout : List (List (Dbl F))) : List (List (Dbl F)) :=
  if zero_mean then
    let mean := data.foldl (fun s x => s + x) 0 / Dbl.num (data.length : F)
    stdout ++ [data.map (fun x => x - mean)]
  else stdout ++ [data]

/-- The loop `while (center <= last_data_position_in_frame)` of `main` in `frame.cc`, for
overlapping frames, with the locals it changes as arguments.  The first argument bounds the
number of iterations (`none` when it is used up); the result is the exit status of `main` and
the frames written. -/
def frameOverlapLoop {F : Type} [LinearOrderedField F] (frame_length frame_period : Nat)
    (center : Int) (zero_mean : Bool) :
    Nat → List (Dbl F) → IStream F → Bool → Int → Option Int → List (List (Dbl F)) →
      Option (Int × List (List (Dbl F)))
  | 0, _, _, _, _, _, _ => none
  | fuel + 1, data, input_stream, is_eof, last_data_position_in_frame, actual_read_size,
      stdout =>
    if center ≤ last_data_position_in_frame then
      let data :=
        if is_eof then
          store data (last_data_position_in_frame + 1).toNat
            (List.replicate (data.length - (last_data_position_in_frame + 1).toNat) 0)
        else data
      let stdout := WriteData data zero_mean stdout
      let data := store data 0 (data.drop frame_period)
      if is_eof then
        frameOverlapLoop frame_length frame_period center zero_mean fuel data input_stream
          is_eof (last_data_position_in_frame - frame_period) actual_read_size stdout
      else
        let overlap : Int := (frame_length : Int) - frame_period
        let (ok, data, input_stream, actual_read_size) :=
          ReadStream true 0 overlap frame_period data input_stream actual_read_size
        if !ok then some (1, stdout)
        else
          let (at_eof, input_stream) := input_stream.peekIsEof
          if at_eof then
            frameOverlapLoop frame_length frame_period center zero_mean fuel data input_stream
              true (overlap + actual_read_size.getD 0 - 1) actual_read_size stdout
          else
            frameOverlapLoop frame_length frame_period center zero_mean fuel data input_stream
              is_eof last_data_position_in_frame actual_read_size stdout
    else some (0, stdout)

/-- The loop `while (sptk::ReadStream(true, -overlap, 0, frame_length, ...))` of `main` in
`frame.cc`, for frames that do not overlap.  The first argument bounds the number of
iterations. -/
def frameSkipLoop {F : Type} [LinearOrderedField F] (frame_length : Nat) (overlap : Int)
    (zero_mean : Bool) :
    Nat → List (Dbl F) → IStream F → List (List (Dbl F)) → Option (Int × List (List (Dbl F)))
  | 0, _, _, _ => none
  | fuel + 1, data, input_stream, stdout =>
    let (ok, data, input_stream, _) :=
      ReadStream true (-overlap) 0 frame_length data input_stream none
    if ok then
      frameSkipLoop frame_length overlap zero_mean fuel data input_stream
        (WriteData data zero_mean stdout)
    else some (0, stdout)

/-- The part of `main` in `frame.cc` after the options are read (the frame length and the
period are positive there) and the input is opened, on the input `input`: the exit status and
the frames written, or `none` when the loop needs more than `fuel` iterations.  The local
`actual_read_size` is not initialised in the source; `ReadStream` writes it before it is
read. -/
def frame {F : Type} [LinearOrderedField F] (fuel : Nat) (frame_length frame_period : Nat)
    (framing_type : FramingTypes) (zero_mean : Bool) (input : List (Dbl F)) :
    Option (Int × List (List (Dbl F))) :=
  let data : List (Dbl F) := List.replicate frame_length 0
  let input_stream : IStream F := { rest := input, eofbit := false, failbit := false }
  let (read_point, read_size) : Int × Int :=
    match framing_type with
    | FramingTypes.kBegginingOfDataIsCenterOfFirstFrame =>
      if frame_length % 2 = 0 then ((frame_length : Int) / 2, (frame_length : Int) / 2)
      else (((frame_length : Int) - 1) / 2, ((frame_length : Int) + 1) / 2)
    | FramingTypes.kBegginingOfDataIsStartOfFirstFrame => (0, (frame_length : Int))
  let (ok, data, input_stream, actual_read_size) :=
    ReadStream true 0 read_point read_size data input_stream (some 0)
  if !ok then some (0, [])
  else
    let overlap : Int := (frame_length : Int) - frame_period
    if 0 < overlap then
      let (is_eof, input_stream) := input_stream.peekIsEof
      let center : Int :=
        match framing_type with
        | FramingTypes.kBegginingOfDataIsCenterOfFirstFrame => (frame_length : Int) / 2
        | FramingTypes.kBegginingOfDataIsStartOfFirstFrame => 0
      let last_data_position_in_frame : Int := center + actual_read_size.getD 0 - 1
      frameOverlapLoop frame_length frame_period center zero_mean fuel data input_stream is_eof
        last_data_position_in_frame actual_read_size []
    else
      frameSkipLoop frame_length overlap zero_mean fuel data input_stream
        (WriteData data zero_mean [])

/-- The sample `x(t)` of the input of `frame`, with `x(t) = 0` for `t < 0` and `t ≥ T`. -/
def frameSample {F : Type} [LinearOrderedField F] (x : List (Dbl F)) (t : Int) : Dbl F :=
  if t < 0 then 0 else x.getD t.toNat 0

/-- The offset `c` of the first frame: `floor(L / 2)` for the framing type 0, `0` for the
framing type 1. -/
def frameCenter (frame_length : Nat) : FramingTypes → Nat
  | FramingTypes.kBegginingOfDataIsCenterOfFirstFrame => frame_length / 2
  | FramingTypes.kBegginingOfDataIsStartOfFirstFrame => 0

/-- The frame of `L` samples `x(q - c)`, ..., `x(q - c + L - 1)`. -/
def frameAt {F : Type} [LinearOrderedField F] (x : List (Dbl F)) (L c q : Nat) :
    List (Dbl F) :=
  (List.range L).map (fun (i : Nat) => frameSample x ((q : Int) + (i : Int) - (c : Int)))

/-! ## Arithmetic of the model -/

set_option linter.unusedSectionVars false

namespace Dbl

variable {F : Type} [LinearOrderedField F]

@[simp] theorem zero_def : (0 : Dbl F) = num 0 := rfl
@[simp] theorem one_def : (1 : Dbl F) = num 1 := rfl
@[simp] theorem num_add_num (x y : F) : num x + num y = num (x + y) := rfl
@[simp] theorem num_sub_num (x y : F) : num x - num y = num (x - y) := rfl
@[simp] theorem num_mul_num (x y : F) : num x * num y = num (x * y) := rfl
@[simp] theorem neg_num (x : F) : -num x = num (-x) := rfl
@[simp] theorem neg_nan : -(nan : Dbl F) = nan := rfl
@[simp] theorem nan_add (x : Dbl F) : nan + x = nan := rfl
@[simp] theorem add_nan (x : Dbl F) : x + nan = nan := by cases x <;> rfl
@[simp] theorem nan_sub (x : Dbl F) : nan - x = nan := rfl
@[simp] theorem sub_nan (x : Dbl F) : x - nan = nan := by cases x <;> rfl
@[simp] theorem nan_mul (x : Dbl F) : nan * x = nan := rfl
@[simp] theorem mul_nan (x : Dbl F) : x * nan = nan := by cases x <;> rfl
@[simp] theorem nan_div (x : Dbl F) : nan / x = nan := rfl
@[simp] theorem div_nan (x : Dbl F) : x / nan = nan := by cases x <;> rfl
@[simp] theorem num_div_num (x y : F) :
    num x / num y = if y = 0 then nan else num (x / y) := rfl
@[simp] theorem isnan_num (x : F) : isnan (num x) = false := rfl
@[simp] theorem isnan_nan : isnan (nan : Dbl F) = true := rfl
@[simp] theorem fabs_num (x : F) : fabs (num x) = num |x| := rfl
@[simp] theorem fabs_nan : fabs (nan : Dbl F) = nan := rfl
@[simp] theorem eq_num_num (x y : F) : eq (num x) (num y) = decide (x = y) := rfl
@[simp] theorem eq_nan_left (x : Dbl F) : eq nan x = false := rfl
@[simp] theorem eq_nan_right (x : Dbl F) : eq x nan = false := by cases x <;> rfl
@[simp] theorem le_num_num (x y : F) : le (num x) (num y) = decide (x ≤ y) := rfl
@[simp] theorem le_nan_left (x : Dbl F) : le nan x = false := rfl
@[simp] theorem le_nan_right (x : Dbl F) : le x nan = false := by cases x <;> rfl
@[simp] theorem sqrt_num (rt : F → F) (x : F) :
    sqrt rt (num x) = if x < 0 then nan else num (rt x) := rfl
@[simp] theorem sqrt_nan (rt : F → F) : sqrt rt (nan : Dbl F) = nan := rfl

theorem neg_sub_eq (x y : Dbl F) : -x - y = -(x + y) := by
  cases x <;> cases y <;> simp only [neg_num, neg_nan, num_add_num, num_sub_num, nan_add,
    add_nan, nan_sub, sub_nan]
  rw [neg_add, sub_eq_add_neg]

theorem add_assoc_dbl (x y z : Dbl F) : x + y + z = x + (y + z) := by
  cases x <;> cases y <;> cases z <;> simp [add_assoc]

theorem add_zero_dbl (x : Dbl F) : x + 0 = x := by
  cases x <;> simp

theorem usable_iff (e : Dbl F) : usable e = true ↔ ∃ x : F, e = num x ∧ x ≠ 0 := by
  cases e with
  | num x =>
    simp only [usable, zero_def, eq_num_num, isnan_num, Bool.or_false, Bool.not_eq_true',
      decide_eq_false_iff_not, num.injEq, exists_eq_left']
    exact ⟨fun h h0 => h h0.symm, fun h h0 => h h0.symm⟩
  | nan => simp [usable]

theorem check_of_not_usable {e : Dbl F} (h : ¬ usable e = true) :
    (eq 0 e || isnan e) = true := by
  unfold usable at h
  revert h
  generalize (eq 0 e || isnan e) = b
  cases b <;> simp

theorem not_check_of_usable {e : Dbl F} (h : usable e = true) :
    ¬ ((eq 0 e || isnan e) = true) := by
  unfold usable at h
  revert h
  generalize (eq 0 e || isnan e) = b
  cases b <;> simp

/-- The sum of a list of numbers, in the model. -/
theorem sum_map_num {α : Type} (f : α → F) (l : List α) :
    (l.map (fun j => num (f j))).sum = num (l.map f).sum := by
  induction l with
  | nil => rfl
  | cons x l ih => simp [ih]

end Dbl

/-! ## The three inner loops -/

namespace LevinsonDurbinRecursion

variable {F : Type} [LinearOrderedField F]

theorem foldl_sub_eq (f : Nat → Dbl F) (l : List Nat) (x : Dbl F) :
    l.foldl (fun k j => k - f j) (-x) = -(x + (l.map f).sum) := by
  induction l generalizing x with
  | nil => simp only [List.foldl_nil, List.map_nil, List.sum_nil, Dbl.add_zero_dbl]
  | cons j l ih =>
    simp only [List.foldl_cons, List.map_cons, List.sum_cons]
    rw [Dbl.neg_sub_eq, ih, Dbl.add_assoc_dbl]

theorem reflectionLoop_eq (r c : List (Dbl F)) (i : Nat) (x : Dbl F) :
    reflectionLoop r c i (-x) =
      -(x + ((List.range' 1 (i - 1)).map
        (fun j => c.getD j Dbl.nan * r.getD (i - j) Dbl.nan)).sum) :=
  foldl_sub_eq _ _ _

theorem length_foldl_set {α : Type} (f : Nat → α) (l : List Nat) (a : List α) :
    (l.foldl (fun a j => a.set j (f j)) a).length = a.length := by
  induction l generalizing a with
  | nil => rfl
  | cons j l ih => simp [ih]

theorem getD_foldl_set {α : Type} (f : Nat → α) (d : α) (l : List Nat) (a : List α) (j : Nat) :
    (l.foldl (fun a j => a.set j (f j)) a).getD j d =
      if j ∈ l ∧ j < a.length then f j else a.getD j d := by
  induction l generalizing a with
  | nil => simp
  | cons i l ih =>
    simp only [List.foldl_cons, ih, List.length_set, List.mem_cons]
    by_cases hlt : j < a.length
    · by_cases hl : j ∈ l
      · simp [hl, hlt]
      · by_cases hij : j = i
        · subst hij
          simp [hl, hlt, List.getD_eq_getElem?_getD]
        · have : i ≠ j := fun h => hij h.symm
          simp [hl, hij, List.getD_eq_getElem?_getD, List.getElem?_set_ne this]
    · have h1 : a.length ≤ j := Nat.le_of_not_lt hlt
      simp [hlt, List.getD_eq_getElem?_getD, List.getElem?_eq_none, h1]

end LevinsonDurbinRecursion

/-! ## The recursion computes the rows of the reference -/

namespace LevinsonDurbinRecursion

variable {F : Type} [LinearOrderedField F]

/-- The value `k` of iteration `i + 1` is the reflection coefficient of the reference, when `c`
holds row `i` and `e` its error. -/
theorem reflection_eq_k (R : List (Dbl F)) (i : Nat) (c : List (Dbl F)) (e : Dbl F)
    (he : e = Durbin.e (lag R) i)
    (hc : ∀ j, 1 ≤ j → j ≤ i → c.getD j Dbl.nan = Durbin.a (lag R) i j) :
    reflectionLoop R c (i + 1) (-(R.getD (i + 1) Dbl.nan)) / e = Durbin.k (lag R) (i + 1) := by
  rw [reflectionLoop_eq, he]
  have hmap : (List.range' 1 (i + 1 - 1)).map
        (fun j => c.getD j Dbl.nan * R.getD (i + 1 - j) Dbl.nan) =
      (List.range' 1 (i + 1 - 1)).map
        (fun j => (Durbin.row (lag R) (i + 1 - 1)).a j * lag R (i + 1 - j)) := by
    apply List.map_congr_left
    intro j hj
    rw [List.mem_range'_1] at hj
    have h := hc j hj.1 (by omega)
    simp only [Nat.add_sub_cancel]
    rw [h]
    rfl
  rw [hmap]
  rfl

/-- The array `a` after the second inner loop and the store `a[i] = k` of iteration `i + 1`. -/
theorem getD_update (i : Nat) (c a : List (Dbl F)) (k : Dbl F) (j : Nat)
    (hlen : i + 1 < a.length) :
    ((updateLoop c (i + 1) k a).set (i + 1) k).getD j Dbl.nan =
      if 1 ≤ j ∧ j < i + 1 then c.getD j Dbl.nan + k * c.getD (i + 1 - j) Dbl.nan
      else if j = i + 1 then k else a.getD j Dbl.nan := by
  have hl : (updateLoop c (i + 1) k a).length = a.length := length_foldl_set _ _ _
  by_cases hj : j = i + 1
  · subst hj
    have : ¬ (i + 1 < i + 1) := lt_irrefl _
    simp [List.getD_eq_getElem?_getD, hl, hlen]
  · have hne : i + 1 ≠ j := fun h => hj h.symm
    rw [List.getD_eq_getElem?_getD, List.getElem?_set_ne hne, ← List.getD_eq_getElem?_getD]
    unfold updateLoop
    rw [getD_foldl_set (fun j => c.getD j Dbl.nan + k * c.getD (i + 1 - j) Dbl.nan)]
    simp only [List.mem_range'_1, hj, if_false]
    by_cases h1 : 1 ≤ j ∧ j < i + 1
    · have h2 : (1 ≤ j ∧ j < 1 + (i + 1 - 1)) ∧ j < a.length := ⟨⟨h1.1, by omega⟩, by omega⟩
      rw [if_pos h1, if_pos h2]
    · have h2 : ¬ ((1 ≤ j ∧ j < 1 + (i + 1 - 1)) ∧ j < a.length) := by
        intro h
        exact h1 ⟨h.1.1, by omega⟩
      rw [if_neg h1, if_neg h2]

/-- The array `c` after the third inner loop of iteration `i`. -/
theorem getD_copy (i : Nat) (a c : List (Dbl F)) (j : Nat) (hj : j ≤ i) (hlen : i < c.length) :
    (copyLoop a i c).getD j Dbl.nan = a.getD j Dbl.nan := by
  unfold copyLoop
  rw [getD_foldl_set (fun j => a.getD j Dbl.nan)]
  have : j ∈ List.range' 0 (i + 1) ∧ j < c.length := by
    rw [List.mem_range'_1]
    omega
  rw [if_pos this]

end LevinsonDurbinRecursion

namespace LevinsonDurbinRecursion

variable {F : Type} [LinearOrderedField F]

/-- One iteration of the loop takes the locals from row `i` to row `i + 1`. -/
theorem holdsRow_step (R : List (Dbl F)) (len i : Nat) (s : Locals F) (hi : i + 1 < len)
    (h : HoldsRow R len i s) (st : Bool) :
    HoldsRow R len (i + 1)
      { a := (updateLoop s.c (i + 1) (Durbin.k (lag R) (i + 1)) s.a).set (i + 1)
          (Durbin.k (lag R) (i + 1))
        c := copyLoop ((updateLoop s.c (i + 1) (Durbin.k (lag R) (i + 1)) s.a).set (i + 1)
          (Durbin.k (lag R) (i + 1))) (i + 1) s.c
        e := s.e * (1 - Durbin.k (lag R) (i + 1) * Durbin.k (lag R) (i + 1))
        is_stable := st } := by
  have hla : i + 1 < s.a.length := by rw [h.len_a]; exact hi
  have hlc : i + 1 < s.c.length := by rw [h.len_c]; exact hi
  have hrow : ∀ j, 1 ≤ j → j ≤ i + 1 →
      ((updateLoop s.c (i + 1) (Durbin.k (lag R) (i + 1)) s.a).set (i + 1)
        (Durbin.k (lag R) (i + 1))).getD j Dbl.nan = Durbin.a (lag R) (i + 1) j := by
    intro j h1 h2
    rw [getD_update i s.c s.a _ j hla]
    show _ = (if 1 ≤ j ∧ j < i + 1 then
        (Durbin.row (lag R) i).a j + Durbin.refl (lag R) (i + 1) (Durbin.row (lag R) i) *
          (Durbin.row (lag R) i).a (i + 1 - j)
      else if j = i + 1 then Durbin.refl (lag R) (i + 1) (Durbin.row (lag R) i) else 0)
    by_cases hj : 1 ≤ j ∧ j < i + 1
    · rw [if_pos hj, if_pos hj, h.c_eq j hj.1 (by omega), h.c_eq (i + 1 - j) (by omega) (by omega)]
      rfl
    · have hj2 : j = i + 1 := by omega
      rw [if_neg hj, if_neg hj, if_pos hj2, if_pos hj2]
      rfl
  refine ⟨?_, ?_, ?_, ?_, hrow, ?_⟩
  · simp only [List.length_set]
    rw [show (updateLoop s.c (i + 1) (Durbin.k (lag R) (i + 1)) s.a).length = s.a.length from
      length_foldl_set _ _ _]
    exact h.len_a
  · show (copyLoop _ (i + 1) s.c).length = len
    rw [show (copyLoop ((updateLoop s.c (i + 1) (Durbin.k (lag R) (i + 1)) s.a).set (i + 1)
      (Durbin.k (lag R) (i + 1))) (i + 1) s.c).length = s.c.length from length_foldl_set _ _ _]
    exact h.len_c
  · show s.e * _ = _
    rw [h.e_eq]
    rfl
  · show ((updateLoop s.c (i + 1) (Durbin.k (lag R) (i + 1)) s.a).set (i + 1)
        (Durbin.k (lag R) (i + 1))).getD 0 Dbl.nan = 0
    rw [getD_update i s.c s.a _ 0 hla]
    have h1 : ¬ (1 ≤ 0 ∧ 0 < i + 1) := by omega
    have h2 : ¬ (0 = i + 1) := by omega
    rw [if_neg h1, if_neg h2]
    exact h.a_zero
  · intro j h1 h2
    show (copyLoop _ (i + 1) s.c).getD j Dbl.nan = _
    rw [getD_copy (i + 1) _ s.c j h2 hlc]
    exact hrow j h1 h2

/-- The loop of `Run`, entered at iteration `i + 1` with the locals holding row `i`: it runs to
its end exactly when the errors `e_(i+1)`, ..., `e_(i+n)` of the reference are all non-zero
numbers, and it then leaves row `i + n` in the locals, with the flag cleared exactly when some
`1 ≤ |k_m|` was met. -/
theorem durbinLoop_spec (R : List (Dbl F)) (n : Nat) : ∀ (i : Nat) (s : Locals F),
    HoldsRow R (i + 1 + n) i s →
    ((durbinLoop R n (i + 1) s).1 = true ↔
      ∀ m, i < m → m ≤ i + n → Dbl.usable (Durbin.e (lag R) m) = true) ∧
    ((durbinLoop R n (i + 1) s).1 = true →
      HoldsRow R (i + 1 + n) (i + n) (durbinLoop R n (i + 1) s).2 ∧
      ((durbinLoop R n (i + 1) s).2.is_stable = true ↔
        s.is_stable = true ∧
          ∀ m, i < m → m ≤ i + n → Dbl.le 1 (Dbl.fabs (Durbin.k (lag R) m)) = false)) := by
  induction n with
  | zero =>
    intro i s h
    refine ⟨⟨fun _ m h1 h2 => absurd h2 (by omega), fun _ => rfl⟩, fun _ => ⟨h, ?_⟩⟩
    show s.is_stable = true ↔ _
    exact ⟨fun hs => ⟨hs, fun m h1 h2 => absurd h2 (by omega)⟩, fun hs => hs.1⟩
  | succ n ih =>
    intro i s h
    have hk := reflection_eq_k R i s.c s.e h.e_eq h.c_eq
    have he1 : Durbin.e (lag R) (i + 1) =
        s.e * (1 - Durbin.k (lag R) (i + 1) * Durbin.k (lag R) (i + 1)) := by
      rw [h.e_eq]
      rfl
    unfold durbinLoop
    simp only [hk]
    rw [← he1]
    by_cases hu : Dbl.usable (Durbin.e (lag R) (i + 1)) = true
    · have hcond : ¬ ((Dbl.eq 0 (Durbin.e (lag R) (i + 1)) ||
          Dbl.isnan (Durbin.e (lag R) (i + 1))) = true) := Dbl.not_check_of_usable hu
      rw [if_neg hcond]
      have hstep := holdsRow_step R (i + 1 + (n + 1)) i s (by omega) h
        (if Dbl.le 1 (Dbl.fabs (Durbin.k (lag R) (i + 1))) = true then false else s.is_stable)
      rw [← he1] at hstep
      have hlen : i + 1 + (n + 1) = i + 1 + 1 + n := by omega
      rw [hlen] at hstep
      obtain ⟨ih1, ih2⟩ := ih (i + 1) _ hstep
      have hidx : i + 1 + n = i + (n + 1) := by omega
      refine ⟨?_, ?_⟩
      · rw [ih1]
        constructor
        · intro hall m h1 h2
          by_cases hm : m = i + 1
          · rw [hm]; exact hu
          · exact hall m (by omega) (by omega)
        · intro hall m h1 h2
          exact hall m (by omega) (by omega)
      · intro hok
        obtain ⟨hrow, hst⟩ := ih2 hok
        rw [hlen, ← hidx]
        refine ⟨hrow, ?_⟩
        rw [hst]
        constructor
        · rintro ⟨h0, hall⟩
          by_cases hle : Dbl.le 1 (Dbl.fabs (Durbin.k (lag R) (i + 1))) = true
          · rw [if_pos hle] at h0
            exact absurd h0 (by simp)
          · rw [if_neg hle] at h0
            refine ⟨h0, fun m h1 h2 => ?_⟩
            by_cases hm : m = i + 1
            · rw [hm]; simpa using hle
            · exact hall m (by omega) (by omega)
        · rintro ⟨h0, hall⟩
          have hle : ¬ (Dbl.le 1 (Dbl.fabs (Durbin.k (lag R) (i + 1))) = true) := by
            rw [hall (i + 1) (by omega) (by omega)]
            simp
          rw [if_neg hle]
          exact ⟨h0, fun m h1 h2 => hall m (by omega) (by omega)⟩
    · have hcond : (Dbl.eq 0 (Durbin.e (lag R) (i + 1)) ||
          Dbl.isnan (Durbin.e (lag R) (i + 1))) = true := Dbl.check_of_not_usable hu
      rw [if_pos hcond]
      refine ⟨⟨fun hf => absurd hf (by simp), fun hall => ?_⟩, fun hf => absurd hf (by simp)⟩
      exact absurd (hall (i + 1) (by omega) (by omega)) hu

end LevinsonDurbinRecursion

/-! ## The method `Run` on a valid instance -/

namespace LevinsonDurbinRecursion

variable {F : Type} [LinearOrderedField F]

theorem length_resize (v : List (Dbl F)) (n : Nat) : (resize v n).length = n := by
  simp only [resize, List.length_append, List.length_take, List.length_replicate]
  omega

theorem length_prepared (v : List (Dbl F)) (n : Nat) :
    (if v.length ≠ n then resize v n else v).length = n := by
  by_cases h : v.length = n
  · simp [h]
  · simp [h, length_resize]

theorem holdsRow_start (R out : List (Dbl F)) (buf : Buffer F) (M : Nat) :
    HoldsRow R (0 + 1 + M) 0 (start R out buf M) := by
  have hM : 0 + 1 + M = M + 1 := by omega
  refine ⟨?_, ?_, rfl, ?_, fun j h1 h2 => absurd h2 (by omega), fun j h1 h2 => absurd h2 (by omega)⟩
  · simp only [start, List.length_set]
    rw [length_prepared, hM]
  · simp only [start]
    rw [length_prepared, hM]
  · have hl := length_prepared out (M + 1)
    simp only [start, List.getD_eq_getElem?_getD]
    rw [List.getElem?_set_self (by omega)]
    rfl

/-- The body of `Run` once the checks of its arguments are passed. -/
theorem Run_eq (rt : F → F) (M : Nat) (R out : List (Dbl F)) (st : Bool) (buf : Buffer F)
    (hlen : R.length = M + 1) :
    Run rt (new (M : Int)) R (some out) (some st) (some buf) =
      if Dbl.usable (lag R 0) = true then
        if (durbinLoop R M 1 (start R out buf M)).1 = true then
          { ret := true
            linear_predictive_coefficients :=
              some ((durbinLoop R M 1 (start R out buf M)).2.a.set 0
                (Dbl.sqrt rt (durbinLoop R M 1 (start R out buf M)).2.e))
            is_stable := some (durbinLoop R M 1 (start R out buf M)).2.is_stable
            buffer := some ⟨(durbinLoop R M 1 (start R out buf M)).2.c⟩ }
        else
          { ret := false
            linear_predictive_coefficients := some (durbinLoop R M 1 (start R out buf M)).2.a
            is_stable := some (durbinLoop R M 1 (start R out buf M)).2.is_stable
            buffer := some ⟨(durbinLoop R M 1 (start R out buf M)).2.c⟩ }
      else
        { ret := false
          linear_predictive_coefficients := some (start R out buf M).a
          is_stable := some true
          buffer := some ⟨(start R out buf M).c⟩ } := by
  have hnew : new (M : Int) = { num_order_ := (M : Int), is_valid_ := true } := by
    have : ¬ ((M : Int) < 0) := by omega
    simp [new, this]
  have h1 : ((M : Int) + 1).toNat = M + 1 := by omega
  have h2 : (R.length : Int) = (M : Int) + 1 := by rw [hlen]; push_cast; rfl
  rw [hnew]
  unfold Run
  simp only [h1, h2, Bool.not_true, Bool.false_or, ne_eq, not_true_eq_false, decide_False,
    if_false, Nat.add_sub_cancel]
  rw [if_neg (by simp)]
  by_cases hu : Dbl.usable (lag R 0) = true
  · have hc : ¬ ((Dbl.eq 0 (R.getD 0 Dbl.nan) || Dbl.isnan (R.getD 0 Dbl.nan)) = true) :=
      Dbl.not_check_of_usable hu
    rw [if_pos hu, if_neg hc]
    rfl
  · have hc : (Dbl.eq 0 (R.getD 0 Dbl.nan) || Dbl.isnan (R.getD 0 Dbl.nan)) = true :=
      Dbl.check_of_not_usable hu
    rw [if_neg hu, if_pos hc]
    rfl

end LevinsonDurbinRecursion

namespace Durbin

variable {F : Type} [LinearOrderedField F]

theorem regular_iff (r : Nat → Dbl F) (M : Nat) :
    regular r M = true ↔ ∀ m, m ≤ M → Dbl.usable (e r m) = true := by
  simp only [regular, List.all_eq_true, List.mem_range]
  exact ⟨fun h m hm => h m (by omega), fun h m hm => h m (by omega)⟩

theorem stable_iff (r : Nat → Dbl F) (M : Nat) :
    stable r M = true ↔ ∀ m, 1 ≤ m → m ≤ M → Dbl.le 1 (Dbl.fabs (k r m)) = false := by
  simp only [stable, List.all_eq_true, List.mem_range'_1, Bool.not_eq_true']
  exact ⟨fun h m h1 h2 => h m ⟨h1, by omega⟩, fun h m hm => h m hm.1 (by omega)⟩

end Durbin

namespace LevinsonDurbinRecursion

variable {F : Type} [LinearOrderedField F]

theorem set_zero_eq_cons (l : List (Dbl F)) (M : Nat) (x : Dbl F) (f : Nat → Dbl F)
    (hl : l.length = M + 1) (h : ∀ j, 1 ≤ j → j ≤ M → l.getD j Dbl.nan = f j) :
    l.set 0 x = x :: (List.range' 1 M).map f := by
  apply List.ext_getElem
  · simp [hl]
  · intro j h1 h2
    cases j with
    | zero => simp
    | succ j =>
      have hj : j + 1 < l.length := by simpa using h1
      have := h (j + 1) (by omega) (by omega)
      rw [List.getD_eq_getElem _ _ hj] at this
      simp [this, Nat.add_comm]

/-- `Run` returns `true` exactly when every error `e_0`, ..., `e_M` of the reference is a
non-zero number. -/
theorem Run_ret (rt : F → F) (M : Nat) (R out : List (Dbl F)) (st : Bool) (buf : Buffer F)
    (hlen : R.length = M + 1) :
    (Run rt (new (M : Int)) R (some out) (some st) (some buf)).ret = Durbin.regular (lag R) M := by
  have hspec := (durbinLoop_spec R M 0 (start R out buf M) (holdsRow_start R out buf M)).1
  simp only [Nat.zero_add] at hspec
  rw [Run_eq rt M R out st buf hlen]
  by_cases hu : Dbl.usable (lag R 0) = true
  · rw [if_pos hu]
    by_cases hd : (durbinLoop R M 1 (start R out buf M)).1 = true
    · rw [if_pos hd]
      symm
      rw [Durbin.regular_iff]
      intro m hm
      by_cases h0 : m = 0
      · rw [h0]; exact hu
      · exact hspec.1 hd m (by omega) hm
    · rw [if_neg hd]
      symm
      rw [Bool.eq_false_iff]
      intro hreg
      rw [Durbin.regular_iff] at hreg
      exact hd (hspec.2 (fun m _ h2 => hreg m h2))
  · rw [if_neg hu]
    symm
    rw [Bool.eq_false_iff]
    intro hreg
    rw [Durbin.regular_iff] at hreg
    exact hu (hreg 0 (by omega))

/-- When `Run` returns `true` it leaves the output vector and the flag of the reference. -/
theorem Run_true (rt : F → F) (M : Nat) (R out : List (Dbl F)) (st : Bool) (buf : Buffer F)
    (hlen : R.length = M + 1)
    (hok : (Run rt (new (M : Int)) R (some out) (some st) (some buf)).ret = true) :
    (Run rt (new (M : Int)) R (some out) (some st) (some buf)).linear_predictive_coefficients =
        some (Durbin.lpc rt (lag R) M) ∧
      (Run rt (new (M : Int)) R (some out) (some st) (some buf)).is_stable =
        some (Durbin.stable (lag R) M) := by
  have hspec := (durbinLoop_spec R M 0 (start R out buf M) (holdsRow_start R out buf M)).2
  simp only [Nat.zero_add] at hspec
  rw [Run_eq rt M R out st buf hlen] at hok ⊢
  by_cases hu : Dbl.usable (lag R 0) = true
  · rw [if_pos hu] at hok ⊢
    by_cases hd : (durbinLoop R M 1 (start R out buf M)).1 = true
    · rw [if_pos hd]
      obtain ⟨hrow, hst⟩ := hspec hd
      constructor
      · show some _ = some _
        rw [set_zero_eq_cons _ M _ (Durbin.a (lag R) M) (by rw [hrow.len_a]; omega) hrow.a_eq,
          hrow.e_eq]
        rfl
      · show some _ = some _
        congr 1
        rw [Bool.eq_iff_iff, hst, Durbin.stable_iff]
        exact ⟨fun h m h1 h2 => h.2 m (by omega) h2, fun h => ⟨rfl, fun m h1 h2 => h m (by omega) h2⟩⟩
    · rw [if_neg hd] at hok
      exact absurd hok (by simp)
  · rw [if_neg hu] at hok
    exact absurd hok (by simp)

end LevinsonDurbinRecursion

/-! ## The Yule-Walker equations, in the field -/

namespace Durbin
theorem list_sum_range' {F : Type} [AddCommMonoid F] (f : Nat → F) (n : Nat) :
    ((List.range' 1 n).map f).sum = ∑ j ∈ Finset.range n, f (j + 1) := by
  induction n with
  | zero => simp
  | succ n ih =>
    rw [List.range'_concat, List.map_append, List.sum_append, ih, Finset.sum_range_succ]
    simp [Nat.add_comm]

theorem yw_reflect {F : Type} [Field F] (r a : Nat → F) (i m : Nat) (hm : m ≤ i + 1) :
    ∑ j ∈ Finset.range i, a (i - j) * r (Nat.dist m (j + 1)) =
      ∑ j ∈ Finset.range i, a (j + 1) * r (Nat.dist (i + 1 - m) (j + 1)) := by
  rw [← Finset.sum_range_reflect (fun j => a (j + 1) * r (Nat.dist (i + 1 - m) (j + 1))) i]
  apply Finset.sum_congr rfl
  intro j hj
  rw [Finset.mem_range] at hj
  have h1 : i - 1 - j + 1 = i - j := by omega
  have h2 : Nat.dist (i + 1 - m) (i - j) = Nat.dist m (j + 1) := by
    simp only [Nat.dist]
    omega
  rw [h1, h2]

theorem yw_step {F : Type} [Field F] (r a b : Nat → F) (e k : F) (i : Nat)
    (hyw : ∀ m, 1 ≤ m → m ≤ i →
      r m + ∑ j ∈ Finset.range i, a (j + 1) * r (Nat.dist m (j + 1)) = 0)
    (he : e = r 0 + ∑ j ∈ Finset.range i, a (j + 1) * r (j + 1))
    (hk : k * e = -(r (i + 1) + ∑ j ∈ Finset.range i, a (j + 1) * r (i - j)))
    (hb : ∀ j, j < i → b (j + 1) = a (j + 1) + k * a (i - j)) (hbi : b (i + 1) = k) :
    (∀ m, 1 ≤ m → m ≤ i + 1 →
      r m + ∑ j ∈ Finset.range (i + 1), b (j + 1) * r (Nat.dist m (j + 1)) = 0) ∧
    e * (1 - k * k) = r 0 + ∑ j ∈ Finset.range (i + 1), b (j + 1) * r (j + 1) := by
  have hsplit : ∀ g : Nat → F, ∑ j ∈ Finset.range i, b (j + 1) * g j =
      ∑ j ∈ Finset.range i, a (j + 1) * g j + k * ∑ j ∈ Finset.range i, a (i - j) * g j := by
    intro g
    rw [Finset.mul_sum, ← Finset.sum_add_distrib]
    apply Finset.sum_congr rfl
    intro j hj
    rw [Finset.mem_range] at hj
    rw [hb j hj]
    ring
  have hT : ∑ j ∈ Finset.range i, a (j + 1) * r (i - j) =
      ∑ j ∈ Finset.range i, a (j + 1) * r (Nat.dist (i + 1 - 0) (j + 1)) := by
    apply Finset.sum_congr rfl
    intro j hj
    rw [Finset.mem_range] at hj
    have : Nat.dist (i + 1 - 0) (j + 1) = i - j := by
      simp only [Nat.dist]
      omega
    rw [this]
  have hdist0 : ∀ j, Nat.dist 0 (j + 1) = j + 1 := by
    intro j
    simp [Nat.dist]
  have hrefl0 := yw_reflect r a i 0 (by omega)
  simp only [hdist0] at hrefl0
  rw [← hT] at hrefl0
  constructor
  · intro m h1 h2
    rw [Finset.sum_range_succ, hbi, hsplit (fun j => r (Nat.dist m (j + 1))),
      yw_reflect r a i m h2]
    by_cases hm : m = i + 1
    · subst hm
      have hd : Nat.dist (i + 1) (i + 1) = 0 := by simp [Nat.dist]
      have hS : ∑ j ∈ Finset.range i, a (j + 1) * r (Nat.dist (i + 1) (j + 1)) =
          ∑ j ∈ Finset.range i, a (j + 1) * r (i - j) := by
        rw [hT]
        rfl
      have hS2 : ∑ j ∈ Finset.range i, a (j + 1) * r (Nat.dist (i + 1 - (i + 1)) (j + 1)) =
          ∑ j ∈ Finset.range i, a (j + 1) * r (j + 1) := by
        apply Finset.sum_congr rfl
        intro j _
        rw [Nat.sub_self, hdist0]
      rw [hd, hS, hS2]
      linear_combination hk - k * he
    · have hd : Nat.dist m (i + 1) = i + 1 - m := by
        simp only [Nat.dist]
        omega
      rw [hd]
      have e1 := hyw m h1 (by omega)
      have e2 := hyw (i + 1 - m) (by omega) (by omega)
      linear_combination e1 + k * e2
  · rw [Finset.sum_range_succ, hbi, hsplit (fun j => r (j + 1)), hrefl0]
    linear_combination he - k * hk

theorem k_mul_e {F : Type} [LinearOrderedField F] (r : Nat → F) (i : Nat) (hne : e r i ≠ 0) :
    k r (i + 1) * e r i =
      -(r (i + 1) + ∑ j ∈ Finset.range i, a r i (j + 1) * r (i - j)) := by
  have hk : k r (i + 1) =
      -(r (i + 1) + ((List.range' 1 i).map (fun j => a r i j * r (i + 1 - j))).sum) / e r i := rfl
  rw [hk, list_sum_range', div_mul_cancel₀ _ hne]
  simp only [Nat.add_sub_add_right]

theorem a_succ_of_lt {D : Type} [Zero D] [One D] [Add D] [Sub D] [Mul D] [Div D] [Neg D]
    (r : Nat → D) (i j : Nat) (h1 : 1 ≤ j) (h2 : j < i + 1) :
    a r (i + 1) j = a r i j + k r (i + 1) * a r i (i + 1 - j) := by
  show (if 1 ≤ j ∧ j < i + 1 then _ else _) = _
  rw [if_pos ⟨h1, h2⟩]
  rfl

theorem a_succ_self {D : Type} [Zero D] [One D] [Add D] [Sub D] [Mul D] [Div D] [Neg D]
    (r : Nat → D) (i : Nat) : a r (i + 1) (i + 1) = k r (i + 1) := by
  show (if 1 ≤ i + 1 ∧ i + 1 < i + 1 then _ else _) = _
  rw [if_neg (by omega), if_pos rfl]
  rfl

theorem e_succ {D : Type} [Zero D] [One D] [Add D] [Sub D] [Mul D] [Div D] [Neg D]
    (r : Nat → D) (i : Nat) : e r (i + 1) = e r i * (1 - k r (i + 1) * k r (i + 1)) := rfl

/-- Row `i` of the reference, computed in the field without meeting a zero error, solves the
Yule-Walker equations of order `i`, and `e_i = R(0) + Σ_j a^(i)(j) R(j)`. -/
theorem yule_walker_row {F : Type} [LinearOrderedField F] (r : Nat → F) (i : Nat)
    (hne : ∀ m, m < i → e r m ≠ 0) :
    (∀ m, 1 ≤ m → m ≤ i →
      r m + ∑ j ∈ Finset.range i, a r i (j + 1) * r (Nat.dist m (j + 1)) = 0) ∧
    e r i = r 0 + ∑ j ∈ Finset.range i, a r i (j + 1) * r (j + 1) := by
  induction i with
  | zero =>
    refine ⟨fun m h1 h2 => absurd h2 (by omega), ?_⟩
    simp only [Finset.range_zero, Finset.sum_empty, add_zero]
    rfl
  | succ i ih =>
    obtain ⟨h1, h2⟩ := ih (fun m hm => hne m (by omega))
    rw [e_succ]
    exact yw_step r (a r i) (a r (i + 1)) (e r i) (k r (i + 1)) i h1 h2
      (k_mul_e r i (hne i (by omega)))
      (fun j hj => by
        rw [a_succ_of_lt r i (j + 1) (by omega) (by omega), Nat.add_sub_add_right])
      (a_succ_self r i)

end Durbin

/-! ## From the model of `double` to the field -/

namespace Dbl

variable {F : Type} [LinearOrderedField F]

theorem eq_num_val {x : Dbl F} (h : isnan x = false) : x = num (val x) := by
  cases x with
  | num x => rfl
  | nan => simp at h

theorem isnan_of_usable {x : Dbl F} (h : usable x = true) : isnan x = false := by
  obtain ⟨y, hy, _⟩ := (usable_iff x).1 h
  rw [hy]
  rfl

theorem isnan_mul {x y : Dbl F} (h : isnan (x * y) = false) :
    isnan x = false ∧ isnan y = false := by
  cases x <;> cases y <;> simp_all

theorem isnan_add {x y : Dbl F} (h : isnan (x + y) = false) :
    isnan x = false ∧ isnan y = false := by
  cases x <;> cases y <;> simp_all

theorem isnan_sub {x y : Dbl F} (h : isnan (x - y) = false) :
    isnan x = false ∧ isnan y = false := by
  cases x <;> cases y <;> simp_all

theorem isnan_div {x y : Dbl F} (h : isnan (x / y) = false) :
    isnan x = false ∧ isnan y = false := by
  cases x <;> cases y <;> simp_all

theorem isnan_neg {x : Dbl F} (h : isnan (-x) = false) : isnan x = false := by
  cases x <;> simp_all

end Dbl

namespace Durbin

variable {F : Type} [LinearOrderedField F]

/-- An error `e_(i+1)` that is a number needed a number `R(i+1)`. -/
theorem isnan_lag_of_usable (r : Nat → Dbl F) (i : Nat) (h : Dbl.usable (e r (i + 1)) = true) :
    Dbl.isnan (r (i + 1)) = false := by
  have h1 := Dbl.isnan_of_usable h
  rw [e_succ] at h1
  have h1a : Dbl.isnan (1 - k r (i + 1) * k r (i + 1)) = false := (Dbl.isnan_mul h1).2
  have h1b : Dbl.isnan (k r (i + 1) * k r (i + 1)) = false := (Dbl.isnan_sub h1a).2
  have h2 : Dbl.isnan (k r (i + 1)) = false := (Dbl.isnan_mul h1b).1
  have h3 : k r (i + 1) =
      -(r (i + 1) + ((List.range' 1 i).map (fun j => a r i j * r (i + 1 - j))).sum) / e r i := rfl
  rw [h3] at h2
  exact (Dbl.isnan_add (Dbl.isnan_neg (Dbl.isnan_div h2).1)).1

/-- One row further, the reference in the model is the reference in the field, as long as the
error of the row before is not zero. -/
theorem row_succ_num (r : Nat → Dbl F) (x : Nat → F) (i : Nat)
    (hr : ∀ j, j ≤ i + 1 → r j = Dbl.num (x j)) (he : e r i = Dbl.num (e x i))
    (ha : ∀ j, a r i j = Dbl.num (a x i j)) (hne : e x i ≠ 0) :
    k r (i + 1) = Dbl.num (k x (i + 1)) ∧ e r (i + 1) = Dbl.num (e x (i + 1)) ∧
      ∀ j, a r (i + 1) j = Dbl.num (a x (i + 1) j) := by
  have hk : k r (i + 1) = Dbl.num (k x (i + 1)) := by
    have h3 : k r (i + 1) =
        -(r (i + 1) + ((List.range' 1 i).map (fun j => a r i j * r (i + 1 - j))).sum) / e r i :=
      rfl
    have h4 : k x (i + 1) =
        -(x (i + 1) + ((List.range' 1 i).map (fun j => a x i j * x (i + 1 - j))).sum) / e x i :=
      rfl
    have hmap : (List.range' 1 i).map (fun j => a r i j * r (i + 1 - j)) =
        (List.range' 1 i).map (fun j => Dbl.num (a x i j * x (i + 1 - j))) := by
      apply List.map_congr_left
      intro j hj
      rw [List.mem_range'_1] at hj
      rw [ha j, hr (i + 1 - j) (by omega)]
      rfl
    rw [h3, h4, hmap, Dbl.sum_map_num, hr (i + 1) (le_refl _), he]
    simp [hne]
  refine ⟨hk, ?_, ?_⟩
  · rw [e_succ, e_succ, hk, he]
    rfl
  · intro j
    show (if 1 ≤ j ∧ j < i + 1 then a r i j + k r (i + 1) * a r i (i + 1 - j)
      else if j = i + 1 then k r (i + 1) else 0) =
      Dbl.num (if 1 ≤ j ∧ j < i + 1 then a x i j + k x (i + 1) * a x i (i + 1 - j)
      else if j = i + 1 then k x (i + 1) else 0)
    rw [hk, ha j, ha (i + 1 - j)]
    split_ifs <;> rfl

/-- While the errors are non-zero numbers, the rows of the reference in the model are those of
the reference in the field, whose errors are not zero either. -/
theorem row_num (r : Nat → Dbl F) (x : Nat → F) (i : Nat)
    (hr : ∀ j, j ≤ i → r j = Dbl.num (x j))
    (hreg : ∀ m, m ≤ i → Dbl.usable (e r m) = true) :
    e r i = Dbl.num (e x i) ∧ e x i ≠ 0 ∧ (∀ j, a r i j = Dbl.num (a x i j)) ∧
      (1 ≤ i → k r i = Dbl.num (k x i)) := by
  have hne : ∀ m, Dbl.usable (e r m) = true → e r m = Dbl.num (e x m) → e x m ≠ 0 := by
    intro m hu hm
    obtain ⟨y, hy, hy0⟩ := (Dbl.usable_iff _).1 hu
    rw [hm] at hy
    cases hy
    exact hy0
  induction i with
  | zero =>
    have h0 : e r 0 = Dbl.num (e x 0) := hr 0 (le_refl _)
    exact ⟨h0, hne 0 (hreg 0 (le_refl _)) h0, fun j => rfl, fun h => absurd h (by omega)⟩
  | succ i ih =>
    obtain ⟨h1, h2, h3, _⟩ := ih (fun j hj => hr j (by omega)) (fun m hm => hreg m (by omega))
    obtain ⟨hk, he, ha⟩ := row_succ_num r x i hr h1 h3 h2
    exact ⟨he, hne (i + 1) (hreg (i + 1) (le_refl _)) he, ha, fun _ => hk⟩

/-- A regular autocorrelation holds numbers only. -/
theorem num_of_regular (r : Nat → Dbl F) (M : Nat) (hreg : regular r M = true) (j : Nat)
    (hj : j ≤ M) : r j = Dbl.num (Dbl.val (r j)) := by
  rw [regular_iff] at hreg
  apply Dbl.eq_num_val
  cases j with
  | zero => exact Dbl.isnan_of_usable (hreg 0 hj)
  | succ j => exact isnan_lag_of_usable r j (hreg (j + 1) hj)

end Durbin

namespace LevinsonDurbinRecursion

variable {F : Type} [LinearOrderedField F]

/-- `Run` fails on an invalid instance, on a vector of the wrong length and on a `NULL`
pointer. -/
theorem Run_check (rt : F → F) (M : Int) (R : List (Dbl F)) (lpc : Option (List (Dbl F)))
    (st : Option Bool) (buf : Option (Buffer F))
    (h : M < 0 ∨ (R.length : Int) ≠ M + 1 ∨ lpc = none ∨ st = none ∨ buf = none) :
    Run rt (new M) R lpc st buf = ⟨false, lpc, st, buf⟩ := by
  unfold Run
  cases lpc with
  | none => rfl
  | some out =>
    cases st with
    | none => rfl
    | some s =>
      cases buf with
      | none => rfl
      | some b =>
        have hc : (!(new M).is_valid_ || decide ((R.length : Int) ≠ (new M).num_order_ + 1))
            = true := by
          by_cases hM : M < 0
          · simp [new, hM]
          · have h2 : (R.length : Int) ≠ M + 1 := by
              rcases h with h | h | h | h | h
              · exact absurd h hM
              · exact h
              · exact absurd h (by simp)
              · exact absurd h (by simp)
              · exact absurd h (by simp)
            simp [new, hM, h2]
        simp only [hc, if_true]

/-- A call of `Run` that returns `true` had a vector of `M + 1` elements and no `NULL`
pointer. -/
theorem Run_inv (rt : F → F) (M : Nat) (R : List (Dbl F)) (lpc : Option (List (Dbl F)))
    (st : Option Bool) (buf : Option (Buffer F))
    (hok : (Run rt (new (M : Int)) R lpc st buf).ret = true) :
    R.length = M + 1 ∧ ∃ out s b, lpc = some out ∧ st = some s ∧ buf = some b := by
  by_cases h : (R.length : Int) ≠ (M : Int) + 1 ∨ lpc = none ∨ st = none ∨ buf = none
  · rw [Run_check rt M R lpc st buf (Or.inr h)] at hok
    exact absurd hok (by simp)
  · simp only [not_or, ne_eq, not_not] at h
    obtain ⟨h1, h2, h3, h4⟩ := h
    refine ⟨by exact_mod_cast h1, ?_⟩
    cases lpc with
    | none => exact absurd rfl h2
    | some out =>
      cases st with
      | none => exact absurd rfl h3
      | some s =>
        cases buf with
        | none => exact absurd rfl h4
        | some b => exact ⟨out, s, b, rfl, rfl, rfl⟩

/-- The value returned by the loop, the flag and the error it leaves depend on the locals only
through the row they hold and the flag. -/
theorem durbinLoop_congr (R : List (Dbl F)) (n : Nat) : ∀ (i : Nat) (s t : Locals F),
    HoldsRow R (i + 1 + n) i s → HoldsRow R (i + 1 + n) i t → s.is_stable = t.is_stable →
    (durbinLoop R n (i + 1) s).1 = (durbinLoop R n (i + 1) t).1 ∧
    (durbinLoop R n (i + 1) s).2.is_stable = (durbinLoop R n (i + 1) t).2.is_stable ∧
    (durbinLoop R n (i + 1) s).2.e = (durbinLoop R n (i + 1) t).2.e := by
  induction n with
  | zero =>
    intro i s t hs ht hst
    exact ⟨rfl, hst, by rw [show (durbinLoop R 0 (i + 1) s).2.e = s.e from rfl,
      show (durbinLoop R 0 (i + 1) t).2.e = t.e from rfl, hs.e_eq, ht.e_eq]⟩
  | succ n ih =>
    intro i s t hs ht hst
    have hks := reflection_eq_k R i s.c s.e hs.e_eq hs.c_eq
    have hkt := reflection_eq_k R i t.c t.e ht.e_eq ht.c_eq
    have hes : s.e = t.e := by rw [hs.e_eq, ht.e_eq]
    have hlen : i + 1 + (n + 1) = i + 1 + 1 + n := by omega
    rw [hes] at hks
    unfold durbinLoop
    simp only [hes, hks, hkt, hst]
    by_cases hc : (Dbl.eq 0 (t.e * (1 - Durbin.k (lag R) (i + 1) * Durbin.k (lag R) (i + 1))) ||
        Dbl.isnan (t.e * (1 - Durbin.k (lag R) (i + 1) * Durbin.k (lag R) (i + 1)))) = true
    · rw [if_pos hc, if_pos hc]
      exact ⟨rfl, rfl, rfl⟩
    · rw [if_neg hc, if_neg hc]
      have h1 := holdsRow_step R (i + 1 + (n + 1)) i s (by omega) hs
        (if Dbl.le 1 (Dbl.fabs (Durbin.k (lag R) (i + 1))) = true then false else t.is_stable)
      have h2 := holdsRow_step R (i + 1 + (n + 1)) i t (by omega) ht
        (if Dbl.le 1 (Dbl.fabs (Durbin.k (lag R) (i + 1))) = true then false else t.is_stable)
      rw [hlen] at h1 h2
      rw [hes] at h1
      exact ih (i + 1) _ _ h1 h2 rfl

end LevinsonDurbinRecursion

namespace LevinsonDurbinRecursion

variable {F : Type} [LinearOrderedField F]

/-- The value returned by `Run` and the flag it leaves do not depend on what the output vector
and the buffer held before the call. -/
theorem Run_congr (rt : F → F) (M : Nat) (R out1 out2 : List (Dbl F)) (st : Bool)
    (buf1 buf2 : Buffer F) (hlen : R.length = M + 1) :
    (Run rt (new (M : Int)) R (some out1) (some st) (some buf1)).ret =
        (Run rt (new (M : Int)) R (some out2) (some st) (some buf2)).ret ∧
      (Run rt (new (M : Int)) R (some out1) (some st) (some buf1)).is_stable =
        (Run rt (new (M : Int)) R (some out2) (some st) (some buf2)).is_stable := by
  obtain ⟨h1, h2, _⟩ := durbinLoop_congr R M 0 (start R out1 buf1 M) (start R out2 buf2 M)
    (holdsRow_start R out1 buf1 M) (holdsRow_start R out2 buf2 M) rfl
  simp only [Nat.zero_add] at h1 h2
  rw [Run_eq rt M R out1 st buf1 hlen, Run_eq rt M R out2 st buf2 hlen]
  by_cases hu : Dbl.usable (lag R 0) = true
  · rw [if_pos hu, if_pos hu]
    by_cases hd : (durbinLoop R M 1 (start R out2 buf2 M)).1 = true
    · rw [if_pos hd, if_pos (h1.trans hd)]
      exact ⟨rfl, congrArg some h2⟩
    · rw [if_neg hd, if_neg (fun h => hd (h1.symm.trans h))]
      exact ⟨rfl, congrArg some h2⟩
  · rw [if_neg hu, if_neg hu]
    exact ⟨rfl, rfl⟩

end LevinsonDurbinRecursion

/-! ## Claims -/

section Claims

variable {F : Type} [LinearOrderedField F]

theorem getD_lpc (rt : F → F) (r : Nat → Dbl F) (M j : Nat) (h1 : 1 ≤ j) (h2 : j ≤ M) :
    (Durbin.lpc rt r M).getD j Dbl.nan = Durbin.a r M j := by
  obtain ⟨i, rfl⟩ : ∃ i, j = i + 1 := ⟨j - 1, by omega⟩
  have hi : i < ((List.range' 1 M).map (Durbin.a r M)).length := by
    simp only [List.length_map, List.length_range']
    omega
  simp only [Durbin.lpc, List.getD_cons_succ]
  rw [List.getD_eq_getElem _ _ hi]
  simp [Nat.add_comm]

/-- C1: when `Run` succeeds on an autocorrelation `R(0..M)`, the coefficients `a(1..M)` it
leaves in the output vector solve the Yule-Walker equations: for every `i` in `1..M`,
`R(i) + Σ_{j=1..M} a(j) R(|i-j|)` evaluates to the number zero. -/
theorem C1_yule_walker (rt : F → F) (M : Nat) (R : List (Dbl F))
    (lpc : Option (List (Dbl F))) (st : Option Bool) (buf : Option (Buffer F))
    (hok : (Run rt (new (M : Int)) R lpc st buf).ret = true) :
    ∃ out, (Run rt (new (M : Int)) R lpc st buf).linear_predictive_coefficients = some out ∧
      ∀ i, 1 ≤ i → i ≤ M →
        R.getD i Dbl.nan + ((List.range' 1 M).map
          (fun j => out.getD j Dbl.nan * R.getD (Nat.dist i j) Dbl.nan)).sum = 0 := by
  obtain ⟨hlen, out0, s, b, rfl, rfl, rfl⟩ := Run_inv rt M R lpc st buf hok
  have hreg : Durbin.regular (lag R) M = true := by
    rw [← Run_ret rt M R out0 s b hlen]
    exact hok
  refine ⟨_, (Run_true rt M R out0 s b hlen hok).1, ?_⟩
  intro i h1 h2
  have hnum := Durbin.num_of_regular (lag R) M hreg
  have hreg2 := (Durbin.regular_iff (lag R) M).1 hreg
  obtain ⟨_, _, ha, _⟩ := Durbin.row_num (lag R) (fun j => Dbl.val (lag R j)) M hnum hreg2
  have hne : ∀ m, m < M → Durbin.e (fun j => Dbl.val (lag R j)) m ≠ 0 := by
    intro m hm
    exact (Durbin.row_num (lag R) (fun j => Dbl.val (lag R j)) m
      (fun j hj => hnum j (by omega)) (fun j hj => hreg2 j (by omega))).2.1
  have hyw := (Durbin.yule_walker_row (fun j => Dbl.val (lag R j)) M hne).1 i h1 h2
  have hmap : (List.range' 1 M).map
        (fun j => (Durbin.lpc rt (lag R) M).getD j Dbl.nan * R.getD (Nat.dist i j) Dbl.nan) =
      (List.range' 1 M).map (fun j => Dbl.num
        (Durbin.a (fun j => Dbl.val (lag R j)) M j * Dbl.val (lag R (Nat.dist i j)))) := by
    apply List.map_congr_left
    intro j hj
    rw [List.mem_range'_1] at hj
    have hd : Nat.dist i j ≤ M := by
      simp only [Nat.dist]
      omega
    rw [getD_lpc rt (lag R) M j hj.1 (by omega), ha j]
    show _ * lag R (Nat.dist i j) = _
    rw [hnum _ hd]
    rfl
  rw [hmap, Dbl.sum_map_num]
  show lag R i + _ = _
  rw [hnum i h2, Dbl.num_add_num, Durbin.list_sum_range', hyw]
  rfl

/-- C1, at a concrete input: order 2 and `R = (25, 15, 9)`. -/
theorem C1_yule_walker_witness :
    (Run Rat.sqrt (new ((2 : Nat) : Int)) [Dbl.num 25, Dbl.num 15, Dbl.num 9]
        (some []) (some false) (some ⟨[]⟩)).ret = true ∧
    ∃ out, (Run Rat.sqrt (new ((2 : Nat) : Int)) [Dbl.num 25, Dbl.num 15, Dbl.num 9]
        (some []) (some false) (some ⟨[]⟩)).linear_predictive_coefficients = some out ∧
      ∀ i, 1 ≤ i → i ≤ 2 →
        [Dbl.num (25 : ℚ), Dbl.num 15, Dbl.num 9].getD i Dbl.nan + ((List.range' 1 2).map
          (fun j => out.getD j Dbl.nan *
            [Dbl.num (25 : ℚ), Dbl.num 15, Dbl.num 9].getD (Nat.dist i j) Dbl.nan)).sum = 0 :=
  ⟨by decide!, C1_yule_walker Rat.sqrt 2 _ _ _ _ (by decide!)⟩

/-- C2: when `Run` succeeds on an instance of order `M`, the output vector has `M + 1`
elements and is the output of the reference recursion by rows: slot 0 is `sqrt(e_M)` and slots
`1..M` are `a^(M)(1..M)`. -/
theorem C2_refines_reference (rt : F → F) (M : Nat) (R : List (Dbl F))
    (lpc : Option (List (Dbl F))) (st : Option Bool) (buf : Option (Buffer F))
    (hok : (Run rt (new (M : Int)) R lpc st buf).ret = true) :
    (Run rt (new (M : Int)) R lpc st buf).linear_predictive_coefficients =
        some (Dbl.sqrt rt (Durbin.e (lag R) M) :: (List.range' 1 M).map (Durbin.a (lag R) M)) ∧
      (Dbl.sqrt rt (Durbin.e (lag R) M) ::
        (List.range' 1 M).map (Durbin.a (lag R) M)).length = M + 1 := by
  obtain ⟨hlen, out0, s, b, rfl, rfl, rfl⟩ := Run_inv rt M R lpc st buf hok
  refine ⟨(Run_true rt M R out0 s b hlen hok).1, ?_⟩
  simp

/-- C2, at a concrete input: order 2 and `R = (25, 15, 9)`. -/
theorem C2_refines_reference_witness :
    (Run Rat.sqrt (new ((2 : Nat) : Int)) [Dbl.num 25, Dbl.num 15, Dbl.num 9]
        (some []) (some false) (some ⟨[]⟩)).linear_predictive_coefficients =
        some (Dbl.sqrt Rat.sqrt (Durbin.e (lag [Dbl.num 25, Dbl.num 15, Dbl.num 9]) 2) ::
          (List.range' 1 2).map (Durbin.a (lag [Dbl.num 25, Dbl.num 15, Dbl.num 9]) 2)) ∧
      (Dbl.sqrt Rat.sqrt (Durbin.e (lag [Dbl.num 25, Dbl.num 15, Dbl.num 9]) 2) ::
        (List.range' 1 2).map (Durbin.a (lag [Dbl.num 25, Dbl.num 15, Dbl.num 9]) 2)).length
          = 2 + 1 :=
  C2_refines_reference Rat.sqrt 2 _ _ _ _ (by decide!)

/-- C3: when `Run` succeeds, the stability flag it writes is `true` exactly when every
reflection coefficient `k_i`, `i = 1..M`, of the recursion is a number with `|k_i| < 1`. -/
theorem C3_flag_iff (rt : F → F) (M : Nat) (R : List (Dbl F))
    (lpc : Option (List (Dbl F))) (st : Option Bool) (buf : Option (Buffer F))
    (hok : (Run rt (new (M : Int)) R lpc st buf).ret = true) :
    ∃ flag, (Run rt (new (M : Int)) R lpc st buf).is_stable = some flag ∧
      (flag = true ↔
        ∀ i, 1 ≤ i → i ≤ M → ∃ x : F, Durbin.k (lag R) i = Dbl.num x ∧ |x| < 1) := by
  obtain ⟨hlen, out0, s, b, rfl, rfl, rfl⟩ := Run_inv rt M R lpc st buf hok
  have hreg : Durbin.regular (lag R) M = true := by
    rw [← Run_ret rt M R out0 s b hlen]
    exact hok
  refine ⟨_, (Run_true rt M R out0 s b hlen hok).2, ?_⟩
  have hnum := Durbin.num_of_regular (lag R) M hreg
  have hreg2 := (Durbin.regular_iff (lag R) M).1 hreg
  have hk : ∀ i, 1 ≤ i → i ≤ M →
      Durbin.k (lag R) i = Dbl.num (Durbin.k (fun j => Dbl.val (lag R j)) i) := by
    intro i h1 h2
    exact (Durbin.row_num (lag R) (fun j => Dbl.val (lag R j)) i
      (fun j hj => hnum j (by omega)) (fun j hj => hreg2 j (by omega))).2.2.2 h1
  rw [Durbin.stable_iff]
  constructor
  · intro h i h1 h2
    refine ⟨_, hk i h1 h2, ?_⟩
    have := h i h1 h2
    rw [hk i h1 h2] at this
    simpa using this
  · intro h i h1 h2
    obtain ⟨x, hx, hlt⟩ := h i h1 h2
    rw [hx]
    simpa using hlt

/-- C3, at a concrete input: order 1 and `R = (1, 2)`, where `k_1 = -2` and the flag is
`false`. -/
theorem C3_flag_iff_witness :
    ∃ flag, (Run Rat.sqrt (new ((1 : Nat) : Int)) [Dbl.num 1, Dbl.num 2]
        (some []) (some true) (some ⟨[]⟩)).is_stable = some flag ∧
      (flag = true ↔
        ∀ i, 1 ≤ i → i ≤ 1 →
          ∃ x : ℚ, Durbin.k (lag [Dbl.num 1, Dbl.num 2]) i = Dbl.num x ∧ |x| < 1) :=
  C3_flag_iff Rat.sqrt 1 _ _ _ _ (by decide!)

/-- C4 fails as stated: `Run` succeeds and leaves NaN in the gain slot for order 1 and
`R = (1, 2)`, where `k_1 = -2` and `e_1 = -3`, and for order 0 and `R = (-1)`. -/
theorem C4_gain_counterexample :
    Run Rat.sqrt (new 1) [Dbl.num 1, Dbl.num 2] (some []) (some true) (some ⟨[]⟩) =
        ⟨true, some [Dbl.nan, Dbl.num (-2)], some false, some ⟨[Dbl.num 0, Dbl.num (-2)]⟩⟩ ∧
      Run Rat.sqrt (new 0) [Dbl.num (-1)] (some []) (some true) (some ⟨[]⟩) =
        ⟨true, some [Dbl.nan], some true, some ⟨[Dbl.num 0]⟩⟩ := by
  decide!

/-- C4, amended: when `Run` succeeds, the final error `e_M` is a non-zero number and the gain
in slot 0 is `sqrt(e_M)`: a non-negative number when `e_M > 0`, NaN when `e_M < 0`.  The root
`rt` returned by `std::sqrt` is assumed non-negative. -/
theorem C4_gain (rt : F → F) (hrt : ∀ x, 0 ≤ x → 0 ≤ rt x) (M : Nat) (R : List (Dbl F))
    (lpc : Option (List (Dbl F))) (st : Option Bool) (buf : Option (Buffer F))
    (hok : (Run rt (new (M : Int)) R lpc st buf).ret = true) :
    ∃ (eM : F) (out : List (Dbl F)), Durbin.e (lag R) M = Dbl.num eM ∧ eM ≠ 0 ∧
      (Run rt (new (M : Int)) R lpc st buf).linear_predictive_coefficients = some out ∧
      (0 < eM → ∃ g, out.getD 0 Dbl.nan = Dbl.num g ∧ 0 ≤ g) ∧
      (eM < 0 → out.getD 0 Dbl.nan = Dbl.nan) := by
  obtain ⟨hlen, out0, s, b, rfl, rfl, rfl⟩ := Run_inv rt M R lpc st buf hok
  have hreg : Durbin.regular (lag R) M = true := by
    rw [← Run_ret rt M R out0 s b hlen]
    exact hok
  obtain ⟨eM, he, hne⟩ := (Dbl.usable_iff _).1 ((Durbin.regular_iff (lag R) M).1 hreg M (le_refl M))
  refine ⟨eM, _, he, hne, (Run_true rt M R out0 s b hlen hok).1, ?_, ?_⟩
  · intro hpos
    refine ⟨rt eM, ?_, hrt eM (le_of_lt hpos)⟩
    simp [Durbin.lpc, he, not_lt.2 (le_of_lt hpos)]
  · intro hneg
    simp [Durbin.lpc, he, hneg]

/-- C4 amended, at a concrete input: order 1 and `R = (25, 15)`, where the gain is 4. -/
theorem C4_gain_witness :
    ∃ (eM : ℚ) (out : List (Dbl ℚ)),
      Durbin.e (lag [Dbl.num 25, Dbl.num 15]) 1 = Dbl.num eM ∧ eM ≠ 0 ∧
      (Run Rat.sqrt (new ((1 : Nat) : Int)) [Dbl.num 25, Dbl.num 15] (some []) (some true)
        (some ⟨[]⟩)).linear_predictive_coefficients = some out ∧
      (0 < eM → ∃ g, out.getD 0 Dbl.nan = Dbl.num g ∧ 0 ≤ g) ∧
      (eM < 0 → out.getD 0 Dbl.nan = Dbl.nan) :=
  C4_gain Rat.sqrt (fun x _ => Rat.sqrt_nonneg x) 1 _ _ _ _ (by decide!)

theorem getD_resize (v : List (Dbl F)) (n j : Nat) :
    (resize v n).getD j 0 = if j < n then v.getD j 0 else 0 := by
  unfold resize
  by_cases h1 : j < (v.take n).length
  · rw [List.getD_append _ _ _ _ h1]
    have h2 : j < n ∧ j < v.length := by simpa using h1
    simp [List.getD_eq_getElem?_getD, List.getElem?_take, h2.1]
  · have h2 : (v.take n).length ≤ j := Nat.le_of_not_lt h1
    rw [List.getD_append_right _ _ _ _ h2]
    have h3 : (List.replicate (n - v.length) (0 : Dbl F)).getD (j - (v.take n).length) 0 = 0 := by
      simp only [List.getD_eq_getElem?_getD, List.getElem?_replicate]
      split_ifs <;> rfl
    rw [h3]
    by_cases h4 : j < n
    · have h5 : v.length ≤ j := by
        simp only [List.length_take] at h2
        omega
      simp [h4, List.getD_eq_getElem?_getD, List.getElem?_eq_none, h5]
    · simp [h4]

/-- C5: on a vector of `M + 1` elements whose `R(0)` is zero or NaN, `Run` returns `false`;
with no `NULL` argument it leaves the output vector resized to `M + 1` elements with `0.0` in
slot 0, so that a slot holding NaN afterwards held NaN before the call. -/
theorem C5_zero_energy (rt : F → F) (M : Nat) (R : List (Dbl F)) (hlen : R.length = M + 1)
    (h0 : R.getD 0 Dbl.nan = 0 ∨ R.getD 0 Dbl.nan = Dbl.nan) :
    (∀ lpc st buf, (Run rt (new (M : Int)) R lpc st buf).ret = false) ∧
    ∀ out st buf,
      (Run rt (new (M : Int)) R (some out) (some st)
          (some buf)).linear_predictive_coefficients =
        some ((if out.length ≠ M + 1 then resize out (M + 1) else out).set 0 0) ∧
      ∀ j, ((if out.length ≠ M + 1 then resize out (M + 1) else out).set 0 0).getD j 0 = Dbl.nan →
        out.getD j 0 = Dbl.nan := by
  have hu : ¬ (Dbl.usable (lag R 0) = true) := by
    intro h
    obtain ⟨x, hx, hx0⟩ := (Dbl.usable_iff _).1 h
    have hx2 : R.getD 0 Dbl.nan = Dbl.num x := hx
    rcases h0 with h0 | h0
    · rw [hx2] at h0
      cases h0
      exact hx0 rfl
    · rw [hx2] at h0
      cases h0
  have hrun : ∀ out st buf, Run rt (new (M : Int)) R (some out) (some st) (some buf) =
      ⟨false, some (start R out buf M).a, some true, some ⟨(start R out buf M).c⟩⟩ := by
    intro out st buf
    rw [Run_eq rt M R out st buf hlen, if_neg hu]
  refine ⟨?_, ?_⟩
  · intro lpc st buf
    by_cases h : lpc = none ∨ st = none ∨ buf = none
    · rw [Run_check rt M R lpc st buf (Or.inr (Or.inr h))]
    · simp only [not_or] at h
      obtain ⟨out, rfl⟩ := Option.ne_none_iff_exists'.1 h.1
      obtain ⟨s, rfl⟩ := Option.ne_none_iff_exists'.1 h.2.1
      obtain ⟨b, rfl⟩ := Option.ne_none_iff_exists'.1 h.2.2
      rw [hrun]
  · intro out st buf
    refine ⟨by rw [hrun]; rfl, ?_⟩
    intro j hj
    have hl := length_prepared out (M + 1)
    cases j with
    | zero =>
      rw [List.getD_eq_getElem?_getD, List.getElem?_set_self (by omega)] at hj
      cases hj
    | succ j =>
      rw [List.getD_eq_getElem?_getD, List.getElem?_set_ne (by omega),
        ← List.getD_eq_getElem?_getD] at hj
      by_cases hlo : out.length = M + 1
      · simpa [hlo] using hj
      · simp only [ne_eq, hlo, not_false_eq_true, if_true] at hj
        rw [getD_resize] at hj
        by_cases hjn : j + 1 < M + 1
        · simpa [hjn] using hj
        · simp only [hjn, if_false] at hj
          cases hj

/-- C5, at a concrete input: order 1 and `R = (0, 3)`. -/
theorem C5_zero_energy_witness :
    (∀ lpc st buf, (Run Rat.sqrt (new ((1 : Nat) : Int)) [Dbl.num 0, Dbl.num 3] lpc st buf).ret
        = false) ∧
    ∀ out st buf,
      (Run Rat.sqrt (new ((1 : Nat) : Int)) [Dbl.num 0, Dbl.num 3] (some out) (some st)
          (some buf)).linear_predictive_coefficients =
        some ((if out.length ≠ 1 + 1 then resize out (1 + 1) else out).set 0 0) ∧
      ∀ j, ((if out.length ≠ 1 + 1 then resize out (1 + 1) else out).set 0 0).getD j 0 = Dbl.nan →
        out.getD j 0 = Dbl.nan :=
  C5_zero_energy Rat.sqrt 1 [Dbl.num 0, Dbl.num 3] rfl (Or.inl rfl)

/-- C6: on a vector of `M + 1` elements, if at some step `i` in `1..M` the updated error
`e_i = e_(i-1) (1 - k_i^2)` is zero or NaN, `Run` returns `false` (whatever `R(0)` is). -/
theorem C6_singular (rt : F → F) (M : Nat) (R : List (Dbl F))
    (lpc : Option (List (Dbl F))) (st : Option Bool) (buf : Option (Buffer F))
    (hlen : R.length = M + 1) (i : Nat) (_ : 1 ≤ i) (h2 : i ≤ M)
    (hbad : Durbin.e (lag R) i = 0 ∨ Durbin.e (lag R) i = Dbl.nan) :
    (Run rt (new (M : Int)) R lpc st buf).ret = false := by
  by_cases h : lpc = none ∨ st = none ∨ buf = none
  · rw [Run_check rt M R lpc st buf (Or.inr (Or.inr h))]
  · simp only [not_or] at h
    obtain ⟨out, rfl⟩ := Option.ne_none_iff_exists'.1 h.1
    obtain ⟨s, rfl⟩ := Option.ne_none_iff_exists'.1 h.2.1
    obtain ⟨b, rfl⟩ := Option.ne_none_iff_exists'.1 h.2.2
    rw [Run_ret rt M R out s b hlen, Bool.eq_false_iff]
    intro hreg
    obtain ⟨x, hx, hx0⟩ := (Dbl.usable_iff _).1 ((Durbin.regular_iff (lag R) M).1 hreg i h2)
    rcases hbad with hbad | hbad
    · rw [hx] at hbad
      cases hbad
      exact hx0 rfl
    · rw [hx] at hbad
      cases hbad

/-- C6, at the input of the claim: order 1 and `R = (1, 1)`, where `k_1 = -1` and
`e_1 = 0`. -/
theorem C6_singular_witness :
    (Durbin.k (lag [Dbl.num (1 : ℚ), Dbl.num 1]) 1 = Dbl.num (-1) ∧
      Durbin.e (lag [Dbl.num (1 : ℚ), Dbl.num 1]) 1 = 0) ∧
    (Run Rat.sqrt (new ((1 : Nat) : Int)) [Dbl.num 1, Dbl.num 1] (some []) (some true)
      (some ⟨[]⟩)).ret = false :=
  ⟨by decide!, C6_singular Rat.sqrt 1 [Dbl.num 1, Dbl.num 1] _ _ _ rfl 1 (le_refl 1) (le_refl 1)
    (Or.inl (by decide!))⟩

/-- C7: `Run` returns `false` on every input when the instance was constructed with an order
`M < 0`, and on every vector whose length is not `M + 1`. -/
theorem C7_rejects (rt : F → F) (M : Int) (R : List (Dbl F))
    (lpc : Option (List (Dbl F))) (st : Option Bool) (buf : Option (Buffer F))
    (h : M < 0 ∨ (R.length : Int) ≠ M + 1) :
    (Run rt (new M) R lpc st buf).ret = false := by
  rw [Run_check rt M R lpc st buf (by tauto)]

/-- C7, at concrete inputs: order -1; order 2 with a vector of two elements and one of four. -/
theorem C7_rejects_witness :
    (Run Rat.sqrt (new (-1)) [] (some []) (some true) (some ⟨[]⟩)).ret = false ∧
    (Run Rat.sqrt (new 2) [Dbl.num 1, Dbl.num 0] (some []) (some true) (some ⟨[]⟩)).ret
      = false ∧
    (Run Rat.sqrt (new 2) [Dbl.num 1, Dbl.num 0, Dbl.num 0, Dbl.num 0] (some []) (some true)
      (some ⟨[]⟩)).ret = false :=
  ⟨C7_rejects Rat.sqrt (-1) _ _ _ _ (Or.inl (by decide)),
    C7_rejects Rat.sqrt 2 _ _ _ _ (Or.inr (by decide)),
    C7_rejects Rat.sqrt 2 _ _ _ _ (Or.inr (by decide))⟩

/-- C8 fails as stated: for order 1 and `R = (1, 1)` the step yields `k_1 = -1`, so
`|k_1| >= 1`, and `Run` returns `false`. -/
theorem C8_unstable_counterexample :
    Durbin.k (lag [Dbl.num (1 : ℚ), Dbl.num 1]) 1 = Dbl.num (-1) ∧
    (Run Rat.sqrt (new 1) [Dbl.num 1, Dbl.num 1] (some []) (some true) (some ⟨[]⟩)).ret
      = false := by
  decide!

/-- C8, amended: on a vector of `M + 1` elements whose errors `e_0`, ..., `e_M` are all
non-zero numbers and where some step yields `|k_i| >= 1`, `Run` returns `true` with the flag
`false` and the complete output vector of the recursion. -/
theorem C8_unstable (rt : F → F) (M : Nat) (R out : List (Dbl F)) (st : Bool) (buf : Buffer F)
    (hlen : R.length = M + 1)
    (hreg : ∀ m, m ≤ M → ∃ x : F, Durbin.e (lag R) m = Dbl.num x ∧ x ≠ 0)
    (hk : ∃ i, 1 ≤ i ∧ i ≤ M ∧ ∃ x : F, Durbin.k (lag R) i = Dbl.num x ∧ 1 ≤ |x|) :
    (Run rt (new (M : Int)) R (some out) (some st) (some buf)).ret = true ∧
    (Run rt (new (M : Int)) R (some out) (some st) (some buf)).is_stable = some false ∧
    (Run rt (new (M : Int)) R (some out) (some st) (some buf)).linear_predictive_coefficients =
      some (Dbl.sqrt rt (Durbin.e (lag R) M) :: (List.range' 1 M).map (Durbin.a (lag R) M)) := by
  have hok : (Run rt (new (M : Int)) R (some out) (some st) (some buf)).ret = true := by
    rw [Run_ret rt M R out st buf hlen, Durbin.regular_iff]
    exact fun m hm => (Dbl.usable_iff _).2 (hreg m hm)
  obtain ⟨hout, hflag⟩ := Run_true rt M R out st buf hlen hok
  refine ⟨hok, ?_, hout⟩
  rw [hflag]
  congr 1
  rw [Bool.eq_false_iff]
  intro hst
  obtain ⟨i, h1, h2, x, hx, hge⟩ := hk
  have := (Durbin.stable_iff (lag R) M).1 hst i h1 h2
  rw [hx] at this
  simp only [Dbl.one_def, Dbl.fabs_num, Dbl.le_num_num, decide_eq_false_iff_not] at this
  exact this hge

/-- C8 amended, at a concrete input: order 1 and `R = (1, 2)`, where `k_1 = -2`. -/
theorem C8_unstable_witness :
    (Run Rat.sqrt (new ((1 : Nat) : Int)) [Dbl.num 1, Dbl.num 2] (some []) (some true)
      (some ⟨[]⟩)).ret = true ∧
    (Run Rat.sqrt (new ((1 : Nat) : Int)) [Dbl.num 1, Dbl.num 2] (some []) (some true)
      (some ⟨[]⟩)).is_stable = some false ∧
    (Run Rat.sqrt (new ((1 : Nat) : Int)) [Dbl.num 1, Dbl.num 2] (some []) (some true)
      (some ⟨[]⟩)).linear_predictive_coefficients =
      some (Dbl.sqrt Rat.sqrt (Durbin.e (lag [Dbl.num 1, Dbl.num 2]) 1) ::
        (List.range' 1 1).map (Durbin.a (lag [Dbl.num 1, Dbl.num 2]) 1)) :=
  C8_unstable Rat.sqrt 1 [Dbl.num 1, Dbl.num 2] [] true ⟨[]⟩ rfl
    (fun m hm => by
      interval_cases m
      · exact ⟨1, by decide!, by norm_num⟩
      · exact ⟨-3, by decide!, by norm_num⟩)
    ⟨1, le_refl 1, le_refl 1, -2, by decide!, by norm_num⟩

/-- C9 fails as stated: for order 1 and `v = (0, 5)` both calls return `false`, the in-place
call leaves `(0, 5)` in `v` and the two-vector call leaves `(0, 0)` in an output vector that was
empty. -/
theorem C9_in_place_counterexample :
    RunInPlace Rat.sqrt (new 1) (some [Dbl.num 0, Dbl.num 5]) (some true) (some ⟨[]⟩) =
        ⟨false, some [Dbl.num 0, Dbl.num 5], some true, some ⟨[Dbl.num 0, Dbl.num 0]⟩⟩ ∧
      Run Rat.sqrt (new 1) [Dbl.num 0, Dbl.num 5] (some []) (some true) (some ⟨[]⟩) =
        ⟨false, some [Dbl.num 0, Dbl.num 0], some true, some ⟨[Dbl.num 0, Dbl.num 0]⟩⟩ := by
  decide!

/-- C9, amended: the in-place `Run(&v, ...)` returns the same value and leaves the same
stability flag as the two-vector `Run(v_copy, &out, ...)`, and when they return `true` it leaves
in `v` the numbers the other leaves in `out`. -/
theorem C9_in_place (rt : F → F) (M : Int) (v out : List (Dbl F)) (st : Option Bool)
    (buf : Option (Buffer F)) :
    (RunInPlace rt (new M) (some v) st buf).ret = (Run rt (new M) v (some out) st buf).ret ∧
    (RunInPlace rt (new M) (some v) st buf).is_stable =
      (Run rt (new M) v (some out) st buf).is_stable ∧
    ((RunInPlace rt (new M) (some v) st buf).ret = true →
      (RunInPlace rt (new M) (some v) st buf).linear_predictive_coefficients =
        (Run rt (new M) v (some out) st buf).linear_predictive_coefficients) := by
  have hip : RunInPlace rt (new M) (some v) st buf = Run rt (new M) v (some v) st buf := rfl
  rw [hip]
  by_cases h : M < 0 ∨ (v.length : Int) ≠ M + 1 ∨ st = none ∨ buf = none
  · have h1 : M < 0 ∨ (v.length : Int) ≠ M + 1 ∨ some v = none ∨ st = none ∨ buf = none := by
      tauto
    have h2 : M < 0 ∨ (v.length : Int) ≠ M + 1 ∨ some out = none ∨ st = none ∨ buf = none := by
      tauto
    rw [Run_check rt M v (some v) st buf h1, Run_check rt M v (some out) st buf h2]
    exact ⟨rfl, rfl, fun hf => absurd hf (by simp)⟩
  · simp only [not_or, not_lt, ne_eq, not_not] at h
    obtain ⟨hM, hlen, hst, hbuf⟩ := h
    obtain ⟨m, rfl⟩ := Int.eq_ofNat_of_zero_le hM
    obtain ⟨s, rfl⟩ := Option.ne_none_iff_exists'.1 hst
    obtain ⟨b, rfl⟩ := Option.ne_none_iff_exists'.1 hbuf
    have hlen2 : v.length = m + 1 := by exact_mod_cast hlen
    obtain ⟨hret, hflag⟩ := Run_congr rt m v v out s b b hlen2
    refine ⟨hret, hflag, ?_⟩
    intro hok
    rw [(Run_true rt m v v s b hlen2 hok).1, (Run_true rt m v out s b hlen2 (hret ▸ hok)).1]

/-- C10: for order 0 and a one-element vector whose `R(0)` is a non-zero number, `Run` returns
`true`, reports stability and leaves the one-element output `sqrt(R(0))`. -/
theorem C10_order_zero (rt : F → F) (x : F) (hx : x ≠ 0) (out : List (Dbl F)) (st : Bool)
    (buf : Buffer F) :
    Run rt (new 0) [Dbl.num x] (some out) (some st) (some buf) =
      ⟨true, some [Dbl.sqrt rt (Dbl.num x)], some true,
        some ⟨if buf.c_.length ≠ 1 then resize buf.c_ 1 else buf.c_⟩⟩ := by
  have hu : Dbl.usable (lag [Dbl.num x] 0) = true := (Dbl.usable_iff _).2 ⟨x, rfl, hx⟩
  have hd : durbinLoop [Dbl.num x] 0 1 (start [Dbl.num x] out buf 0) =
      (true, start [Dbl.num x] out buf 0) := rfl
  have hl : (start [Dbl.num x] out buf 0).a.length = 0 + 1 := by
    rw [(holdsRow_start [Dbl.num x] out buf 0).len_a]
  have hset := set_zero_eq_cons (start [Dbl.num x] out buf 0).a 0 (Dbl.sqrt rt (Dbl.num x))
    (fun _ => Dbl.nan) hl (fun j h1 h2 => absurd h2 (by omega))
  rw [show (0 : Int) = ((0 : Nat) : Int) from rfl, Run_eq rt 0 [Dbl.num x] out st buf rfl,
    if_pos hu, hd, if_pos rfl]
  show Outcome.mk true (some ((start [Dbl.num x] out buf 0).a.set 0 (Dbl.sqrt rt (Dbl.num x))))
    (some true) (some ⟨(start [Dbl.num x] out buf 0).c⟩) = _
  rw [hset]
  rfl

/-- C10, at a concrete input: `R = (4)`, where the gain is 2. -/
theorem C10_order_zero_witness :
    Run Rat.sqrt (new 0) [Dbl.num 4] (some []) (some false) (some ⟨[]⟩) =
      ⟨true, some [Dbl.sqrt Rat.sqrt (Dbl.num 4)], some true,
        some ⟨if ([] : List (Dbl ℚ)).length ≠ 1 then resize [] 1 else []⟩⟩ :=
  C10_order_zero Rat.sqrt 4 (by norm_num) [] false ⟨[]⟩

end Claims

/-! ## Utilities -/

theorem land_pred_eq_zero_iff (n : Nat) (hn : 1 ≤ n) :
    n &&& (n - 1) = 0 ↔ ∃ p : Nat, n = 2 ^ p := by
  induction n using Nat.strong_induction_on with
  | _ n ih =>
    rcases Nat.even_or_odd' n with ⟨m, rfl | rfl⟩
    · have hm : 1 ≤ m := by omega
      have hl : 2 * m &&& (2 * m - 1) = 2 * (m &&& (m - 1)) := by
        have h1 : 2 * m = Nat.bit false m := by simp [Nat.bit_false]
        have h2 : 2 * m - 1 = Nat.bit true (m - 1) := by
          simp only [Nat.bit_true]
          omega
        rw [h2, h1, Nat.land_bit]
        simp [Nat.bit_false]
      rw [hl]
      simp only [Nat.mul_eq_zero, OfNat.ofNat_ne_zero, false_or]
      rw [ih m (by omega) hm]
      constructor
      · rintro ⟨p, hp⟩
        exact ⟨p + 1, by rw [hp, pow_succ, Nat.mul_comm]⟩
      · rintro ⟨p, hp⟩
        cases p with
        | zero => omega
        | succ p => exact ⟨p, by rw [pow_succ] at hp; omega⟩
    · have hl : (2 * m + 1) &&& (2 * m + 1 - 1) = 2 * m := by
        have h1 : 2 * m + 1 = Nat.bit true m := by simp [Nat.bit_true]
        have h2 : 2 * m + 1 - 1 = Nat.bit false m := by
          simp only [Nat.bit_false]
          omega
        rw [h2, h1, Nat.land_bit]
        simp [Nat.bit_false]
      rw [hl]
      constructor
      · intro h
        exact ⟨0, by simp only [pow_zero]; omega⟩
      · rintro ⟨p, hp⟩
        cases p with
        | zero => simp only [pow_zero] at hp; omega
        | succ p => rw [pow_succ] at hp; omega

section Claims2

variable {F : Type} [LinearOrderedField F]

/-- C19: for every integer `num` (in particular every 32-bit one), `IsPowerOfTwo(num)` is true
exactly when `num = 2^p` for some non-negative integer `p`. -/
theorem C19_power_of_two (num : Int) :
    IsPowerOfTwo num = true ↔ ∃ p : Nat, num = 2 ^ p := by
  unfold IsPowerOfTwo
  by_cases h : num < 1
  · simp only [h, decide_True, Bool.true_or, Bool.not_true, Bool.false_eq_true, false_iff]
    rintro ⟨p, hp⟩
    have : (0 : Int) < 2 ^ p := by positivity
    omega
  · obtain ⟨n, rfl⟩ := Int.eq_ofNat_of_zero_le (by omega : 0 ≤ num)
    have hn : 1 ≤ n := by omega
    have hsub : ((n : Int) - 1) = ((n - 1 : Nat) : Int) := by omega
    have hland : Int.land (n : Int) ((n - 1 : Nat) : Int) = ((n &&& (n - 1) : Nat) : Int) := rfl
    rw [hsub, hland]
    simp only [h, decide_False, Bool.false_or, ne_eq, Nat.cast_eq_zero, decide_not,
      Bool.not_not, decide_eq_true_eq]
    rw [land_pred_eq_zero_iff n hn]
    constructor
    · rintro ⟨p, hp⟩
      exact ⟨p, by rw [hp]; push_cast; rfl⟩
    · rintro ⟨p, hp⟩
      exact ⟨p, by exact_mod_cast hp⟩

/-- C11: for order 2 and `R = (1, 1/2, 1/4)`, `Run` returns `true` with the flag `true` and the
output `(gain, -1/2, 0)`, where the gain is the root of `3/4` that `std::sqrt` returns; the
reflection coefficients are `k_1 = -1/2` and `k_2 = 0`. -/
theorem C11_golden (rt : F → F) (hrt : rt (3 / 4) * rt (3 / 4) = 3 / 4) (out : List (Dbl F))
    (st : Bool) (buf : Buffer F) :
    ∃ gain : F, gain * gain = 3 / 4 ∧
      (Run rt (new 2) [Dbl.num 1, Dbl.num (1 / 2), Dbl.num (1 / 4)] (some out) (some st)
        (some buf)).ret = true ∧
      (Run rt (new 2) [Dbl.num 1, Dbl.num (1 / 2), Dbl.num (1 / 4)] (some out) (some st)
        (some buf)).is_stable = some true ∧
      (Run rt (new 2) [Dbl.num 1, Dbl.num (1 / 2), Dbl.num (1 / 4)] (some out) (some st)
        (some buf)).linear_predictive_coefficients =
          some [Dbl.num gain, Dbl.num (-1 / 2), Dbl.num 0] ∧
      Durbin.k (lag [Dbl.num (1 : F), Dbl.num (1 / 2), Dbl.num (1 / 4)]) 1 = Dbl.num (-1 / 2) ∧
      Durbin.k (lag [Dbl.num (1 : F), Dbl.num (1 / 2), Dbl.num (1 / 4)]) 2 = Dbl.num 0 := by
  have hk1 : Durbin.k (lag [Dbl.num (1 : F), Dbl.num (1 / 2), Dbl.num (1 / 4)]) 1 =
      Dbl.num (-1 / 2) := by
    simp [Durbin.k, Durbin.refl, Durbin.row, lag]
    norm_num
  have hk2 : Durbin.k (lag [Dbl.num (1 : F), Dbl.num (1 / 2), Dbl.num (1 / 4)]) 2 =
      Dbl.num 0 := by
    simp [Durbin.k, Durbin.refl, Durbin.row, lag, List.range']
    norm_num
  have he0 : Durbin.e (lag [Dbl.num (1 : F), Dbl.num (1 / 2), Dbl.num (1 / 4)]) 0 =
      Dbl.num 1 := rfl
  have he1 : Durbin.e (lag [Dbl.num (1 : F), Dbl.num (1 / 2), Dbl.num (1 / 4)]) 1 =
      Dbl.num (3 / 4) := by
    rw [Durbin.e_succ, he0, hk1]
    simp
    norm_num
  have he2 : Durbin.e (lag [Dbl.num (1 : F), Dbl.num (1 / 2), Dbl.num (1 / 4)]) 2 =
      Dbl.num (3 / 4) := by
    rw [Durbin.e_succ, he1, hk2]
    simp
  have ha1 : Durbin.a (lag [Dbl.num (1 : F), Dbl.num (1 / 2), Dbl.num (1 / 4)]) 2 1 =
      Dbl.num (-1 / 2) := by
    rw [Durbin.a_succ_of_lt _ 1 1 (le_refl 1) (by omega), Durbin.a_succ_self, hk1, hk2]
    simp
  have ha2 : Durbin.a (lag [Dbl.num (1 : F), Dbl.num (1 / 2), Dbl.num (1 / 4)]) 2 2 =
      Dbl.num 0 := by
    rw [Durbin.a_succ_self, hk2]
  have hlen : [Dbl.num (1 : F), Dbl.num (1 / 2), Dbl.num (1 / 4)].length = 2 + 1 := rfl
  have h34 : (3 / 4 : F) ≠ 0 := by norm_num
  have hok : (Run rt (new ((2 : Nat) : Int)) [Dbl.num 1, Dbl.num (1 / 2), Dbl.num (1 / 4)]
      (some out) (some st) (some buf)).ret = true := by
    rw [Run_ret rt 2 _ out st buf hlen, Durbin.regular_iff]
    intro m hm
    interval_cases m
    · rw [he0]
      exact (Dbl.usable_iff _).2 ⟨1, rfl, one_ne_zero⟩
    · rw [he1]
      exact (Dbl.usable_iff _).2 ⟨3 / 4, rfl, h34⟩
    · rw [he2]
      exact (Dbl.usable_iff _).2 ⟨3 / 4, rfl, h34⟩
  obtain ⟨hout, hflag⟩ := Run_true rt 2 _ out st buf hlen hok
  refine ⟨rt (3 / 4), hrt, hok, ?_, ?_, hk1, hk2⟩
  · rw [show (2 : Int) = ((2 : Nat) : Int) from rfl, hflag]
    congr 1
    rw [Durbin.stable_iff]
    intro m h1 h2
    interval_cases m
    · rw [hk1]
      simp only [Dbl.one_def, Dbl.fabs_num, Dbl.le_num_num, decide_eq_false_iff_not, not_le]
      rw [abs_lt]
      constructor <;> norm_num
    · rw [hk2]
      simp
  · rw [show (2 : Int) = ((2 : Nat) : Int) from rfl, hout]
    have h0 : ¬ ((3 / 4 : F) < 0) := by norm_num
    simp only [Durbin.lpc, he2, Dbl.sqrt_num, h0, if_false]
    simp only [List.range', List.map_cons, List.map_nil, ha1, ha2]

/-- C11, on the reals with the real square root. -/
theorem C11_golden_witness :
    ∃ gain : ℝ, gain * gain = 3 / 4 ∧
      (Run Real.sqrt (new 2) [Dbl.num 1, Dbl.num (1 / 2), Dbl.num (1 / 4)] (some []) (some false)
        (some ⟨[]⟩)).ret = true ∧
      (Run Real.sqrt (new 2) [Dbl.num 1, Dbl.num (1 / 2), Dbl.num (1 / 4)] (some []) (some false)
        (some ⟨[]⟩)).is_stable = some true ∧
      (Run Real.sqrt (new 2) [Dbl.num 1, Dbl.num (1 / 2), Dbl.num (1 / 4)] (some []) (some false)
        (some ⟨[]⟩)).linear_predictive_coefficients =
          some [Dbl.num gain, Dbl.num (-1 / 2), Dbl.num 0] ∧
      Durbin.k (lag [Dbl.num (1 : ℝ), Dbl.num (1 / 2), Dbl.num (1 / 4)]) 1 = Dbl.num (-1 / 2) ∧
      Durbin.k (lag [Dbl.num (1 : ℝ), Dbl.num (1 / 2), Dbl.num (1 / 4)]) 2 = Dbl.num 0 :=
  C11_golden Real.sqrt (Real.mul_self_sqrt (by norm_num)) [] false ⟨[]⟩

/-- C12: a `LevinsonDurbinRecursion` constructed with the order `M` reports
`IsValid() == false` exactly when `M < 0`. -/
theorem C12_valid_iff (M : Int) : (new M).IsValid = false ↔ M < 0 := by
  unfold new IsValid
  by_cases h : M < 0 <;> simp [h]

/-- C17: `IsValidGamma` accepts a number `gamma` exactly when `|gamma| <= 1`, so `1` and `-1` are
accepted and a `gamma` with `|gamma| > 1` makes an instance of
`LinearPredictiveCoefficientsToParcorCoefficients` invalid; `IsValidAlpha` accepts a number
`alpha` exactly when `|alpha| < 1`. -/
theorem C17_valid_gamma :
    (∀ gamma : F, IsValidGamma (Dbl.num gamma) = true ↔ |gamma| ≤ 1) ∧
    IsValidGamma (Dbl.num (1 : F)) = true ∧ IsValidGamma (Dbl.num (-1 : F)) = true ∧
    (∀ (M : Int) (gamma : F), 1 < |gamma| →
      (LinearPredictiveCoefficientsToParcorCoefficients.new M (Dbl.num gamma)).IsValid = false) ∧
    (∀ alpha : F, IsValidAlpha (Dbl.num alpha) = true ↔ |alpha| < 1) := by
  refine ⟨fun gamma => by simp [IsValidGamma], by simp [IsValidGamma], by simp [IsValidGamma],
    ?_, fun alpha => by simp [IsValidAlpha, Dbl.lt]⟩
  intro M gamma h
  simp [LinearPredictiveCoefficientsToParcorCoefficients.new,
    LinearPredictiveCoefficientsToParcorCoefficients.IsValid, Dbl.lt, h]

/-- The upward recursion on numbers stays in the numbers. -/
theorem parcorToLpc_row_num (k : Nat → Dbl F) (κ : Nat → F) (i : Nat)
    (h : ∀ j, 1 ≤ j → j ≤ i → k j = Dbl.num (κ j)) :
    ∀ m, ParcorToLpc.row k i m = Dbl.num (ParcorToLpc.row κ i m) := by
  induction i with
  | zero => intro m; rfl
  | succ i ih =>
    intro m
    have ih2 := ih (fun j h1 h2 => h j h1 (by omega))
    show (if 1 ≤ m ∧ m < i + 1 then ParcorToLpc.row k i m + k (i + 1) * ParcorToLpc.row k i (i + 1 - m)
      else if m = i + 1 then k (i + 1) else 0) =
      Dbl.num (if 1 ≤ m ∧ m < i + 1 then
        ParcorToLpc.row κ i m + κ (i + 1) * ParcorToLpc.row κ i (i + 1 - m)
      else if m = i + 1 then κ (i + 1) else 0)
    rw [ih2 m, ih2 (i + 1 - m), h (i + 1) (by omega) (le_refl _)]
    split_ifs <;> rfl

theorem parcorToLpc_row_self {D : Type} [Zero D] [Add D] [Mul D] (k : Nat → D) (i : Nat)
    (hi : 1 ≤ i) : ParcorToLpc.row k i i = k i := by
  obtain ⟨j, rfl⟩ : ∃ j, i = j + 1 := ⟨i - 1, by omega⟩
  show (if 1 ≤ j + 1 ∧ j + 1 < j + 1 then _ else if j + 1 = j + 1 then k (j + 1) else 0) = _
  rw [if_neg (by omega), if_pos rfl]

/-- One step down with the minus sign undoes one step up. -/
theorem stepDownInverse_row (κ : Nat → F) (i : Nat) (hk : |κ (i + 1)| < 1) (r : Nat → Dbl F)
    (hr : ∀ m, 1 ≤ m → m ≤ i + 1 → r m = Dbl.num (ParcorToLpc.row κ (i + 1) m)) :
    ∀ m, 1 ≤ m → m ≤ i →
      LpcToParcor.stepDownInverse (i + 1) r m = Dbl.num (ParcorToLpc.row κ i m) := by
  intro m h1 h2
  have hne : 1 - κ (i + 1) * κ (i + 1) ≠ 0 := by
    have h3 := abs_mul_abs_self (κ (i + 1))
    have h4 := abs_nonneg (κ (i + 1))
    nlinarith
  have hA : ∀ j, 1 ≤ j → j ≤ i → ParcorToLpc.row κ (i + 1) j =
      ParcorToLpc.row κ i j + κ (i + 1) * ParcorToLpc.row κ i (i + 1 - j) := by
    intro j hj1 hj2
    show (if 1 ≤ j ∧ j < i + 1 then _ else _) = _
    rw [if_pos ⟨hj1, by omega⟩]
  show (if 1 ≤ m ∧ m < i + 1 then (r m - r (i + 1) * r (i + 1 - m)) /
      (1 - r (i + 1) * r (i + 1)) else 0) = _
  rw [if_pos ⟨h1, by omega⟩, hr m h1 (by omega), hr (i + 1) (by omega) (le_refl _),
    hr (i + 1 - m) (by omega) (by omega), parcorToLpc_row_self κ (i + 1) (by omega),
    hA m h1 h2, hA (i + 1 - m) (by omega) (by omega)]
  have hsub : i + 1 - (i + 1 - m) = m := by omega
  rw [hsub]
  simp only [Dbl.one_def, Dbl.num_mul_num, Dbl.num_sub_num, Dbl.num_div_num, if_neg hne,
    Dbl.num.injEq]
  field_simp
  ring

/-- The downward recursion with the minus sign, started from row `M` of the upward recursion,
passes through the rows of the upward recursion. -/
theorem rowDownInverse_row (κ : Nat → F) (M : Nat) (hk : ∀ i, 1 ≤ i → i ≤ M → |κ i| < 1)
    (a : Nat → Dbl F) (ha : ∀ m, 1 ≤ m → m ≤ M → a m = Dbl.num (ParcorToLpc.row κ M m)) :
    ∀ j, j ≤ M → ∀ m, 1 ≤ m → m ≤ M - j →
      LpcToParcor.rowDownInverse M a j m = Dbl.num (ParcorToLpc.row κ (M - j) m) := by
  intro j
  induction j with
  | zero =>
    intro _ m h1 h2
    exact ha m h1 h2
  | succ j ih =>
    intro hj m h1 h2
    obtain ⟨i, hi⟩ : ∃ i, M - j = i + 1 := ⟨M - j - 1, by omega⟩
    have hi2 : M - (j + 1) = i := by omega
    show LpcToParcor.stepDownInverse (M - j) (LpcToParcor.rowDownInverse M a j) m = _
    rw [hi, hi2]
    apply stepDownInverse_row κ i (hk (i + 1) (by omega) (by omega)) _ _ m h1 (by omega)
    intro m2 hm1 hm2
    rw [← hi]
    exact ih (by omega) m2 hm1 (by omega)

theorem getD_cons_map_range' (x : Dbl F) (f : Nat → Dbl F) (M i : Nat) (h1 : 1 ≤ i)
    (h2 : i ≤ M) : (x :: (List.range' 1 M).map f).getD i Dbl.nan = f i := by
  obtain ⟨j, rfl⟩ : ∃ j, i = j + 1 := ⟨i - 1, by omega⟩
  have hj : j < ((List.range' 1 M).map f).length := by
    simp only [List.length_map, List.length_range']
    omega
  simp only [List.getD_cons_succ]
  rw [List.getD_eq_getElem _ _ hj]
  simp [Nat.add_comm]

/-- The round trip through `ParcorToLpc` and the downward recursion with the minus sign: a
PARCOR vector of `M + 1` elements whose coefficients `k(1..M)` are numbers of magnitude below
one comes back unchanged, with the flag `true`. -/
theorem round_trip_inverse (M : Nat) (parcor : List (Dbl F)) (hlen : parcor.length = M + 1)
    (hk : ∀ i, 1 ≤ i → i ≤ M → ∃ x : F, parcor.getD i Dbl.nan = Dbl.num x ∧ |x| < 1) :
    ∃ lpc : List (Dbl F),
      (ParcorCoefficientsToLinearPredictiveCoefficients.new (M : Int)).Run parcor = some lpc ∧
      (LinearPredictiveCoefficientsToParcorCoefficients.new (M : Int) (1 : Dbl F)).RunInverse lpc =
        some (parcor, true) := by
  have hκ : ∀ i, 1 ≤ i → i ≤ M →
      parcor.getD i Dbl.nan = Dbl.num (Dbl.val (parcor.getD i Dbl.nan)) ∧
        |Dbl.val (parcor.getD i Dbl.nan)| < 1 := by
    intro i h1 h2
    obtain ⟨x, hx, hlt⟩ := hk i h1 h2
    rw [hx]
    exact ⟨rfl, hlt⟩
  have hrow := parcorToLpc_row_num (fun i => parcor.getD i Dbl.nan)
    (fun i => Dbl.val (parcor.getD i Dbl.nan)) M (fun j h1 h2 => (hκ j h1 h2).1)
  have hvP : (ParcorCoefficientsToLinearPredictiveCoefficients.new (M : Int)).is_valid_ = true := by
    have h1 : ¬ ((M : Int) < 0) := by omega
    simp [ParcorCoefficientsToLinearPredictiveCoefficients.new, h1]
  have hvL : (LinearPredictiveCoefficientsToParcorCoefficients.new (M : Int)
      (1 : Dbl F)).is_valid_ = true := by
    have h1 : ¬ ((M : Int) < 0) := by omega
    simp [LinearPredictiveCoefficientsToParcorCoefficients.new, Dbl.lt, h1]
  have hrunP : (ParcorCoefficientsToLinearPredictiveCoefficients.new (M : Int)).Run parcor =
      some (parcor.getD 0 Dbl.nan :: (List.range' 1 M).map
        (ParcorToLpc.row (fun i => parcor.getD i Dbl.nan) M)) := by
    unfold ParcorCoefficientsToLinearPredictiveCoefficients.Run
    have hl : ¬ ((parcor.length : Int) ≠
        (ParcorCoefficientsToLinearPredictiveCoefficients.new (M : Int)).num_order_ + 1) := by
      rw [hlen]
      simp [ParcorCoefficientsToLinearPredictiveCoefficients.new]
    simp only [hvP, hl, Bool.not_true, decide_False, Bool.or_self, Bool.false_eq_true, if_false]
    rfl
  refine ⟨_, hrunP, ?_⟩
  have hlen2 : (parcor.getD 0 Dbl.nan :: (List.range' 1 M).map
      (ParcorToLpc.row (fun i => parcor.getD i Dbl.nan) M)).length = M + 1 := by
    simp
  have ha : ∀ m, 1 ≤ m → m ≤ M →
      (1 : Dbl F) * (parcor.getD 0 Dbl.nan :: (List.range' 1 M).map
        (ParcorToLpc.row (fun i => parcor.getD i Dbl.nan) M)).getD m Dbl.nan =
      Dbl.num (ParcorToLpc.row (fun i => Dbl.val (parcor.getD i Dbl.nan)) M m) := by
    intro m h1 h2
    rw [getD_cons_map_range' _ _ M m h1 h2, hrow m]
    simp
  have hkinv : ∀ i, 1 ≤ i → i ≤ M →
      LpcToParcor.kInverse M (fun i => (1 : Dbl F) * (parcor.getD 0 Dbl.nan ::
        (List.range' 1 M).map
          (ParcorToLpc.row (fun i => parcor.getD i Dbl.nan) M)).getD i Dbl.nan) i =
      parcor.getD i Dbl.nan := by
    intro i h1 h2
    have h3 := rowDownInverse_row (fun i => Dbl.val (parcor.getD i Dbl.nan)) M
      (fun j hj1 hj2 => (hκ j hj1 hj2).2) _ ha (M - i) (by omega) i h1 (by omega)
    have h4 : M - (M - i) = i := by omega
    rw [h4, parcorToLpc_row_self _ i h1] at h3
    rw [(hκ i h1 h2).1]
    exact h3
  unfold LinearPredictiveCoefficientsToParcorCoefficients.RunInverse
  have hl : ¬ (((parcor.getD 0 Dbl.nan :: (List.range' 1 M).map
      (ParcorToLpc.row (fun i => parcor.getD i Dbl.nan) M)).length : Int) ≠
      (LinearPredictiveCoefficientsToParcorCoefficients.new (M : Int)
        (1 : Dbl F)).num_order_ + 1) := by
    rw [hlen2]
    simp [LinearPredictiveCoefficientsToParcorCoefficients.new]
  simp only [hvL, hl, Bool.not_true, decide_False, Bool.or_self, Bool.false_eq_true, if_false]
  have hM : (LinearPredictiveCoefficientsToParcorCoefficients.new (M : Int)
      (1 : Dbl F)).num_order_.toNat = M := by
    simp [LinearPredictiveCoefficientsToParcorCoefficients.new]
  have hg : (LinearPredictiveCoefficientsToParcorCoefficients.new (M : Int)
      (1 : Dbl F)).gamma_ = 1 := rfl
  rw [hM, hg]
  congr 1
  refine Prod.ext ?_ ?_
  · show _ :: _ = parcor
    apply List.ext_getElem
    · simp [hlen]
    · intro i hi1 hi2
      have hi : i ≤ M := by
        rw [hlen] at hi2
        omega
      have e1 := List.getD_eq_getElem _ Dbl.nan hi1
      have e2 := List.getD_eq_getElem parcor Dbl.nan hi2
      rw [← e1, ← e2]
      by_cases h0 : i = 0
      · subst h0
        rfl
      · rw [getD_cons_map_range' _ _ M i (by omega) hi]
        exact hkinv i (by omega) hi
  · show List.all _ _ = true
    rw [List.all_eq_true]
    intro i hi
    rw [List.mem_range'_1] at hi
    rw [hkinv i hi.1 (by omega), (hκ i hi.1 (by omega)).1]
    simp only [Dbl.one_def, Dbl.fabs_num, Dbl.le_num_num, Bool.not_eq_true', decide_eq_false_iff_not,
      not_le]
    exact (hκ i hi.1 (by omega)).2

theorem clamp_le (m x y : F) (hm : m < 1)
    (h : LinearPredictiveCoefficientsStabilityCheck.clamp (Dbl.num m) (Dbl.num x) = Dbl.num y) :
    |y| ≤ 1 - m := by
  unfold LinearPredictiveCoefficientsStabilityCheck.clamp at h
  simp only [Dbl.one_def, Dbl.num_sub_num, Dbl.fabs_num, Dbl.le_num_num, decide_eq_true_eq] at h
  by_cases hc : 1 - m ≤ |x|
  · rw [if_pos hc] at h
    have hpos : 0 < 1 - m := by linarith
    have hx : x ≠ 0 := by
      intro h0
      rw [h0, abs_zero] at hc
      linarith
    rcases lt_or_gt_of_ne hx with hneg | hgt
    · have hs : ExtractSign (Dbl.num x) = -1 := by
        simp [ExtractSign, Dbl.lt, hneg, not_lt.2 (le_of_lt hneg)]
      rw [hs] at h
      simp only [Int.reduceNeg, Int.cast_neg, Int.cast_one, Dbl.num_mul_num, Dbl.num.injEq] at h
      rw [← h, neg_one_mul, abs_neg, abs_of_pos hpos]
    · have hs : ExtractSign (Dbl.num x) = 1 := by
        simp [ExtractSign, Dbl.lt, hgt]
      rw [hs] at h
      simp only [Int.cast_one, Dbl.num_mul_num, Dbl.num.injEq, one_mul] at h
      rw [← h, abs_of_pos hpos]
  · rw [if_neg hc] at h
    cases h
    exact le_of_lt (not_le.1 hc)

theorem clamp_nan (margin : Dbl F) :
    LinearPredictiveCoefficientsStabilityCheck.clamp margin Dbl.nan = Dbl.nan := by
  simp [LinearPredictiveCoefficientsStabilityCheck.clamp]

theorem getD_clampAll (m : F) (hm : m < 1) (parcor : List (Dbl F)) (i : Nat) (x : F)
    (hi : 1 ≤ i)
    (h : (LinearPredictiveCoefficientsStabilityCheck.clampAll (Dbl.num m) parcor).getD i Dbl.nan
      = Dbl.num x) : |x| ≤ 1 - m := by
  obtain ⟨j, rfl⟩ : ∃ j, i = j + 1 := ⟨i - 1, by omega⟩
  cases parcor with
  | nil => simp [LinearPredictiveCoefficientsStabilityCheck.clampAll] at h
  | cons gain ks =>
    simp only [LinearPredictiveCoefficientsStabilityCheck.clampAll, List.getD_eq_getElem?_getD,
      List.getElem?_cons_succ, List.getElem?_map] at h
    cases hk : ks[j]? with
    | none => simp [hk] at h
    | some k =>
      rw [hk] at h
      simp only [Option.map_some', Option.getD_some] at h
      cases k with
      | nan =>
        rw [clamp_nan] at h
        cases h
      | num y => exact clamp_le m y x hm h

/-- The clamp of a number is a number. -/
theorem clamp_num (m y : F) :
    ∃ z : F, LinearPredictiveCoefficientsStabilityCheck.clamp (Dbl.num m) (Dbl.num y) =
      Dbl.num z := by
  unfold LinearPredictiveCoefficientsStabilityCheck.clamp
  split_ifs
  · exact ⟨_, rfl⟩
  · exact ⟨_, rfl⟩

theorem length_clampAll (margin : Dbl F) (parcor : List (Dbl F)) :
    (LinearPredictiveCoefficientsStabilityCheck.clampAll margin parcor).length =
      parcor.length := by
  cases parcor with
  | nil => rfl
  | cons gain ks => simp [LinearPredictiveCoefficientsStabilityCheck.clampAll]

/-- A slot of the clamped PARCOR vector that held a number holds a number of magnitude at most
`1 - m`. -/
theorem clampAll_num (m : F) (hm : m < 1) (parcor : List (Dbl F)) (i : Nat) (hi : 1 ≤ i)
    (hlt : i < parcor.length) (hnum : Dbl.isnan (parcor.getD i Dbl.nan) = false) :
    ∃ x : F, (LinearPredictiveCoefficientsStabilityCheck.clampAll (Dbl.num m) parcor).getD i
      Dbl.nan = Dbl.num x ∧ |x| ≤ 1 - m := by
  obtain ⟨j, rfl⟩ : ∃ j, i = j + 1 := ⟨i - 1, by omega⟩
  cases parcor with
  | nil => simp at hlt
  | cons gain ks =>
    have hj : j < ks.length := by
      simp only [List.length_cons] at hlt
      omega
    have hj2 : j < (ks.map
        (LinearPredictiveCoefficientsStabilityCheck.clamp (Dbl.num m))).length := by
      rw [List.length_map]
      exact hj
    simp only [List.getD_cons_succ] at hnum
    rw [List.getD_eq_getElem _ _ hj] at hnum
    simp only [LinearPredictiveCoefficientsStabilityCheck.clampAll, List.getD_cons_succ]
    rw [List.getD_eq_getElem _ _ hj2, List.getElem_map]
    cases hy : ks[j] with
    | nan =>
      rw [hy] at hnum
      simp at hnum
    | num y =>
      obtain ⟨z, hz⟩ := clamp_num m y
      exact ⟨z, hz, clamp_le m y z hm hz⟩

/-- On a valid instance and a vector of `M + 1` elements `LpcToParcor` succeeds; slot `i` of
its output is the coefficient `k(i)` of the downward recursion, and its flag is `false` exactly
when one of them is a number of magnitude at least one. -/
theorem lpcToParcor_spec (M : Nat) (gamma : F) (hg : |gamma| ≤ 1) (input : List (Dbl F))
    (hlen : input.length = M + 1) :
    ∃ (parcor : List (Dbl F)) (flag : Bool),
      (LinearPredictiveCoefficientsToParcorCoefficients.new (M : Int) (Dbl.num gamma)).Run input
        = some (parcor, flag) ∧
      (∀ i, 1 ≤ i → i ≤ M → parcor.getD i Dbl.nan =
        LpcToParcor.k M (fun j => Dbl.num gamma * input.getD j Dbl.nan) i) ∧
      (flag = false ↔
        ∃ i, 1 ≤ i ∧ i ≤ M ∧ ∃ x : F, parcor.getD i Dbl.nan = Dbl.num x ∧ 1 ≤ |x|) := by
  have hv : (LinearPredictiveCoefficientsToParcorCoefficients.new (M : Int)
      (Dbl.num gamma)).is_valid_ = true := by
    have h1 : ¬ ((M : Int) < 0) := by omega
    simp [LinearPredictiveCoefficientsToParcorCoefficients.new, Dbl.lt, h1, hg]
  have hget : ∀ i, 1 ≤ i → i ≤ M →
      (input.getD 0 Dbl.nan :: (List.range' 1 M).map
        (LpcToParcor.k M (fun j => Dbl.num gamma * input.getD j Dbl.nan))).getD i Dbl.nan =
      LpcToParcor.k M (fun j => Dbl.num gamma * input.getD j Dbl.nan) i := by
    intro i h1 h2
    obtain ⟨j, rfl⟩ : ∃ j, i = j + 1 := ⟨i - 1, by omega⟩
    have hj : j < ((List.range' 1 M).map
        (LpcToParcor.k M (fun j => Dbl.num gamma * input.getD j Dbl.nan))).length := by
      simp only [List.length_map, List.length_range']
      omega
    simp only [List.getD_cons_succ]
    rw [List.getD_eq_getElem _ _ hj]
    simp [Nat.add_comm]
  refine ⟨input.getD 0 Dbl.nan :: (List.range' 1 M).map
      (LpcToParcor.k M (fun j => Dbl.num gamma * input.getD j Dbl.nan)),
    (List.range' 1 M).all (fun i => !Dbl.le 1 (Dbl.fabs
      (LpcToParcor.k M (fun j => Dbl.num gamma * input.getD j Dbl.nan) i))), ?_, hget, ?_⟩
  · unfold LinearPredictiveCoefficientsToParcorCoefficients.Run
    have hl : ¬ ((input.length : Int) ≠
        (LinearPredictiveCoefficientsToParcorCoefficients.new (M : Int)
          (Dbl.num gamma)).num_order_ + 1) := by
      rw [hlen]
      simp [LinearPredictiveCoefficientsToParcorCoefficients.new]
    simp only [hv, hl, Bool.not_true, decide_False, Bool.or_self, Bool.false_eq_true, if_false]
    rfl
  · rw [Bool.eq_false_iff, ne_eq, List.all_eq_true, not_forall]
    constructor
    · rintro ⟨i, hi⟩
      rw [Classical.not_imp, List.mem_range'_1] at hi
      obtain ⟨⟨h1, h2⟩, h3⟩ := hi
      have h5 : Dbl.le 1 (Dbl.fabs (LpcToParcor.k M
          (fun j => Dbl.num gamma * input.getD j Dbl.nan) i)) = true := by
        revert h3
        generalize Dbl.le 1 (Dbl.fabs (LpcToParcor.k M
          (fun j => Dbl.num gamma * input.getD j Dbl.nan) i)) = b
        cases b <;> simp
      refine ⟨i, h1, by omega, ?_⟩
      rw [hget i h1 (by omega)]
      cases hk : LpcToParcor.k M (fun j => Dbl.num gamma * input.getD j Dbl.nan) i with
      | nan =>
        rw [hk] at h5
        simp at h5
      | num x =>
        rw [hk] at h5
        exact ⟨x, rfl, by simpa using h5⟩
    · rintro ⟨i, h1, h2, x, hx, hge⟩
      rw [hget i h1 h2] at hx
      refine ⟨i, ?_⟩
      rw [Classical.not_imp, List.mem_range'_1]
      refine ⟨⟨h1, by omega⟩, ?_⟩
      rw [hx]
      simpa using hge

/-- C15: on a valid instance and a vector of `M + 1` elements `LpcToParcor` never fails, whatever
the coefficients are, and the flag it reports is `false` exactly when some reflection
coefficient `k(i)` it took is a number with `|k(i)| >= 1`; for order 1, gamma = 1 and the input
`(K, 2)` it succeeds with the output `(K, 2)` and the flag `false`. -/
theorem C15_instability (M : Nat) (gamma : F) (hg : |gamma| ≤ 1) (input : List (Dbl F))
    (hlen : input.length = M + 1) :
    (∃ (parcor : List (Dbl F)) (flag : Bool),
      (LinearPredictiveCoefficientsToParcorCoefficients.new (M : Int) (Dbl.num gamma)).Run input
        = some (parcor, flag) ∧
      (∀ i, 1 ≤ i → i ≤ M → parcor.getD i Dbl.nan =
        LpcToParcor.k M (fun j => Dbl.num gamma * input.getD j Dbl.nan) i) ∧
      (flag = false ↔
        ∃ i, 1 ≤ i ∧ i ≤ M ∧ ∃ x : F, parcor.getD i Dbl.nan = Dbl.num x ∧ 1 ≤ |x|)) ∧
    ∀ K : Dbl F,
      (LinearPredictiveCoefficientsToParcorCoefficients.new 1 (1 : Dbl F)).Run [K, Dbl.num 2]
        = some ([K, Dbl.num 2], false) := by
  refine ⟨lpcToParcor_spec M gamma hg input hlen, ?_⟩
  · intro K
    cases K with
    | nan =>
      simp [LinearPredictiveCoefficientsToParcorCoefficients.Run,
        LinearPredictiveCoefficientsToParcorCoefficients.new, Dbl.lt, LpcToParcor.k,
        LpcToParcor.rowDown, List.range']
    | num K =>
      simp [LinearPredictiveCoefficientsToParcorCoefficients.Run,
        LinearPredictiveCoefficientsToParcorCoefficients.new, Dbl.lt, LpcToParcor.k,
        LpcToParcor.rowDown, List.range']

/-- C15, at the input of the claim: order 1, gamma = 1 and the LPC vector `(1, 2)`. -/
theorem C15_instability_witness :
    (∃ (parcor : List (Dbl ℚ)) (flag : Bool),
      (LinearPredictiveCoefficientsToParcorCoefficients.new ((1 : Nat) : Int) (Dbl.num 1)).Run
        [Dbl.num 1, Dbl.num 2] = some (parcor, flag) ∧
      (∀ i, 1 ≤ i → i ≤ 1 → parcor.getD i Dbl.nan =
        LpcToParcor.k 1 (fun j => Dbl.num 1 * [Dbl.num (1 : ℚ), Dbl.num 2].getD j Dbl.nan) i) ∧
      (flag = false ↔
        ∃ i, 1 ≤ i ∧ i ≤ 1 ∧ ∃ x : ℚ, parcor.getD i Dbl.nan = Dbl.num x ∧ 1 ≤ |x|)) ∧
    ∀ K : Dbl ℚ,
      (LinearPredictiveCoefficientsToParcorCoefficients.new 1 (1 : Dbl ℚ)).Run [K, Dbl.num 2]
        = some ([K, Dbl.num 2], false) :=
  C15_instability 1 1 (by norm_num) [Dbl.num 1, Dbl.num 2] rfl

/-- C16: when `StabilityCheck::Run` succeeds, the flag it returns is the flag `LpcToParcor`
(gamma = 1) reports for the input coefficients, so it is `false` as soon as one of their
reflection coefficients is a number with `|k(i)| >= 1`, whatever the clamp does afterwards. -/
theorem C16_flag_original (M : Int) (margin : Dbl F) (input : List (Dbl F))
    (modified out : Option (List (Dbl F))) (flag : Bool)
    (hrun : (LinearPredictiveCoefficientsStabilityCheck.new M margin).Run input modified
      = some (out, flag)) :
    ∃ parcor : List (Dbl F),
      (LinearPredictiveCoefficientsToParcorCoefficients.new M (1 : Dbl F)).Run input =
        some (parcor, flag) ∧
      ((∃ i, 1 ≤ i ∧ i ≤ M.toNat ∧ ∃ x : F, parcor.getD i Dbl.nan = Dbl.num x ∧ 1 ≤ |x|) →
        flag = false) := by
  unfold LinearPredictiveCoefficientsStabilityCheck.Run at hrun
  by_cases hv : (LinearPredictiveCoefficientsStabilityCheck.new M margin).is_valid_ = true
  · simp only [hv, Bool.not_true, Bool.false_eq_true, if_false] at hrun
    have hM : (LinearPredictiveCoefficientsStabilityCheck.new M margin).num_order_ = M := rfl
    rw [hM] at hrun
    have hM0 : 0 ≤ M := by
      simp [LinearPredictiveCoefficientsStabilityCheck.new] at hv
      exact hv.1
    obtain ⟨n, rfl⟩ := Int.eq_ofNat_of_zero_le hM0
    cases hL : (LinearPredictiveCoefficientsToParcorCoefficients.new (n : Int)
        (1 : Dbl F)).Run input with
    | none =>
      rw [hL] at hrun
      simp at hrun
    | some r =>
      obtain ⟨parcor, fl⟩ := r
      rw [hL] at hrun
      have hfl : fl = flag := by
        cases modified with
        | none =>
          simp only [Option.some.injEq, Prod.mk.injEq] at hrun
          exact hrun.2
        | some prior =>
          simp only at hrun
          generalize (ParcorCoefficientsToLinearPredictiveCoefficients.new (n : Int)).Run
            (LinearPredictiveCoefficientsStabilityCheck.clampAll
              (LinearPredictiveCoefficientsStabilityCheck.new (n : Int) margin).margin_ parcor)
            = P at hrun
          cases P with
          | none => simp at hrun
          | some mdf =>
            simp only [Option.some.injEq, Prod.mk.injEq] at hrun
            exact hrun.2
      subst hfl
      refine ⟨parcor, rfl, ?_⟩
      intro hex
      by_cases hlen : input.length = n + 1
      · obtain ⟨p2, f2, h1, _, h3⟩ := lpcToParcor_spec n (1 : F) (by simp) input hlen
        have hL2 : (LinearPredictiveCoefficientsToParcorCoefficients.new (n : Int)
            (Dbl.num (1 : F))).Run input = some (parcor, fl) := hL
        rw [hL2] at h1
        simp only [Option.some.injEq, Prod.mk.injEq] at h1
        obtain ⟨hp, hf⟩ := h1
        subst hp hf
        rw [Int.toNat_ofNat] at hex
        exact h3.2 hex
      · exfalso
        have : (LinearPredictiveCoefficientsToParcorCoefficients.new (n : Int)
            (1 : Dbl F)).Run input = none := by
          unfold LinearPredictiveCoefficientsToParcorCoefficients.Run
          have hl : (input.length : Int) ≠ (LinearPredictiveCoefficientsToParcorCoefficients.new
              (n : Int) (1 : Dbl F)).num_order_ + 1 := by
            show (input.length : Int) ≠ (n : Int) + 1
            exact_mod_cast hlen
          rw [if_pos (by rw [Bool.or_eq_true]; exact Or.inr (decide_eq_true hl))]
        rw [this] at hL
        cases hL
  · simp [hv] at hrun

/-- C16, at a concrete input: order 1, margin `1/10` and the LPC input `(1, 2)`; the flag is
`false`, the corrected output is `(1, 9/10)`, which `LpcToParcor` reports stable. -/
theorem C16_flag_original_witness :
    ((LinearPredictiveCoefficientsStabilityCheck.new 1 (Dbl.num (1 / 10 : ℚ))).Run
        [Dbl.num 1, Dbl.num 2] (some []) = some (some [Dbl.num 1, Dbl.num (9 / 10)], false) ∧
      (LinearPredictiveCoefficientsToParcorCoefficients.new 1 (1 : Dbl ℚ)).Run
        [Dbl.num 1, Dbl.num (9 / 10)] = some ([Dbl.num 1, Dbl.num (9 / 10)], true)) ∧
    ∃ parcor : List (Dbl ℚ),
      (LinearPredictiveCoefficientsToParcorCoefficients.new 1 (1 : Dbl ℚ)).Run
        [Dbl.num 1, Dbl.num 2] = some (parcor, false) ∧
      ((∃ i, 1 ≤ i ∧ i ≤ (1 : Int).toNat ∧ ∃ x : ℚ, parcor.getD i Dbl.nan = Dbl.num x ∧ 1 ≤ |x|) →
        false = false) :=
  ⟨by decide!, C16_flag_original 1 (Dbl.num (1 / 10)) [Dbl.num 1, Dbl.num 2] (some [])
    (some [Dbl.num 1, Dbl.num (9 / 10)]) false (by decide!)⟩

/-- The frame loop of `levdur` only appends to what it has written. -/
theorem levdurLoop_stdout (rt : F → F) (ldr : LevinsonDurbinRecursion) (wt : WarningType)
    (frames : List (List (Dbl F))) : ∀ (idx : Nat) (s : LevdurState F),
    s.stdout <+: (levdurLoop rt ldr wt frames idx s).2.stdout := by
  induction frames with
  | nil => exact fun idx s => List.prefix_refl _
  | cons R frames ih =>
    intro idx s
    unfold levdurLoop
    simp only
    split_ifs <;>
    first
      | exact List.prefix_refl _
      | (refine List.IsPrefix.trans ?_ (ih (idx + 1) _)
         exact List.prefix_append _ _)

/-- C18: in the frame loop of `levdur`, on a frame where `Run` succeeds the coefficients are
written and the loop goes on with the next frame when the flag is `true`, and also when the flag
is `false` and the warning type is 0 or 1; when the flag is `false` and the warning type is 2
`main` returns 1 with nothing more written.  What has been written is never taken back. -/
theorem C18_warning_policy (rt : F → F) (ldr : LevinsonDurbinRecursion) (wt : WarningType)
    (R : List (Dbl F)) (frames : List (List (Dbl F))) (idx : Nat) (s : LevdurState F)
    (out : List (Dbl F)) (flag : Bool) (b : Buffer F)
    (hrun : Run rt ldr R (some s.linear_predictive_coefficients) (some false) (some s.buffer) =
      ⟨true, some out, some flag, some b⟩) :
    (flag = false → wt ≠ WarningType.kExit →
      levdurLoop rt ldr wt (R :: frames) idx s =
        levdurLoop rt ldr wt frames (idx + 1)
          { stdout := s.stdout ++ [out]
            unstable_frames :=
              if wt = WarningType.kWarn then s.unstable_frames ++ [idx] else s.unstable_frames
            linear_predictive_coefficients := out
            buffer := b }) ∧
    (flag = false → wt = WarningType.kExit →
      levdurLoop rt ldr wt (R :: frames) idx s =
        (1, { stdout := s.stdout
              unstable_frames := s.unstable_frames ++ [idx]
              linear_predictive_coefficients := out
              buffer := b })) ∧
    (flag = true →
      levdurLoop rt ldr wt (R :: frames) idx s =
        levdurLoop rt ldr wt frames (idx + 1)
          { stdout := s.stdout ++ [out]
            unstable_frames := s.unstable_frames
            linear_predictive_coefficients := out
            buffer := b }) ∧
    ∀ (later : List (List (Dbl F))) (i : Nat) (t : LevdurState F),
      t.stdout <+: (levdurLoop rt ldr wt later i t).2.stdout := by
  refine ⟨?_, ?_, ?_, fun later i t => levdurLoop_stdout rt ldr wt later i t⟩
  · intro hf hw
    subst hf
    rw [levdurLoop]
    simp only [hrun]
    cases wt with
    | kIgnore => simp
    | kWarn => simp
    | kExit => exact absurd rfl hw
  · intro hf hw
    subst hf hw
    rw [levdurLoop]
    simp [hrun]
  · intro hf
    subst hf
    rw [levdurLoop]
    simp [hrun]

/-- C18, at concrete inputs: order 1, the unstable frame `(1, 2)` followed by `(4, 0)`, under
the warning type 1. -/
theorem C18_warning_policy_witness :
    (false = false → WarningType.kWarn ≠ WarningType.kExit →
      levdurLoop Rat.sqrt (new 1) WarningType.kWarn
          ([Dbl.num 1, Dbl.num 2] :: [[Dbl.num 4, Dbl.num 0]]) 0 ⟨[], [], [0, 0], ⟨[]⟩⟩ =
        levdurLoop Rat.sqrt (new 1) WarningType.kWarn [[Dbl.num 4, Dbl.num 0]] (0 + 1)
          { stdout := [] ++ [[Dbl.nan, Dbl.num (-2)]]
            unstable_frames :=
              if WarningType.kWarn = WarningType.kWarn then [] ++ [0] else []
            linear_predictive_coefficients := [Dbl.nan, Dbl.num (-2)]
            buffer := ⟨[Dbl.num 0, Dbl.num (-2)]⟩ }) ∧
    (false = false → WarningType.kWarn = WarningType.kExit →
      levdurLoop Rat.sqrt (new 1) WarningType.kWarn
          ([Dbl.num 1, Dbl.num 2] :: [[Dbl.num 4, Dbl.num 0]]) 0 ⟨[], [], [0, 0], ⟨[]⟩⟩ =
        (1, { stdout := []
              unstable_frames := [] ++ [0]
              linear_predictive_coefficients := [Dbl.nan, Dbl.num (-2)]
              buffer := ⟨[Dbl.num 0, Dbl.num (-2)]⟩ })) ∧
    (false = true →
      levdurLoop Rat.sqrt (new 1) WarningType.kWarn
          ([Dbl.num 1, Dbl.num 2] :: [[Dbl.num 4, Dbl.num 0]]) 0 ⟨[], [], [0, 0], ⟨[]⟩⟩ =
        levdurLoop Rat.sqrt (new 1) WarningType.kWarn [[Dbl.num 4, Dbl.num 0]] (0 + 1)
          { stdout := [] ++ [[Dbl.nan, Dbl.num (-2)]]
            unstable_frames := []
            linear_predictive_coefficients := [Dbl.nan, Dbl.num (-2)]
            buffer := ⟨[Dbl.num 0, Dbl.num (-2)]⟩ }) ∧
    ∀ (later : List (List (Dbl ℚ))) (i : Nat) (t : LevdurState ℚ),
      t.stdout <+: (levdurLoop Rat.sqrt (new 1) WarningType.kWarn later i t).2.stdout :=
  C18_warning_policy Rat.sqrt (new 1) WarningType.kWarn [Dbl.num 1, Dbl.num 2]
    [[Dbl.num 4, Dbl.num 0]] 0 ⟨[], [], [0, 0], ⟨[]⟩⟩ [Dbl.nan, Dbl.num (-2)] false
    ⟨[Dbl.num 0, Dbl.num (-2)]⟩ (by decide!)

theorem succ_mod_eq (P i : Nat) (hP : 1 ≤ P) :
    (i + 1) % P = if i % P + 1 = P then 0 else i % P + 1 := by
  have hlt : i % P < P := Nat.mod_lt i (by omega)
  have hdiv : i + 1 = P * (i / P) + (i % P + 1) := by
    have := Nat.div_add_mod i P
    omega
  by_cases h : i % P + 1 = P
  · rw [if_pos h]
    have h2 : i + 1 = P * (i / P + 1) := by
      rw [Nat.mul_add, Nat.mul_one]
      omega
    rw [h2, Nat.mul_mod_right]
  · rw [if_neg h, hdiv, Nat.mul_add_mod, Nat.mod_eq_of_lt (by omega)]

theorem round_id (x : Dbl F) : Dbl.round id x = x := by
  cases x <;> rfl

/-- In exact arithmetic the loop of `train` entered at iteration `i` with the exact phase writes
the pulse at the multiples of the period and zero elsewhere. -/
theorem trainLoop_eq (P : Nat) (hP : 1 ≤ P) (pulse : Dbl F) (n : Nat) : ∀ i : Nat,
    trainLoop id (1 / Dbl.num (P : F)) pulse n (trainPhase P i) =
      (List.range' i n).map (fun l => if P ∣ l then pulse else 0) := by
  have hP0 : (P : F) ≠ 0 := by
    have : (0 : F) < (P : F) := by exact_mod_cast hP
    exact ne_of_gt this
  have hfreq : (1 : Dbl F) / Dbl.num (P : F) = Dbl.num (1 / (P : F)) := by
    simp [hP0]
  induction n with
  | zero => intro i; rfl
  | succ n ih =>
    intro i
    have hlt : i % P < P := Nat.mod_lt i (by omega)
    have hnext := succ_mod_eq P i hP
    rw [trainLoop, List.range'_succ, List.map_cons, hfreq, round_id, round_id, round_id]
    by_cases hd : i % P = 0
    · have hdvd : P ∣ i := Nat.dvd_of_mod_eq_zero hd
      have hph : trainPhase P i = (Dbl.num 1 : Dbl F) := by simp [trainPhase, hd]
      have hph2 : (Dbl.num 1 : Dbl F) + (Dbl.num (1 / (P : F)) - 1) = trainPhase P (i + 1) := by
        simp only [trainPhase, Dbl.one_def, Dbl.num_sub_num, Dbl.num_add_num, Dbl.num.injEq]
        rw [hnext, hd]
        by_cases h1 : 0 + 1 = P
        · rw [if_pos h1, if_pos rfl]
          have : (P : F) = 1 := by exact_mod_cast h1.symm
          rw [this]
          simp
        · rw [if_neg h1, if_neg (by omega)]
          simp
      rw [hph, if_pos (by simp), hph2, ← hfreq, ih (i + 1), if_pos hdvd]
    · have hdvd : ¬ P ∣ i := fun h => hd (Nat.mod_eq_zero_of_dvd h)
      have hph : trainPhase P i = (Dbl.num (((i % P : Nat) : F) / (P : F)) : Dbl F) := by
        simp [trainPhase, hd]
      have hPpos : (0 : F) < (P : F) := by exact_mod_cast hP
      have hle : ¬ (Dbl.le 1 (Dbl.num (((i % P : Nat) : F) / (P : F)) : Dbl F) = true) := by
        simp only [Dbl.one_def, Dbl.le_num_num, decide_eq_true_eq, not_le]
        rw [div_lt_one hPpos]
        exact_mod_cast hlt
      have hph2 : (Dbl.num (((i % P : Nat) : F) / (P : F)) : Dbl F) + Dbl.num (1 / (P : F)) =
          trainPhase P (i + 1) := by
        simp only [trainPhase, Dbl.num_add_num, Dbl.num.injEq]
        rw [hnext]
        by_cases h1 : i % P + 1 = P
        · rw [if_pos h1, if_pos rfl, ← add_div]
          have : ((i % P : Nat) : F) + 1 = (P : F) := by exact_mod_cast h1
          rw [this, div_self hP0]
        · rw [if_neg h1, if_neg (by omega), ← add_div]
          push_cast
          rfl
      rw [hph, if_neg hle, hph2, ← hfreq, ih (i + 1), if_neg hdvd]

theorem sum_map_range'_eq {A : Type} [AddCommMonoid A] (f : Nat → A) (a n : Nat) :
    ((List.range' a n).map f).sum = ∑ j ∈ Finset.range n, f (a + j) := by
  induction n with
  | zero => simp
  | succ n ih =>
    rw [List.range'_concat, List.map_append, List.sum_append, ih, Finset.sum_range_succ]
    simp

/-- Among `P` consecutive indices exactly one is a multiple of `P`. -/
theorem sum_window (P : Nat) (hP : 1 ≤ P) (c : F) (a : Nat) :
    ((List.range' a P).map (fun l => if P ∣ l then c else 0)).sum = c := by
  rw [sum_map_range'_eq]
  induction a with
  | zero =>
    rw [Finset.sum_eq_single 0]
    · simp
    · intro j hj hj0
      rw [Finset.mem_range] at hj
      have : ¬ P ∣ 0 + j := by
        rw [Nat.zero_add]
        exact Nat.not_dvd_of_pos_of_lt (by omega) hj
      rw [if_neg this]
    · intro h
      exact absurd (Finset.mem_range.2 (by omega)) h
  | succ a ih =>
    have h1 := Finset.sum_range_succ (fun j => if P ∣ a + j then c else 0) P
    have h2 := Finset.sum_range_succ' (fun j => if P ∣ a + j then c else 0) P
    have h3 : (if P ∣ a + P then c else 0) = (if P ∣ a + 0 then c else 0) := by
      simp
    rw [h1, ih, h3] at h2
    have h4 : ∑ j ∈ Finset.range P, (if P ∣ a + 1 + j then c else 0) =
        ∑ j ∈ Finset.range P, (if P ∣ a + (j + 1) then c else 0) := by
      apply Finset.sum_congr rfl
      intro j _
      rw [Nat.add_assoc, Nat.add_comm 1 j]
    rw [h4]
    exact (add_right_cancel h2).symm

theorem train_eq (rt : F → F) (P : Nat) (hP : 1 ≤ P) (L : Nat) :
    train id rt L (Dbl.num (P : F)) NormalizationType.kNone =
        (List.range L).map (fun l => if P ∣ l then 1 else 0) ∧
      train id rt L (Dbl.num (P : F)) NormalizationType.kPower =
        (List.range L).map (fun l => if P ∣ l then Dbl.num (rt (P : F)) else 0) ∧
      train id rt L (Dbl.num (P : F)) NormalizationType.kMagnitude =
        (List.range L).map (fun l => if P ∣ l then Dbl.num (P : F) else 0) := by
  have hph : trainPhase P 0 = (1 : Dbl F) := by simp [trainPhase]
  have hnn : ¬ ((P : F) < 0) := by
    have : (0 : F) ≤ (P : F) := Nat.cast_nonneg P
    exact not_lt.2 this
  have key : ∀ pulse : Dbl F,
      trainLoop id (Dbl.round id (1 / Dbl.num (P : F))) pulse L 1 =
      (List.range L).map (fun l => if P ∣ l then pulse else 0) := by
    intro pulse
    have h := trainLoop_eq P hP pulse L 0
    rw [hph, ← List.range_eq_range'] at h
    rw [round_id]
    exact h
  have hs : Dbl.sqrt rt (Dbl.num (P : F)) = Dbl.num (rt (P : F)) := by
    rw [Dbl.sqrt_num, if_neg hnn]
  refine ⟨key 1, ?_, key (Dbl.num (P : F))⟩
  rw [← hs]
  exact key (Dbl.sqrt rt (Dbl.num (P : F)))

theorem getD_train (P L l : Nat) (hl : l < L) (pulse : Dbl F) :
    ((List.range L).map (fun l => if P ∣ l then pulse else 0)).getD l 0 =
      if P ∣ l then pulse else 0 := by
  have h : l < ((List.range L).map (fun l => if P ∣ l then pulse else 0)).length := by
    simpa using hl
  rw [List.getD_eq_getElem _ _ h]
  simp

/-- In exact arithmetic (`fl = id`, which is not the arithmetic of the program), for an integer
period `P >= 1` and an output length `L`, sample `l` of `train` is the pulse when `l` is a
multiple of `P` and `0` otherwise, the pulse being `1`, `sqrt(P)` or `P` for the normalization
0, 1 or 2; over `P` consecutive samples the sum of the samples is `1` for normalization 0, the
mean of their squares is `1` for normalization 1, and their mean is `1` for normalization 2. -/
theorem train_exact (rt : F → F) (P : Nat) (hP : 1 ≤ P) (hrt : rt (P : F) * rt (P : F) = (P : F))
    (L : Nat) :
    (train id rt L (Dbl.num (P : F)) NormalizationType.kNone =
        (List.range L).map (fun l => if P ∣ l then 1 else 0) ∧
      train id rt L (Dbl.num (P : F)) NormalizationType.kPower =
        (List.range L).map (fun l => if P ∣ l then Dbl.num (rt (P : F)) else 0) ∧
      train id rt L (Dbl.num (P : F)) NormalizationType.kMagnitude =
        (List.range L).map (fun l => if P ∣ l then Dbl.num (P : F) else 0)) ∧
    ∀ a, a + P ≤ L →
      ((List.range' a P).map (fun l =>
          (train id rt L (Dbl.num (P : F)) NormalizationType.kNone).getD l 0)).sum = 1 ∧
      1 / Dbl.num (P : F) * ((List.range' a P).map (fun l =>
          (train id rt L (Dbl.num (P : F)) NormalizationType.kPower).getD l 0 *
            (train id rt L (Dbl.num (P : F)) NormalizationType.kPower).getD l 0)).sum = 1 ∧
      1 / Dbl.num (P : F) * ((List.range' a P).map (fun l =>
          (train id rt L (Dbl.num (P : F)) NormalizationType.kMagnitude).getD l 0)).sum = 1 := by
  obtain ⟨h0, h1, h2⟩ := train_eq rt P hP L
  refine ⟨⟨h0, h1, h2⟩, ?_⟩
  intro a ha
  have hP0 : (P : F) ≠ 0 := by
    have : (0 : F) < (P : F) := by exact_mod_cast hP
    exact ne_of_gt this
  have hmap : ∀ (x : List (Dbl F)) (c : F),
      x = (List.range L).map (fun l => if P ∣ l then Dbl.num c else 0) →
      (List.range' a P).map (fun l => x.getD l 0) =
        (List.range' a P).map (fun l => Dbl.num (if P ∣ l then c else 0)) := by
    intro x c hx
    apply List.map_congr_left
    intro l hl
    rw [List.mem_range'_1] at hl
    rw [hx, getD_train P L l (by omega)]
    split_ifs <;> rfl
  have hmap2 : ∀ (x : List (Dbl F)) (c : F),
      x = (List.range L).map (fun l => if P ∣ l then Dbl.num c else 0) →
      (List.range' a P).map (fun l => x.getD l 0 * x.getD l 0) =
        (List.range' a P).map (fun l => Dbl.num (if P ∣ l then c * c else 0)) := by
    intro x c hx
    apply List.map_congr_left
    intro l hl
    rw [List.mem_range'_1] at hl
    rw [hx, getD_train P L l (by omega)]
    split_ifs <;> simp
  refine ⟨?_, ?_, ?_⟩
  · rw [hmap _ 1 h0, Dbl.sum_map_num, sum_window P hP]
    rfl
  · rw [hmap2 _ _ h1, Dbl.sum_map_num, sum_window P hP, hrt]
    simp [hP0]
  · rw [hmap _ _ h2, Dbl.sum_map_num, sum_window P hP]
    simp [hP0]

/-- C20 fails on the program, whose phase accumulator is a `double`.  With the rounding of
binary64 arithmetic, `train` with the period 3 writes its pulses at the samples 0, 4, 7, 10, and
with the default period 10 at the samples 0, 11, 21, so that the ten samples 1..10 hold no
pulse and sum to 0; in exact arithmetic the pulses are at the multiples of the period. -/
theorem C20_train_drift :
    train roundDouble Rat.sqrt 11 (Dbl.num 3) NormalizationType.kNone =
        [1, 0, 0, 0, 1, 0, 0, 1, 0, 0, 1] ∧
    train id Rat.sqrt 11 (Dbl.num (3 : ℚ)) NormalizationType.kNone =
        [1, 0, 0, 1, 0, 0, 1, 0, 0, 1, 0] ∧
    train roundDouble Rat.sqrt 22 (Dbl.num 10) NormalizationType.kNone =
        [1, 0, 0, 0, 0, 0, 0, 0, 0, 0, 0, 1, 0, 0, 0, 0, 0, 0, 0, 0, 0, 1] ∧
    ((List.range' 1 10).map (fun l =>
        (train roundDouble Rat.sqrt 22 (Dbl.num 10) NormalizationType.kNone).getD l 0)).sum =
      0 := by
  decide!

end Claims2

/-! ## The recursion on failing runs, on scaled input and on a prefix -/

namespace LevinsonDurbinRecursion

variable {F : Type} [LinearOrderedField F]

/-- The flag the loop leaves, whether it runs to its end or not: it is `true` exactly when it
was `true` on entry and no iteration that was executed met `1 ≤ |k_m|`; iteration `m` is
executed when the errors before it are non-zero numbers. -/
theorem durbinLoop_flag (R : List (Dbl F)) (n : Nat) : ∀ (i : Nat) (s : Locals F),
    HoldsRow R (i + 1 + n) i s →
    ((durbinLoop R n (i + 1) s).2.is_stable = true ↔
      s.is_stable = true ∧
        ∀ m, i < m → m ≤ i + n →
          (∀ j, i < j → j < m → Dbl.usable (Durbin.e (lag R) j) = true) →
          Dbl.le 1 (Dbl.fabs (Durbin.k (lag R) m)) = false) := by
  induction n with
  | zero =>
    intro i s _
    show s.is_stable = true ↔ _
    exact ⟨fun hs => ⟨hs, fun m h1 h2 => absurd h2 (by omega)⟩, fun hs => hs.1⟩
  | succ n ih =>
    intro i s h
    have hk := reflection_eq_k R i s.c s.e h.e_eq h.c_eq
    have he1 : Durbin.e (lag R) (i + 1) =
        s.e * (1 - Durbin.k (lag R) (i + 1) * Durbin.k (lag R) (i + 1)) := by
      rw [h.e_eq]
      rfl
    unfold durbinLoop
    simp only [hk]
    rw [← he1]
    have hflag : ((if Dbl.le 1 (Dbl.fabs (Durbin.k (lag R) (i + 1))) = true then false
        else s.is_stable) = true) ↔
        s.is_stable = true ∧ Dbl.le 1 (Dbl.fabs (Durbin.k (lag R) (i + 1))) = false := by
      by_cases hle : Dbl.le 1 (Dbl.fabs (Durbin.k (lag R) (i + 1))) = true
      · rw [if_pos hle, hle]
        simp
      · rw [if_neg hle]
        exact ⟨fun h0 => ⟨h0, Bool.eq_false_iff.2 hle⟩, fun h0 => h0.1⟩
    by_cases hu : Dbl.usable (Durbin.e (lag R) (i + 1)) = true
    · have hcond : ¬ ((Dbl.eq 0 (Durbin.e (lag R) (i + 1)) ||
          Dbl.isnan (Durbin.e (lag R) (i + 1))) = true) := Dbl.not_check_of_usable hu
      rw [if_neg hcond]
      have hstep := holdsRow_step R (i + 1 + (n + 1)) i s (by omega) h
        (if Dbl.le 1 (Dbl.fabs (Durbin.k (lag R) (i + 1))) = true then false else s.is_stable)
      rw [← he1] at hstep
      have hlen : i + 1 + (n + 1) = i + 1 + 1 + n := by omega
      rw [hlen] at hstep
      rw [ih (i + 1) _ hstep]
      show (((if Dbl.le 1 (Dbl.fabs (Durbin.k (lag R) (i + 1))) = true then false
        else s.is_stable) = true) ∧ _) ↔ _
      rw [hflag]
      constructor
      · rintro ⟨⟨h0, h1⟩, hall⟩
        refine ⟨h0, fun m hm1 hm2 hprev => ?_⟩
        by_cases hm : m = i + 1
        · rw [hm]; exact h1
        · exact hall m (by omega) (by omega) (fun j hj1 hj2 => hprev j (by omega) hj2)
      · rintro ⟨h0, hall⟩
        refine ⟨⟨h0, hall (i + 1) (by omega) (by omega) (fun j hj1 hj2 => absurd hj2 (by omega))⟩,
          fun m hm1 hm2 hprev => ?_⟩
        refine hall m (by omega) (by omega) (fun j hj1 hj2 => ?_)
        by_cases hj : j = i + 1
        · rw [hj]; exact hu
        · exact hprev j (by omega) hj2
    · have hcond : (Dbl.eq 0 (Durbin.e (lag R) (i + 1)) ||
          Dbl.isnan (Durbin.e (lag R) (i + 1))) = true := Dbl.check_of_not_usable hu
      rw [if_pos hcond]
      show ((if Dbl.le 1 (Dbl.fabs (Durbin.k (lag R) (i + 1))) = true then false
        else s.is_stable) = true) ↔ _
      rw [hflag]
      constructor
      · rintro ⟨h0, h1⟩
        refine ⟨h0, fun m hm1 hm2 hprev => ?_⟩
        by_cases hm : m = i + 1
        · rw [hm]; exact h1
        · exact absurd (hprev (i + 1) (by omega) (by omega)) hu
      · rintro ⟨h0, hall⟩
        exact ⟨h0, hall (i + 1) (by omega) (by omega) (fun j hj1 hj2 => absurd hj2 (by omega))⟩

/-- The flag `Run` leaves on a vector of `M + 1` elements, whether it returns `true` or
`false`: it is `true` exactly when no iteration that was executed met `1 ≤ |k_m|`. -/
theorem Run_flag (rt : F → F) (M : Nat) (R out : List (Dbl F)) (st : Bool) (buf : Buffer F)
    (hlen : R.length = M + 1) :
    (Run rt (new (M : Int)) R (some out) (some st) (some buf)).is_stable = some true ↔
      ∀ m, 1 ≤ m → m ≤ M →
        (∀ j, j < m → Dbl.usable (Durbin.e (lag R) j) = true) →
        Dbl.le 1 (Dbl.fabs (Durbin.k (lag R) m)) = false := by
  have hspec := durbinLoop_flag R M 0 (start R out buf M) (holdsRow_start R out buf M)
  simp only [Nat.zero_add] at hspec
  have hst : (start R out buf M).is_stable = true := rfl
  rw [Run_eq rt M R out st buf hlen]
  by_cases hu : Dbl.usable (lag R 0) = true
  · have hiff : (durbinLoop R M 1 (start R out buf M)).2.is_stable = true ↔
        ∀ m, 1 ≤ m → m ≤ M →
          (∀ j, j < m → Dbl.usable (Durbin.e (lag R) j) = true) →
          Dbl.le 1 (Dbl.fabs (Durbin.k (lag R) m)) = false := by
      rw [hspec]
      constructor
      · rintro ⟨_, hall⟩ m h1 h2 hprev
        exact hall m (by omega) h2 (fun j hj1 hj2 => hprev j hj2)
      · intro hall
        refine ⟨hst, fun m h1 h2 hprev => hall m (by omega) h2 (fun j hj => ?_)⟩
        by_cases hj0 : j = 0
        · rw [hj0]; exact hu
        · exact hprev j (by omega) hj
    rw [if_pos hu]
    by_cases hd : (durbinLoop R M 1 (start R out buf M)).1 = true
    · rw [if_pos hd]
      show some _ = some true ↔ _
      rw [Option.some_inj, hiff]
    · rw [if_neg hd]
      show some _ = some true ↔ _
      rw [Option.some_inj, hiff]
  · rw [if_neg hu]
    refine ⟨fun _ m h1 _ hprev => absurd (hprev 0 (by omega)) hu, fun _ => rfl⟩

end LevinsonDurbinRecursion

namespace Durbin

/-- Row `i` of the reference recursion depends on the lags `0..i` only. -/
theorem row_congr {D : Type} [Zero D] [One D] [Add D] [Sub D] [Mul D] [Div D] [Neg D]
    (r r' : Nat → D) (i : Nat) (h : ∀ j, j ≤ i → r j = r' j) :
    e r i = e r' i ∧ (∀ j, a r i j = a r' i j) ∧ (1 ≤ i → k r i = k r' i) := by
  induction i with
  | zero => exact ⟨h 0 (le_refl 0), fun j => rfl, fun h1 => absurd h1 (by omega)⟩
  | succ i ih =>
    obtain ⟨he, ha, _⟩ := ih (fun j hj => h j (by omega))
    have hk : k r (i + 1) = k r' (i + 1) := by
      have h3 : k r (i + 1) =
          -(r (i + 1) + ((List.range' 1 i).map (fun j => a r i j * r (i + 1 - j))).sum) / e r i :=
        rfl
      have h4 : k r' (i + 1) =
          -(r' (i + 1) + ((List.range' 1 i).map (fun j => a r' i j * r' (i + 1 - j))).sum) /
            e r' i := rfl
      have hmap : (List.range' 1 i).map (fun j => a r i j * r (i + 1 - j)) =
          (List.range' 1 i).map (fun j => a r' i j * r' (i + 1 - j)) := by
        apply List.map_congr_left
        intro j hj
        rw [List.mem_range'_1] at hj
        rw [ha j, h (i + 1 - j) (by omega)]
      rw [h3, h4, hmap, h (i + 1) (le_refl _), he]
    refine ⟨?_, ?_, fun _ => hk⟩
    · rw [e_succ, e_succ, hk, he]
    · intro j
      show (if 1 ≤ j ∧ j < i + 1 then a r i j + k r (i + 1) * a r i (i + 1 - j)
        else if j = i + 1 then k r (i + 1) else 0) =
        (if 1 ≤ j ∧ j < i + 1 then a r' i j + k r' (i + 1) * a r' i (i + 1 - j)
        else if j = i + 1 then k r' (i + 1) else 0)
      rw [hk, ha j, ha (i + 1 - j)]

end Durbin

/-- The lags of a prefix of the autocorrelation vector are those of the vector. -/
theorem lag_take {F : Type} (R : List (Dbl F)) (n j : Nat) (hj : j < n) :
    lag (R.take n) j = lag R j := by
  simp only [lag, List.getD_eq_getElem?_getD, List.getElem?_take, if_pos hj]


/-! ## Scaling the autocorrelation -/

namespace Dbl

variable {F : Type} [LinearOrderedField F]

theorem mul_scale (s : F) (x y : Dbl F) : x * (num s * y) = num s * (x * y) := by
  cases x <;> cases y <;> simp [mul_left_comm]

theorem scale_add (s : F) (x y : Dbl F) : num s * x + num s * y = num s * (x + y) := by
  cases x <;> cases y <;> simp [mul_add]

theorem scale_mul (s : F) (x y : Dbl F) : num s * x * y = num s * (x * y) := by
  cases x <;> cases y <;> simp [mul_assoc]

theorem sum_map_scale {α : Type} (s : F) (f : α → Dbl F) (l : List α) :
    (l.map (fun j => num s * f j)).sum = num s * (l.map f).sum := by
  induction l with
  | nil => simp
  | cons x l ih => simp only [List.map_cons, List.sum_cons, ih, scale_add]

theorem scale_div (s : F) (hs : s ≠ 0) (x y : Dbl F) : -(num s * x) / (num s * y) = -x / y := by
  cases x <;> cases y <;> simp [hs]
  rename_i a b
  by_cases hb : b = 0
  · simp [hb]
  · simp only [hb, if_false, num.injEq]
    field_simp
    ring

theorem usable_scale (s : F) (hs : s ≠ 0) (x : Dbl F) : usable (num s * x) = usable x := by
  cases x with
  | nan => rfl
  | num a =>
    simp only [usable, num_mul_num, zero_def, eq_num_num, isnan_num, Bool.or_false]
    congr 1
    rw [decide_eq_decide]
    constructor
    · intro h
      rcases mul_eq_zero.1 h.symm with h1 | h1
      · exact absurd h1 hs
      · exact h1.symm
    · intro h
      rw [← h, mul_zero]

end Dbl

namespace Durbin

variable {F : Type} [LinearOrderedField F]

/-- Scaling the autocorrelation by a non-zero `s` scales the errors of the reference by `s`
and leaves its coefficients and reflection coefficients as they are. -/
theorem row_scale (s : F) (hs : s ≠ 0) (r : Nat → Dbl F) (i : Nat) :
    e (fun j => Dbl.num s * r j) i = Dbl.num s * e r i ∧
      (∀ j, a (fun j => Dbl.num s * r j) i j = a r i j) ∧
      (1 ≤ i → k (fun j => Dbl.num s * r j) i = k r i) := by
  induction i with
  | zero => exact ⟨rfl, fun j => rfl, fun h1 => absurd h1 (by omega)⟩
  | succ i ih =>
    obtain ⟨he, ha, _⟩ := ih
    have hk : k (fun j => Dbl.num s * r j) (i + 1) = k r (i + 1) := by
      have h3 : k r (i + 1) =
          -(r (i + 1) + ((List.range' 1 i).map (fun j => a r i j * r (i + 1 - j))).sum) / e r i :=
        rfl
      have h4 : k (fun j => Dbl.num s * r j) (i + 1) =
          -(Dbl.num s * r (i + 1) + ((List.range' 1 i).map
            (fun j => a (fun j => Dbl.num s * r j) i j * (Dbl.num s * r (i + 1 - j)))).sum) /
            e (fun j => Dbl.num s * r j) i := rfl
      have hmap : (List.range' 1 i).map
          (fun j => a (fun j => Dbl.num s * r j) i j * (Dbl.num s * r (i + 1 - j))) =
          (List.range' 1 i).map (fun j => Dbl.num s * (a r i j * r (i + 1 - j))) := by
        apply List.map_congr_left
        intro j _
        rw [ha j, Dbl.mul_scale]
      rw [h3, h4, hmap, Dbl.sum_map_scale s (fun j => a r i j * r (i + 1 - j)), Dbl.scale_add, he,
        Dbl.scale_div s hs]
    refine ⟨?_, ?_, fun _ => hk⟩
    · rw [e_succ, e_succ, hk, he, Dbl.scale_mul]
    · intro j
      show (if 1 ≤ j ∧ j < i + 1 then a (fun j => Dbl.num s * r j) i j +
          k (fun j => Dbl.num s * r j) (i + 1) * a (fun j => Dbl.num s * r j) i (i + 1 - j)
        else if j = i + 1 then k (fun j => Dbl.num s * r j) (i + 1) else 0) =
        (if 1 ≤ j ∧ j < i + 1 then a r i j + k r (i + 1) * a r i (i + 1 - j)
        else if j = i + 1 then k r (i + 1) else 0)
      rw [hk, ha j, ha (i + 1 - j)]

end Durbin

/-- The lags of the scaled autocorrelation vector. -/
theorem lag_map_scale {F : Type} [LinearOrderedField F] (s : F) (R : List (Dbl F)) :
    lag (R.map (fun x => Dbl.num s * x)) = fun j => Dbl.num s * lag R j := by
  funext j
  have h := List.getD_map (fun x => Dbl.num s * x) (l := R) (n := j) (d := Dbl.nan)
  exact h
section Claims3

variable {F : Type} [LinearOrderedField F]

/-- C22 fails as stated: for order 2 and `R = (1, 1, 1)` the call returns `false` at step 1
(`k_1 = -1`, `e_1 = 0`), having written the slots 0 and 1 only, so that an output vector that
held `(7, 8, 9)` is left as `(0, -1, 9)` and an empty one as `(0, -1, 0)`. -/
theorem C22_prior_state_counterexample :
    (Run Rat.sqrt (new 2) [Dbl.num 1, Dbl.num 1, Dbl.num 1]
        (some [Dbl.num 7, Dbl.num 8, Dbl.num 9]) (some true)
        (some ⟨[]⟩)).linear_predictive_coefficients =
      some [Dbl.num 0, Dbl.num (-1), Dbl.num 9] ∧
    (Run Rat.sqrt (new 2) [Dbl.num 1, Dbl.num 1, Dbl.num 1] (some []) (some true)
        (some ⟨[]⟩)).linear_predictive_coefficients =
      some [Dbl.num 0, Dbl.num (-1), Dbl.num 0] := by
  decide!

/-- C22, amended: the value `Run` returns and the stability flag it leaves do not depend on
what the output vector and the scratch buffer held, nor on their sizes, before the call; and
when `Run` returns `true` the output vector does not depend on them either. -/
theorem C22_prior_state (rt : F → F) (M : Int) (R out1 out2 : List (Dbl F)) (st : Option Bool)
    (buf1 buf2 : Buffer F) :
    (Run rt (new M) R (some out1) st (some buf1)).ret =
      (Run rt (new M) R (some out2) st (some buf2)).ret ∧
    (Run rt (new M) R (some out1) st (some buf1)).is_stable =
      (Run rt (new M) R (some out2) st (some buf2)).is_stable ∧
    ((Run rt (new M) R (some out1) st (some buf1)).ret = true →
      (Run rt (new M) R (some out1) st (some buf1)).linear_predictive_coefficients =
        (Run rt (new M) R (some out2) st (some buf2)).linear_predictive_coefficients) := by
  by_cases h : M < 0 ∨ (R.length : Int) ≠ M + 1 ∨ st = none
  · have h1 : M < 0 ∨ (R.length : Int) ≠ M + 1 ∨ some out1 = none ∨ st = none ∨
        some buf1 = none := by tauto
    have h2 : M < 0 ∨ (R.length : Int) ≠ M + 1 ∨ some out2 = none ∨ st = none ∨
        some buf2 = none := by tauto
    rw [Run_check rt M R (some out1) st (some buf1) h1,
      Run_check rt M R (some out2) st (some buf2) h2]
    exact ⟨rfl, rfl, fun hf => absurd hf (by simp)⟩
  · simp only [not_or, not_lt, ne_eq, not_not] at h
    obtain ⟨hM, hlen, hst⟩ := h
    obtain ⟨m, rfl⟩ := Int.eq_ofNat_of_zero_le hM
    obtain ⟨s, rfl⟩ := Option.ne_none_iff_exists'.1 hst
    have hlen2 : R.length = m + 1 := by exact_mod_cast hlen
    obtain ⟨hret, hflag⟩ := Run_congr rt m R out1 out2 s buf1 buf2 hlen2
    refine ⟨hret, hflag, ?_⟩
    intro hok
    rw [(Run_true rt m R out1 s buf1 hlen2 hok).1,
      (Run_true rt m R out2 s buf2 hlen2 (hret ▸ hok)).1]

/-- C23: on a valid instance (`M ≥ 0`) and a vector of `M + 1` elements whose `R(0)` is a
non-zero number and whose errors `e_1`, ..., `e_M` are non-zero numbers, `Run` returns
`true` (the pointers it is given are not `NULL`). -/
theorem C23_converse (rt : F → F) (M : Nat) (R out : List (Dbl F)) (st : Bool) (buf : Buffer F)
    (hlen : R.length = M + 1) (h0 : ∃ x : F, lag R 0 = Dbl.num x ∧ x ≠ 0)
    (hE : ∀ i, 1 ≤ i → i ≤ M → ∃ x : F, Durbin.e (lag R) i = Dbl.num x ∧ x ≠ 0) :
    (Run rt (new (M : Int)) R (some out) (some st) (some buf)).ret = true := by
  rw [Run_ret rt M R out st buf hlen, Durbin.regular_iff]
  intro m hm
  by_cases hm0 : m = 0
  · rw [hm0]
    exact (Dbl.usable_iff _).2 h0
  · exact (Dbl.usable_iff _).2 (hE m (by omega) hm)

/-- C23, at a concrete input: order 2 and `R = (25, 15, 9)`, where `e_1 = e_2 = 16`. -/
theorem C23_converse_witness :
    (Run Rat.sqrt (new ((2 : Nat) : Int)) [Dbl.num 25, Dbl.num 15, Dbl.num 9] (some [])
      (some false) (some ⟨[]⟩)).ret = true :=
  C23_converse Rat.sqrt 2 [Dbl.num 25, Dbl.num 15, Dbl.num 9] [] false ⟨[]⟩ rfl
    ⟨25, rfl, by norm_num⟩
    (fun i h1 h2 => by
      interval_cases i
      · exact ⟨16, by decide!, by norm_num⟩
      · exact ⟨16, by decide!, by norm_num⟩)

/-- C25: when the instance is invalid or the autocorrelation vector does not have
`num_order + 1` elements, `Run` returns `false` and leaves the output vector, the stability
flag and the scratch buffer as they were on entry. -/
theorem C25_validation_frame (rt : F → F) (self : LevinsonDurbinRecursion) (R : List (Dbl F))
    (lpc : Option (List (Dbl F))) (st : Option Bool) (buf : Option (Buffer F))
    (h : self.IsValid = false ∨ (R.length : Int) ≠ self.num_order_ + 1) :
    Run rt self R lpc st buf = ⟨false, lpc, st, buf⟩ := by
  unfold Run
  cases lpc with
  | none => rfl
  | some out =>
    cases st with
    | none => rfl
    | some s =>
      cases buf with
      | none => rfl
      | some b =>
        have hc : (!self.is_valid_ || decide ((R.length : Int) ≠ self.num_order_ + 1)) = true := by
          rcases h with h | h
          · have h1 : self.is_valid_ = false := h
            simp [h1]
          · simp [h]
        simp only [hc, if_true]

/-- C25, at concrete inputs: an instance of order -1, and an instance of order 2 given a
vector of two elements. -/
theorem C25_validation_frame_witness :
    Run Rat.sqrt (new (-1)) [Dbl.num 1] (some [Dbl.num 7]) (some false) (some ⟨[Dbl.num 8]⟩) =
        ⟨false, some [Dbl.num 7], some false, some ⟨[Dbl.num 8]⟩⟩ ∧
    Run Rat.sqrt (new 2) [Dbl.num 1, Dbl.num 0] (some [Dbl.num 7]) (some false)
        (some ⟨[Dbl.num 8]⟩) =
      ⟨false, some [Dbl.num 7], some false, some ⟨[Dbl.num 8]⟩⟩ :=
  ⟨C25_validation_frame Rat.sqrt (new (-1)) _ _ _ _ (Or.inl rfl),
    C25_validation_frame Rat.sqrt (new 2) _ _ _ _ (Or.inr (by decide))⟩

/-- C27: for an order `M + 1 ≥ 1` and a vector `R(0..M+1)`, if the run of order `M + 1` on
`R` returns `true` then so does the run of order `M` on the prefix `R(0..M)`, and if the run
of order `M + 1` leaves the flag `true` (whether it returns `true` or not) then so does the
run of order `M`. -/
theorem C27_order_recursive (rt : F → F) (M : Nat) (R out1 out2 : List (Dbl F))
    (st1 st2 : Bool) (buf1 buf2 : Buffer F) (hlen : R.length = M + 1 + 1) :
    ((Run rt (new ((M + 1 : Nat) : Int)) R (some out1) (some st1) (some buf1)).ret = true →
      (Run rt (new (M : Int)) (R.take (M + 1)) (some out2) (some st2) (some buf2)).ret = true) ∧
    ((Run rt (new ((M + 1 : Nat) : Int)) R (some out1) (some st1) (some buf1)).is_stable =
        some true →
      (Run rt (new (M : Int)) (R.take (M + 1)) (some out2) (some st2) (some buf2)).is_stable =
        some true) := by
  have hlen2 : (R.take (M + 1)).length = M + 1 := by
    rw [List.length_take]
    omega
  have hrow : ∀ i, i ≤ M → Durbin.e (lag (R.take (M + 1))) i = Durbin.e (lag R) i ∧
      (1 ≤ i → Durbin.k (lag (R.take (M + 1))) i = Durbin.k (lag R) i) := by
    intro i hi
    obtain ⟨h1, _, h3⟩ := Durbin.row_congr (lag (R.take (M + 1))) (lag R) i
      (fun j hj => lag_take R (M + 1) j (by omega))
    exact ⟨h1, h3⟩
  constructor
  · rw [Run_ret rt (M + 1) R out1 st1 buf1 hlen, Run_ret rt M _ out2 st2 buf2 hlen2,
      Durbin.regular_iff, Durbin.regular_iff]
    intro hreg m hm
    rw [(hrow m hm).1]
    exact hreg m (by omega)
  · rw [Run_flag rt (M + 1) R out1 st1 buf1 hlen, Run_flag rt M _ out2 st2 buf2 hlen2]
    intro hall m h1 h2 hprev
    rw [(hrow m h2).2 h1]
    refine hall m h1 (by omega) (fun j hj => ?_)
    rw [← (hrow j (by omega)).1]
    exact hprev j hj

/-- C27, at a concrete input: `R = (25, 15, 9)`, where the run of order 2 and the run of
order 1 on `(25, 15)` both return `true` and both leave the flag `true`. -/
theorem C27_order_recursive_witness :
    ((Run Rat.sqrt (new ((1 + 1 : Nat) : Int)) [Dbl.num 25, Dbl.num 15, Dbl.num 9] (some [])
        (some false) (some ⟨[]⟩)).ret = true ∧
      (Run Rat.sqrt (new ((1 : Nat) : Int)) ([Dbl.num 25, Dbl.num 15, Dbl.num 9].take (1 + 1))
        (some []) (some false) (some ⟨[]⟩)).ret = true) ∧
    ((Run Rat.sqrt (new ((1 + 1 : Nat) : Int)) [Dbl.num 25, Dbl.num 15, Dbl.num 9] (some [])
        (some false) (some ⟨[]⟩)).is_stable = some true ∧
      (Run Rat.sqrt (new ((1 : Nat) : Int)) ([Dbl.num 25, Dbl.num 15, Dbl.num 9].take (1 + 1))
        (some []) (some false) (some ⟨[]⟩)).is_stable = some true) :=
  ⟨⟨by decide!, (C27_order_recursive Rat.sqrt 1 [Dbl.num 25, Dbl.num 15, Dbl.num 9] [] [] false
      false ⟨[]⟩ ⟨[]⟩ rfl).1 (by decide!)⟩,
    ⟨by decide!, (C27_order_recursive Rat.sqrt 1 [Dbl.num 25, Dbl.num 15, Dbl.num 9] [] [] false
      false ⟨[]⟩ ⟨[]⟩ rfl).2 (by decide!)⟩⟩

/-- C24: for an input with `R(0) > 0` on which `Run` returns `true` and leaves the flag
`true`, every error `e_0`, ..., `e_M` is a strictly positive number, and the gain in slot 0
satisfies `0 < gain ≤ sqrt(R(0))` and `gain^2 = R(0) Π_(i=1..M) (1 - k_i^2)`.  The value `rt x`
that `std::sqrt` returns is assumed to be the non-negative root of `x` at `R(0)` and at
`e_M`. -/
theorem C24_gain_bounds (rt : F → F) (M : Nat) (R : List (Dbl F))
    (lpc : Option (List (Dbl F))) (st : Option Bool) (buf : Option (Buffer F))
    (hpos : Dbl.lt 0 (lag R 0) = true)
    (hrt0 : 0 ≤ rt (Dbl.val (lag R 0)) ∧
      rt (Dbl.val (lag R 0)) * rt (Dbl.val (lag R 0)) = Dbl.val (lag R 0))
    (hrtM : 0 ≤ rt (Dbl.val (Durbin.e (lag R) M)) ∧
      rt (Dbl.val (Durbin.e (lag R) M)) * rt (Dbl.val (Durbin.e (lag R) M)) =
        Dbl.val (Durbin.e (lag R) M))
    (hok : (Run rt (new (M : Int)) R lpc st buf).ret = true)
    (hst : (Run rt (new (M : Int)) R lpc st buf).is_stable = some true) :
    ∃ (e k : Nat → F) (gain : F) (out : List (Dbl F)),
      (∀ i, i ≤ M → Durbin.e (lag R) i = Dbl.num (e i) ∧ 0 < e i) ∧
      (∀ i, 1 ≤ i → i ≤ M → Durbin.k (lag R) i = Dbl.num (k i)) ∧
      (Run rt (new (M : Int)) R lpc st buf).linear_predictive_coefficients = some out ∧
      out.getD 0 Dbl.nan = Dbl.num gain ∧ 0 < gain ∧ gain ≤ rt (Dbl.val (lag R 0)) ∧
      gain * gain =
        Dbl.val (lag R 0) * ∏ i ∈ Finset.range M, (1 - k (i + 1) * k (i + 1)) := by
  obtain ⟨hlen, out0, s, b, rfl, rfl, rfl⟩ := Run_inv rt M R lpc st buf hok
  have hreg : Durbin.regular (lag R) M = true := by
    rw [← Run_ret rt M R out0 s b hlen]
    exact hok
  obtain ⟨hout, hflag⟩ := Run_true rt M R out0 s b hlen hok
  have hstable : Durbin.stable (lag R) M = true := by
    rw [hflag] at hst
    exact Option.some.inj hst
  rw [Durbin.stable_iff] at hstable
  have hreg2 := (Durbin.regular_iff (lag R) M).1 hreg
  have hrow : ∀ i, i ≤ M → Durbin.e (lag R) i = Dbl.num (Durbin.e (fun j => Dbl.val (lag R j)) i) ∧
      (1 ≤ i → Durbin.k (lag R) i = Dbl.num (Durbin.k (fun j => Dbl.val (lag R j)) i)) := by
    intro i hi
    obtain ⟨h1, _, _, h4⟩ := Durbin.row_num (lag R) (fun j => Dbl.val (lag R j)) i
      (fun j hj => Durbin.num_of_regular (lag R) M hreg j (by omega))
      (fun m hm => hreg2 m (by omega))
    exact ⟨h1, h4⟩
  have hk1 : ∀ i, i < M →
      0 < 1 - Durbin.k (fun j => Dbl.val (lag R j)) (i + 1) *
        Durbin.k (fun j => Dbl.val (lag R j)) (i + 1) ∧
      1 - Durbin.k (fun j => Dbl.val (lag R j)) (i + 1) *
        Durbin.k (fun j => Dbl.val (lag R j)) (i + 1) ≤ 1 := by
    intro i hi
    have h1 := hstable (i + 1) (by omega) (by omega)
    rw [(hrow (i + 1) (by omega)).2 (by omega)] at h1
    simp only [Dbl.one_def, Dbl.fabs_num, Dbl.le_num_num, decide_eq_false_iff_not, not_le] at h1
    have h2 := abs_mul_abs_self (Durbin.k (fun j => Dbl.val (lag R j)) (i + 1))
    have h3 := abs_nonneg (Durbin.k (fun j => Dbl.val (lag R j)) (i + 1))
    constructor
    · nlinarith
    · nlinarith
  have hr0 : 0 < Dbl.val (lag R 0) := by
    revert hpos
    cases lag R 0 with
    | nan => intro h; exact absurd h (by simp [Dbl.lt])
    | num x =>
      intro h
      simpa [Dbl.lt, Dbl.val] using h
  have hind : ∀ i, i ≤ M → 0 < Durbin.e (fun j => Dbl.val (lag R j)) i ∧
      Durbin.e (fun j => Dbl.val (lag R j)) i ≤ Dbl.val (lag R 0) ∧
      Durbin.e (fun j => Dbl.val (lag R j)) i = Dbl.val (lag R 0) *
        ∏ m ∈ Finset.range i, (1 - Durbin.k (fun j => Dbl.val (lag R j)) (m + 1) *
          Durbin.k (fun j => Dbl.val (lag R j)) (m + 1)) := by
    intro i
    induction i with
    | zero =>
      intro _
      have h0 : Durbin.e (fun j => Dbl.val (lag R j)) 0 = Dbl.val (lag R 0) := rfl
      rw [h0]
      exact ⟨hr0, le_refl _, by simp⟩
    | succ i ih =>
      intro hi
      obtain ⟨h1, h2, h3⟩ := ih (by omega)
      obtain ⟨h4, h5⟩ := hk1 i (by omega)
      rw [Durbin.e_succ, Finset.prod_range_succ, ← mul_assoc, ← h3]
      refine ⟨mul_pos h1 h4, ?_, rfl⟩
      calc Durbin.e (fun j => Dbl.val (lag R j)) i *
            (1 - Durbin.k (fun j => Dbl.val (lag R j)) (i + 1) *
              Durbin.k (fun j => Dbl.val (lag R j)) (i + 1))
          ≤ Durbin.e (fun j => Dbl.val (lag R j)) i * 1 :=
            mul_le_mul_of_nonneg_left h5 (le_of_lt h1)
        _ = Durbin.e (fun j => Dbl.val (lag R j)) i := mul_one _
        _ ≤ Dbl.val (lag R 0) := h2
  obtain ⟨hM1, hM2, hM3⟩ := hind M (le_refl M)
  have heM := (hrow M (le_refl M)).1
  have hval : Dbl.val (Durbin.e (lag R) M) = Durbin.e (fun j => Dbl.val (lag R j)) M := by
    rw [heM]
    rfl
  rw [hval] at hrtM
  obtain ⟨hg0, hg2⟩ := hrtM
  refine ⟨Durbin.e (fun j => Dbl.val (lag R j)), Durbin.k (fun j => Dbl.val (lag R j)),
    rt (Durbin.e (fun j => Dbl.val (lag R j)) M), _,
    fun i hi => ⟨(hrow i hi).1, (hind i hi).1⟩, fun i h1 h2 => (hrow i h2).2 h1, hout, ?_, ?_, ?_,
    ?_⟩
  · simp [Durbin.lpc, heM, not_lt.2 (le_of_lt hM1)]
  · rcases lt_or_eq_of_le hg0 with h | h
    · exact h
    · rw [← h, mul_zero] at hg2
      exact absurd hg2.symm (ne_of_gt hM1)
  · refine (mul_self_le_mul_self_iff hg0 hrt0.1).2 ?_
    rw [hg2, hrt0.2]
    exact hM2
  · rw [hg2]
    exact hM3

/-- C24, at a concrete input: order 2 and `R = (25, 15, 9)`, where `e_1 = e_2 = 16` and the
gain is 4. -/
theorem C24_gain_bounds_witness :
    ∃ (e k : Nat → ℚ) (gain : ℚ) (out : List (Dbl ℚ)),
      (∀ i, i ≤ 2 → Durbin.e (lag [Dbl.num 25, Dbl.num 15, Dbl.num 9]) i = Dbl.num (e i) ∧
        0 < e i) ∧
      (∀ i, 1 ≤ i → i ≤ 2 →
        Durbin.k (lag [Dbl.num 25, Dbl.num 15, Dbl.num 9]) i = Dbl.num (k i)) ∧
      (Run Rat.sqrt (new ((2 : Nat) : Int)) [Dbl.num 25, Dbl.num 15, Dbl.num 9] (some [])
        (some false) (some ⟨[]⟩)).linear_predictive_coefficients = some out ∧
      out.getD 0 Dbl.nan = Dbl.num gain ∧ 0 < gain ∧
      gain ≤ Rat.sqrt (Dbl.val (lag [Dbl.num 25, Dbl.num 15, Dbl.num 9] 0)) ∧
      gain * gain = Dbl.val (lag [Dbl.num 25, Dbl.num 15, Dbl.num 9] 0) *
        ∏ i ∈ Finset.range 2, (1 - k (i + 1) * k (i + 1)) :=
  C24_gain_bounds Rat.sqrt 2 [Dbl.num 25, Dbl.num 15, Dbl.num 9] (some []) (some false)
    (some ⟨[]⟩) (by decide!) (by decide!) (by decide!) (by decide!) (by decide!)

/-- C26: for `s > 0`, `Run` on the autocorrelation `s R` returns `true` exactly when it does
on `R`, and then it leaves the same stability flag, the same coefficients `a(1..M)`, and in
slot 0 the gain of `R` multiplied by `sqrt(s)`.  The value `rt x` that `std::sqrt` returns is
assumed to be multiplicative at `s` and `e_M`, as the exact root of a non-negative number
is. -/
theorem C26_scale_invariance (rt : F → F) (s : F) (hs : 0 < s) (M : Nat)
    (R out1 out2 : List (Dbl F)) (st1 st2 : Bool) (buf1 buf2 : Buffer F)
    (hrt : 0 ≤ Dbl.val (Durbin.e (lag R) M) →
      rt (s * Dbl.val (Durbin.e (lag R) M)) = rt s * rt (Dbl.val (Durbin.e (lag R) M))) :
    (Run rt (new (M : Int)) (R.map (fun x => Dbl.num s * x)) (some out1) (some st1)
        (some buf1)).ret =
      (Run rt (new (M : Int)) R (some out2) (some st2) (some buf2)).ret ∧
    ((Run rt (new (M : Int)) R (some out2) (some st2) (some buf2)).ret = true →
      (Run rt (new (M : Int)) (R.map (fun x => Dbl.num s * x)) (some out1) (some st1)
          (some buf1)).is_stable =
        (Run rt (new (M : Int)) R (some out2) (some st2) (some buf2)).is_stable ∧
      ∃ (gain : Dbl F) (a : List (Dbl F)),
        (Run rt (new (M : Int)) R (some out2) (some st2)
          (some buf2)).linear_predictive_coefficients = some (gain :: a) ∧
        (Run rt (new (M : Int)) (R.map (fun x => Dbl.num s * x)) (some out1) (some st1)
          (some buf1)).linear_predictive_coefficients = some (Dbl.num (rt s) * gain :: a)) := by
  have hs0 : s ≠ 0 := ne_of_gt hs
  by_cases hlen : R.length = M + 1
  · have hlen2 : (R.map (fun x => Dbl.num s * x)).length = M + 1 := by
      rw [List.length_map, hlen]
    have hret : (Run rt (new (M : Int)) (R.map (fun x => Dbl.num s * x)) (some out1) (some st1)
        (some buf1)).ret =
        (Run rt (new (M : Int)) R (some out2) (some st2) (some buf2)).ret := by
      rw [Run_ret rt M _ out1 st1 buf1 hlen2, Run_ret rt M R out2 st2 buf2 hlen, Bool.eq_iff_iff,
        Durbin.regular_iff, Durbin.regular_iff, lag_map_scale]
      constructor
      · intro h m hm
        have h1 := h m hm
        rw [(Durbin.row_scale s hs0 (lag R) m).1, Dbl.usable_scale s hs0] at h1
        exact h1
      · intro h m hm
        rw [(Durbin.row_scale s hs0 (lag R) m).1, Dbl.usable_scale s hs0]
        exact h m hm
    refine ⟨hret, fun hok => ?_⟩
    obtain ⟨hout, hflag⟩ := Run_true rt M R out2 st2 buf2 hlen hok
    obtain ⟨hout2, hflag2⟩ := Run_true rt M _ out1 st1 buf1 hlen2 (hret.trans hok)
    constructor
    · rw [hflag, hflag2]
      congr 1
      rw [Bool.eq_iff_iff, Durbin.stable_iff, Durbin.stable_iff, lag_map_scale]
      constructor
      · intro h m h1 h2
        rw [← (Durbin.row_scale s hs0 (lag R) m).2.2 h1]
        exact h m h1 h2
      · intro h m h1 h2
        rw [(Durbin.row_scale s hs0 (lag R) m).2.2 h1]
        exact h m h1 h2
    · refine ⟨_, _, hout, ?_⟩
      rw [hout2, lag_map_scale]
      have ha : Durbin.a (fun j => Dbl.num s * lag R j) M = Durbin.a (lag R) M :=
        funext (Durbin.row_scale s hs0 (lag R) M).2.1
      have hreg : Durbin.regular (lag R) M = true := by
        rw [← Run_ret rt M R out2 st2 buf2 hlen]
        exact hok
      obtain ⟨x, hx, _⟩ := (Dbl.usable_iff _).1
        ((Durbin.regular_iff (lag R) M).1 hreg M (le_refl M))
      have hg : Dbl.sqrt rt (Durbin.e (fun j => Dbl.num s * lag R j) M) =
          Dbl.num (rt s) * Dbl.sqrt rt (Durbin.e (lag R) M) := by
        rw [(Durbin.row_scale s hs0 (lag R) M).1]
        rw [hx] at hrt ⊢
        simp only [Dbl.num_mul_num, Dbl.sqrt_num]
        by_cases hneg : x < 0
        · rw [if_pos hneg, if_pos (mul_neg_of_pos_of_neg hs hneg)]
          rfl
        · rw [if_neg hneg, if_neg (not_lt.2 (mul_nonneg (le_of_lt hs) (not_lt.1 hneg)))]
          have h2 : rt (s * x) = rt s * rt x := hrt (not_lt.1 hneg)
          rw [Dbl.num_mul_num, h2]
      simp only [Durbin.lpc, ha, hg]
  · have h1 : (M : Int) < 0 ∨ (R.length : Int) ≠ (M : Int) + 1 ∨ some out2 = none ∨
        some st2 = none ∨ some buf2 = none := by
      refine Or.inr (Or.inl ?_)
      intro h
      exact hlen (by exact_mod_cast h)
    have h2 : (M : Int) < 0 ∨ ((R.map (fun x => Dbl.num s * x)).length : Int) ≠ (M : Int) + 1 ∨
        some out1 = none ∨ some st1 = none ∨ some buf1 = none := by
      refine Or.inr (Or.inl ?_)
      rw [List.length_map]
      intro h
      exact hlen (by exact_mod_cast h)
    rw [Run_check rt M R _ _ _ h1, Run_check rt M _ _ _ _ h2]
    exact ⟨rfl, fun hf => absurd hf (by simp)⟩

/-- C26, at a concrete input: `s = 4`, order 1 and `R = (25, 15)`, where the gain is 4, and
`4 R = (100, 60)`, where it is 8; both runs leave the coefficient `-3/5`. -/
theorem C26_scale_invariance_witness :
    ((Run Rat.sqrt (new ((1 : Nat) : Int)) ([Dbl.num 25, Dbl.num 15].map (fun x => Dbl.num 4 * x))
        (some []) (some false) (some ⟨[]⟩)).ret =
      (Run Rat.sqrt (new ((1 : Nat) : Int)) [Dbl.num 25, Dbl.num 15] (some []) (some false)
        (some ⟨[]⟩)).ret ∧
    ((Run Rat.sqrt (new ((1 : Nat) : Int)) [Dbl.num 25, Dbl.num 15] (some []) (some false)
        (some ⟨[]⟩)).ret = true →
      (Run Rat.sqrt (new ((1 : Nat) : Int)) ([Dbl.num 25, Dbl.num 15].map
          (fun x => Dbl.num 4 * x)) (some []) (some false) (some ⟨[]⟩)).is_stable =
        (Run Rat.sqrt (new ((1 : Nat) : Int)) [Dbl.num 25, Dbl.num 15] (some []) (some false)
          (some ⟨[]⟩)).is_stable ∧
      ∃ (gain : Dbl ℚ) (a : List (Dbl ℚ)),
        (Run Rat.sqrt (new ((1 : Nat) : Int)) [Dbl.num 25, Dbl.num 15] (some []) (some false)
          (some ⟨[]⟩)).linear_predictive_coefficients = some (gain :: a) ∧
        (Run Rat.sqrt (new ((1 : Nat) : Int)) ([Dbl.num 25, Dbl.num 15].map
          (fun x => Dbl.num 4 * x)) (some []) (some false)
          (some ⟨[]⟩)).linear_predictive_coefficients =
            some (Dbl.num (Rat.sqrt 4) * gain :: a))) ∧
    Run Rat.sqrt (new ((1 : Nat) : Int)) [Dbl.num 25, Dbl.num 15] (some []) (some false)
        (some ⟨[]⟩) =
      ⟨true, some [Dbl.num 4, Dbl.num (-3 / 5)], some true, some ⟨[Dbl.num 0, Dbl.num (-3 / 5)]⟩⟩ ∧
    Run Rat.sqrt (new ((1 : Nat) : Int)) ([Dbl.num 25, Dbl.num 15].map (fun x => Dbl.num 4 * x))
        (some []) (some false) (some ⟨[]⟩) =
      ⟨true, some [Dbl.num 8, Dbl.num (-3 / 5)], some true, some ⟨[Dbl.num 0, Dbl.num (-3 / 5)]⟩⟩ :=
  ⟨C26_scale_invariance Rat.sqrt 4 (by norm_num) 1 [Dbl.num 25, Dbl.num 15] [] [] false false
    ⟨[]⟩ ⟨[]⟩ (fun _ => by decide!), by decide!, by decide!⟩

end Claims3

/-! ## The tool `frame` -/

section FrameLemmas

variable {F : Type} [LinearOrderedField F]

theorem length_store (sequence : List (Dbl F)) (point : Nat) (vals : List (Dbl F))
    (h : point + vals.length ≤ sequence.length) :
    (store sequence point vals).length = sequence.length := by
  simp only [store, List.length_append, List.length_take, List.length_drop]
  omega

theorem getD_store (sequence : List (Dbl F)) (point : Nat) (vals : List (Dbl F)) (i : Nat)
    (d : Dbl F) (h : point + vals.length ≤ sequence.length) :
    (store sequence point vals).getD i d =
      if point ≤ i ∧ i < point + vals.length then vals.getD (i - point) d
      else sequence.getD i d := by
  simp only [store, List.getD_eq_getElem?_getD]
  by_cases h1 : i < point
  · rw [if_neg (by omega), List.append_assoc,
      List.getElem?_append_left (by rw [List.length_take]; omega), List.getElem?_take, if_pos h1]
  · have hp : (List.take point sequence).length = point := by
      rw [List.length_take]; omega
    rw [List.append_assoc, List.getElem?_append_right (by omega), hp]
    by_cases h2 : i < point + vals.length
    · rw [if_pos ⟨by omega, h2⟩, List.getElem?_append_left (by omega)]
    · rw [if_neg (by omega), List.getElem?_append_right (by omega), List.getElem?_drop]
      congr 2
      omega

theorem ext_getD (l1 l2 : List (Dbl F)) (d : Dbl F) (hlen : l1.length = l2.length)
    (h : ∀ i, i < l1.length → l1.getD i d = l2.getD i d) : l1 = l2 := by
  apply List.ext_getElem hlen
  intro i h1 h2
  have := h i h1
  rw [List.getD_eq_getElem _ _ h1, List.getD_eq_getElem _ _ h2] at this
  exact this

theorem getD_replicate_zero (n i : Nat) : (List.replicate n (0 : Dbl F)).getD i 0 = 0 := by
  by_cases h : i < n
  · rw [List.getD_eq_getElem _ _ (by rw [List.length_replicate]; exact h)]
    simp
  · rw [List.getD_eq_default _ _ (by rw [List.length_replicate]; omega)]

theorem getD_drop_eq (l : List (Dbl F)) (n i : Nat) (d : Dbl F) :
    (l.drop n).getD i d = l.getD (n + i) d := by
  simp only [List.getD_eq_getElem?_getD, List.getElem?_drop]

theorem length_frameAt (x : List (Dbl F)) (L c q : Nat) : (frameAt x L c q).length = L := by
  simp [frameAt]

theorem getD_frameAt (x : List (Dbl F)) (L c q i : Nat) (hi : i < L) :
    (frameAt x L c q).getD i 0 = frameSample x ((q : Int) + i - c) := by
  rw [List.getD_eq_getElem _ _ (by rw [length_frameAt]; exact hi)]
  simp [frameAt]

/-- A vector of `L` elements that holds the samples of the frame at `q` is that frame. -/
theorem eq_frameAt (x data : List (Dbl F)) (L c q : Nat) (hlen : data.length = L)
    (h : ∀ i, i < L → data.getD i 0 = frameSample x ((q : Int) + i - c)) :
    data = frameAt x L c q := by
  apply ext_getD data _ 0 (by rw [hlen, length_frameAt])
  intro i hi
  rw [hlen] at hi
  rw [h i hi, getD_frameAt x L c q i hi]


/-- The call `ReadStream` returns `false` on a stream whose `eofbit` is set. -/
theorem ReadStream_eof (zp : Bool) (k rp rs : Int) (data : List (Dbl F)) (s : IStream F)
    (a : Option Int) (h : s.eofbit = true) :
    (ReadStream zp k rp rs data s a).1 = false := by
  unfold ReadStream
  rw [if_pos (by simp [h])]

theorem read_good (rest : List (Dbl F)) (n : Nat) :
    IStream.read (⟨rest, false, false⟩ : IStream F) n =
      if n ≤ rest.length then (rest.take n, ⟨rest.drop n, false, false⟩)
      else (rest, ⟨[], true, true⟩) := by
  simp [IStream.read, IStream.good]

theorem ignore_good (rest : List (Dbl F)) (n : Nat) :
    IStream.ignore (⟨rest, false, false⟩ : IStream F) n =
      if n ≤ rest.length then ⟨rest.drop n, false, false⟩ else ⟨[], true, false⟩ := by
  simp [IStream.ignore, IStream.good]

/-- The call `ReadStream` on a good stream, once the values to skip are skipped: the body after
the checks of the arguments. -/
theorem ReadStream_skip (k rp rs : Nat) (hrs : 1 ≤ rs) (data rest : List (Dbl F))
    (a : Option Int) (hlen : rp + rs ≤ data.length) (hk : k ≤ rest.length) :
    ReadStream true (k : Int) (rp : Int) (rs : Int) data ⟨rest, false, false⟩ a =
      if rs ≤ (rest.drop k).length then
        (true, store data rp ((rest.drop k).take rs), ⟨rest.drop (k + rs), false, false⟩,
          a.map (fun _ => (rs : Int)))
      else if 0 < (rest.drop k).length then
        (true, store (store data rp (rest.drop k)) (rp + (rest.drop k).length)
          (List.replicate (rs - (rest.drop k).length) 0), ⟨[], true, true⟩,
          a.map (fun _ => ((rest.drop k).length : Int)))
      else (false, store data rp (rest.drop k), ⟨[], true, true⟩,
          a.map (fun _ => ((rest.drop k).length : Int))) := by
  have hc1 : ¬ ((decide ((k : Int) < 0) || decide ((rp : Int) < 0) || decide ((rs : Int) ≤ 0) ||
      (⟨rest, false, false⟩ : IStream F).eofbit) = true) := by
    simp
    omega
  have hs1 : (if (0 : Int) < (k : Int) then IStream.ignore (⟨rest, false, false⟩ : IStream F) k
      else ⟨rest, false, false⟩) = ⟨rest.drop k, false, false⟩ := by
    by_cases h0 : k = 0
    · subst h0
      simp
    · rw [if_pos (by omega), ignore_good, if_pos hk]
  have hres : (if data.length < rp + rs then resize data (rp + rs) else data) = data := by
    rw [if_neg (by omega)]
  have hsum : ((rp : Int) + (rs : Int)).toNat = rp + rs := by omega
  unfold ReadStream
  rw [if_neg hc1]
  simp only [Int.toNat_ofNat, hsum, hs1, Bool.and_false, Bool.false_eq_true, if_false, hres,
    read_good]
  by_cases h1 : rs ≤ (rest.drop k).length
  · have h2 : ((rest.drop k).take rs).length = rs := by
      rw [List.length_take]; omega
    simp only [if_pos h1, h2, if_true, Bool.not_false, List.drop_drop]
  · have h3 : ¬ ((rs : Int) = ((rest.drop k).length : Int)) := by omega
    have h4 : ((rp : Int) + (rs : Int) - ((rs : Int) - ((rest.drop k).length : Int))).toNat =
        rp + (rest.drop k).length := by omega
    have h5 : ((rs : Int) - ((rest.drop k).length : Int)).toNat = rs - (rest.drop k).length := by
      omega
    simp only [if_neg h1, if_neg h3, h4, h5, Bool.true_and, decide_eq_true_eq, Nat.cast_pos]

/-- The call `ReadStream` returns `false` on a good stream that holds no more than the values
to skip. -/
theorem ReadStream_end (k rp rs : Nat) (hrs : 1 ≤ rs) (data rest : List (Dbl F))
    (a : Option Int) (hlen : rp + rs ≤ data.length) (hk : rest.length ≤ k) :
    (ReadStream true (k : Int) (rp : Int) (rs : Int) data ⟨rest, false, false⟩ a).1 = false := by
  by_cases hk2 : k ≤ rest.length
  · have hd : (rest.drop k).length = 0 := by
      rw [List.length_drop]; omega
    rw [ReadStream_skip k rp rs hrs data rest a hlen hk2, hd, if_neg (by omega),
      if_neg (by omega)]
  · have hc1 : ¬ ((decide ((k : Int) < 0) || decide ((rp : Int) < 0) ||
        decide ((rs : Int) ≤ 0) || (⟨rest, false, false⟩ : IStream F).eofbit) = true) := by
      simp
      omega
    have hs1 : (if (0 : Int) < (k : Int) then
        IStream.ignore (⟨rest, false, false⟩ : IStream F) k
        else ⟨rest, false, false⟩) = ⟨[], true, false⟩ := by
      rw [if_pos (by omega), ignore_good, if_neg hk2]
    have hk0 : decide ((0 : Int) < (k : Int)) = true := by
      rw [decide_eq_true_eq]; omega
    unfold ReadStream
    rw [if_neg hc1]
    simp only [Int.toNat_ofNat, hs1, hk0, Bool.and_self, if_true]

/-- The call `ReadStream` on a good stream that holds more than the values to skip: it
returns `true`, the slots `read_point..read_point + read_size - 1` of the vector hold the next
values of the stream, followed by zeros where the data ended, and the other slots are not
changed. -/
theorem ReadStream_ok (k rp rs : Nat) (hrs : 1 ≤ rs) (data rest : List (Dbl F))
    (a : Option Int) (hlen : rp + rs ≤ data.length) (hk : k < rest.length) :
    ∃ data1 : List (Dbl F),
      ReadStream true (k : Int) (rp : Int) (rs : Int) data ⟨rest, false, false⟩ a =
        (true, data1,
          if k + rs ≤ rest.length then ⟨rest.drop (k + rs), false, false⟩ else ⟨[], true, true⟩,
          a.map (fun _ => ((min rs (rest.length - k) : Nat) : Int))) ∧
      data1.length = data.length ∧
      ∀ i, data1.getD i 0 =
        if rp ≤ i ∧ i < rp + rs then rest.getD (k + (i - rp)) 0 else data.getD i 0 := by
  rw [ReadStream_skip k rp rs hrs data rest a hlen (le_of_lt hk)]
  have hd : (rest.drop k).length = rest.length - k := List.length_drop _ _
  by_cases h1 : rs ≤ (rest.drop k).length
  · have hv : ((rest.drop k).take rs).length = rs := by
      rw [List.length_take]; omega
    rw [if_pos h1, if_pos (by omega), Nat.min_eq_left (by omega)]
    refine ⟨store data rp ((rest.drop k).take rs), rfl, ?_, ?_⟩
    · exact length_store _ _ _ (by omega)
    · intro i
      rw [getD_store _ _ _ _ _ (by omega), hv]
      by_cases hi : rp ≤ i ∧ i < rp + rs
      · rw [if_pos hi, if_pos hi]
        simp only [List.getD_eq_getElem?_getD, List.getElem?_take, List.getElem?_drop,
          if_pos (show i - rp < rs by omega)]
      · rw [if_neg hi, if_neg hi]
  · rw [if_neg h1, if_pos (by omega), if_neg (by omega), Nat.min_eq_right (by omega), ← hd]
    refine ⟨store (store data rp (rest.drop k)) (rp + (rest.drop k).length)
      (List.replicate (rs - (rest.drop k).length) 0), rfl, ?_, ?_⟩
    · rw [length_store _ _ _ (by
        rw [length_store _ _ _ (by omega), List.length_replicate]; omega)]
      exact length_store _ _ _ (by omega)
    · intro i
      rw [getD_store _ _ _ _ _ (by
        rw [length_store _ _ _ (by omega), List.length_replicate]; omega),
        List.length_replicate, getD_store _ _ _ _ _ (by omega), getD_replicate_zero,
        getD_drop_eq]
      by_cases hi : rp ≤ i ∧ i < rp + rs
      · rw [if_pos hi]
        by_cases hi2 : rp + (rest.drop k).length ≤ i ∧
            i < rp + (rest.drop k).length + (rs - (rest.drop k).length)
        · rw [if_pos hi2, List.getD_eq_default _ _ (by omega)]
        · rw [if_neg hi2, if_pos (by omega)]
      · rw [if_neg hi, if_neg (by omega), if_neg (by omega)]

theorem frameSample_natCast (x : List (Dbl F)) (n : Nat) :
    frameSample x (n : Int) = x.getD n 0 := by
  simp [frameSample]

theorem frameSample_neg (x : List (Dbl F)) (t : Int) (h : t < 0) : frameSample x t = 0 := by
  simp [frameSample, h]

/-- Shifting a frame by the period: `std::copy(data.begin() + P, data.end(), data.begin())`
leaves the first `L - P` samples of the next frame. -/
theorem getD_shift (x : List (Dbl F)) (L P c q i : Nat) (hi : i + P < L) :
    (store (frameAt x L c q) 0 ((frameAt x L c q).drop P)).getD i 0 =
      frameSample x (((q + P : Nat) : Int) + (i : Int) - (c : Int)) := by
  rw [getD_store _ _ _ _ _ (by rw [List.length_drop, length_frameAt]; omega), List.length_drop,
    length_frameAt, if_pos (by omega), getD_drop_eq, getD_frameAt x L c q _ (by omega)]
  congr 1
  push_cast
  omega

theorem length_shift (x : List (Dbl F)) (L P c q : Nat) :
    (store (frameAt x L c q) 0 ((frameAt x L c q).drop P)).length = L := by
  rw [length_store _ _ _ (by rw [List.length_drop, length_frameAt]; omega), length_frameAt]

/-- The loop for overlapping frames once the end of the data was met, entered with the known
samples of the frame at `q` in the vector: it writes the frames at `q`, `q + P`, ... that start
before the end of the data, and `main` returns 0. -/
theorem overlapLoop_eof (x : List (Dbl F)) (L P c : Nat) (hP : 1 ≤ P) :
    ∀ (fuel q : Nat) (data : List (Dbl F)) (s : IStream F) (a : Option Int)
      (out : List (List (Dbl F))),
      data.length = L → x.length + c ≤ q + L →
      (∀ i, i < L → q + i < x.length + c →
        data.getD i 0 = frameSample x ((q : Int) + (i : Int) - (c : Int))) →
      (x.length - q) + 1 ≤ fuel →
      ∃ k, frameOverlapLoop L P (c : Int) false fuel data s true
            ((x.length : Int) - 1 + (c : Int) - (q : Int)) a out =
          some (0, out ++ (List.range' q k P).map (frameAt x L c)) ∧
        (∀ m, m < k → q + m * P < x.length) ∧ x.length ≤ q + k * P := by
  intro fuel
  induction fuel with
  | zero =>
    intro q data s a out _ _ _ hfuel
    omega
  | succ fuel ih =>
    intro q data s a out hlen hq hdata hfuel
    unfold frameOverlapLoop
    by_cases hcond : (c : Int) ≤ (x.length : Int) - 1 + (c : Int) - (q : Int)
    · have he : ((x.length : Int) - 1 + (c : Int) - (q : Int) + 1).toNat = x.length + c - q := by
        omega
      have hd1 : store data (x.length + c - q)
          (List.replicate (data.length - (x.length + c - q)) 0) = frameAt x L c q := by
        have hl : (store data (x.length + c - q)
            (List.replicate (data.length - (x.length + c - q)) 0)).length = L := by
          rw [length_store _ _ _ (by rw [List.length_replicate]; omega), hlen]
        apply eq_frameAt x _ L c q hl
        intro i hi
        rw [getD_store _ _ _ _ _ (by rw [List.length_replicate]; omega), List.length_replicate,
          getD_replicate_zero]
        by_cases h1 : x.length + c - q ≤ i
        · rw [if_pos ⟨h1, by omega⟩]
          have h2 : (q : Int) + (i : Int) - (c : Int) = ((q + i - c : Nat) : Int) := by omega
          rw [h2, frameSample_natCast, List.getD_eq_default _ _ (by omega)]
        · rw [if_neg (by omega)]
          exact hdata i hi (by omega)
      have hlast : (x.length : Int) - 1 + (c : Int) - (q : Int) - (P : Int) =
          (x.length : Int) - 1 + (c : Int) - ((q + P : Nat) : Int) := by
        push_cast
        omega
      rw [if_pos hcond]
      simp only [if_true, he, hd1, WriteData, Bool.false_eq_true, if_false, hlast]
      obtain ⟨k, hk1, hk2, hk3⟩ := ih (q + P)
        (store (frameAt x L c q) 0 ((frameAt x L c q).drop P)) s a (out ++ [frameAt x L c q])
        (length_shift x L P c q) (by omega)
        (fun i hi hi2 => getD_shift x L P c q i (by omega)) (by omega)
      refine ⟨k + 1, ?_, ?_, ?_⟩
      · rw [hk1]
        simp [List.range']
      · intro m hm
        cases m with
        | zero => omega
        | succ m =>
          have := hk2 m (by omega)
          rw [Nat.succ_mul]
          omega
      · rw [Nat.succ_mul]
        omega
    · rw [if_neg hcond]
      refine ⟨0, by simp, fun m hm => absurd hm (by omega), by omega⟩

theorem peek_good (rest : List (Dbl F)) (h : 0 < rest.length) :
    IStream.peekIsEof (⟨rest, false, false⟩ : IStream F) = (false, ⟨rest, false, false⟩) := by
  cases rest with
  | nil => exact absurd h (by simp)
  | cons y l => rfl

theorem peek_true (s : IStream F) (h : s.eofbit = true ∨ s.rest = []) :
    (IStream.peekIsEof s).1 = true := by
  unfold IStream.peekIsEof
  by_cases hg : (!s.good) = true
  · rw [if_pos hg]
  · rw [if_neg hg]
    rcases h with h | h
    · simp [IStream.good, h] at hg
    · rw [h]
      rfl

/-- The samples in the vector once the next period was read behind the shifted frame: the
frame at `q + P`. -/
theorem frameAt_next (x data1 : List (Dbl F)) (L P c q : Nat) (hPL : P ≤ L) (hc : c ≤ L)
    (hlen : data1.length = L)
    (h : ∀ i, data1.getD i 0 =
      if L - P ≤ i ∧ i < L - P + P then (x.drop (q + L - c)).getD (0 + (i - (L - P))) 0
      else (store (frameAt x L c q) 0 ((frameAt x L c q).drop P)).getD i 0) :
    data1 = frameAt x L c (q + P) := by
  apply eq_frameAt x _ L c (q + P) hlen
  intro i hi
  rw [h i]
  by_cases h1 : L - P ≤ i
  · rw [if_pos ⟨h1, by omega⟩, getD_drop_eq]
    have h2 : ((q + P : Nat) : Int) + (i : Int) - (c : Int) =
        ((q + L - c + (0 + (i - (L - P))) : Nat) : Int) := by omega
    rw [h2, frameSample_natCast]
  · rw [if_neg (by omega)]
    exact getD_shift x L P c q i (by omega)

/-- The loop for overlapping frames before the end of the data is met, entered with the frame
at `q` in the vector and the stream at the sample that follows it: it writes the frames at `q`,
`q + P`, ... that start before the end of the data, and `main` returns 0. -/
theorem overlapLoop_run (x : List (Dbl F)) (L P c : Nat) (hP : 1 ≤ P) (hPL : P < L)
    (hc : c < L) :
    ∀ (fuel q : Nat) (a0 : Int) (out : List (List (Dbl F))),
      q + L - c < x.length →
      (x.length - (q + L - c)) + L + 1 ≤ fuel →
      ∃ k, frameOverlapLoop L P (c : Int) false fuel (frameAt x L c q)
            ⟨x.drop (q + L - c), false, false⟩ false ((L : Int) - 1) (some a0) out =
          some (0, out ++ (List.range' q k P).map (frameAt x L c)) ∧
        (∀ m, m < k → q + m * P < x.length) ∧ x.length ≤ q + k * P := by
  intro fuel
  induction fuel with
  | zero =>
    intro q a0 out _ hfuel
    omega
  | succ fuel ih =>
    intro q a0 out hq hfuel
    have hrl : (x.drop (q + L - c)).length = x.length - (q + L - c) := List.length_drop _ _
    obtain ⟨data1, hread, hlen1, hget1⟩ := ReadStream_ok 0 (L - P) P hP
      (store (frameAt x L c q) 0 ((frameAt x L c q).drop P)) (x.drop (q + L - c)) (some a0)
      (by rw [length_shift]; omega) (by rw [hrl]; omega)
    rw [length_shift] at hlen1
    have hd1 := frameAt_next x data1 L P c q (le_of_lt hPL) (le_of_lt hc) hlen1 hget1
    have hov : (L : Int) - (P : Int) = ((L - P : Nat) : Int) := by omega
    have hcond : (c : Int) ≤ (L : Int) - 1 := by omega
    unfold frameOverlapLoop
    rw [if_pos hcond]
    simp only [Bool.false_eq_true, if_false, WriteData, hov]
    rw [show (0 : Int) = ((0 : Nat) : Int) from rfl, hread]
    simp only [Bool.not_true, Bool.false_eq_true, if_false, Option.map_some', Option.getD_some, hd1]
    by_cases hfull : P < x.length - (q + L - c)
    · have hS : (if 0 + P ≤ (x.drop (q + L - c)).length then
          (⟨(x.drop (q + L - c)).drop (0 + P), false, false⟩ : IStream F)
          else ⟨[], true, true⟩) = ⟨x.drop (q + P + L - c), false, false⟩ := by
        rw [if_pos (by omega), List.drop_drop]
        congr 2
        omega
      rw [hS, peek_good _ (by rw [List.length_drop]; omega)]
      simp only [Bool.false_eq_true, if_false]
      obtain ⟨k, hk1, hk2, hk3⟩ := ih (q + P) _ (out ++ [frameAt x L c q]) (by omega) (by omega)
      refine ⟨k + 1, ?_, ?_, ?_⟩
      · rw [hk1]
        simp [List.range']
      · intro m hm
        cases m with
        | zero => omega
        | succ m =>
          have := hk2 m (by omega)
          rw [Nat.succ_mul]
          omega
      · rw [Nat.succ_mul]
        omega
    · have hpk : (IStream.peekIsEof (if 0 + P ≤ (x.drop (q + L - c)).length then
          (⟨(x.drop (q + L - c)).drop (0 + P), false, false⟩ : IStream F)
          else ⟨[], true, true⟩)).1 = true := by
        apply peek_true
        by_cases h1 : 0 + P ≤ (x.drop (q + L - c)).length
        · rw [if_pos h1]
          exact Or.inr (List.drop_eq_nil_of_le (by omega))
        · rw [if_neg h1]
          exact Or.inl rfl
      have hmin : min P ((x.drop (q + L - c)).length - 0) = x.length - (q + L - c) := by
        rw [hrl, Nat.sub_zero]
        exact Nat.min_eq_right (by omega)
      have hlast : ((L - P : Nat) : Int) + ((x.length - (q + L - c) : Nat) : Int) - 1 =
          (x.length : Int) - 1 + (c : Int) - ((q + P : Nat) : Int) := by
        omega
      rw [if_pos hpk, hmin, hlast]
      obtain ⟨k, hk1, hk2, hk3⟩ := overlapLoop_eof x L P c hP fuel (q + P)
        (frameAt x L c (q + P)) (IStream.peekIsEof (if 0 + P ≤ (x.drop (q + L - c)).length then
          (⟨(x.drop (q + L - c)).drop (0 + P), false, false⟩ : IStream F)
          else ⟨[], true, true⟩)).2 (some ((x.length - (q + L - c) : Nat) : Int))
        (out ++ [frameAt x L c q]) (length_frameAt x L c (q + P)) (by omega)
        (fun i hi _ => getD_frameAt x L c (q + P) i hi) (by omega)
      refine ⟨k + 1, ?_, ?_, ?_⟩
      · rw [hk1]
        simp [List.range']
      · intro m hm
        cases m with
        | zero => omega
        | succ m =>
          have := hk2 m (by omega)
          rw [Nat.succ_mul]
          omega
      · rw [Nat.succ_mul]
        omega

/-- The loop for frames that do not overlap ends when `ReadStream` returns `false`. -/
theorem skipLoop_stop (L : Nat) (ov : Int) (fuel : Nat) (data : List (Dbl F)) (s : IStream F)
    (out : List (List (Dbl F)))
    (h : (ReadStream true (-ov) 0 (L : Int) data s none).1 = false) :
    frameSkipLoop L ov false (fuel + 1) data s out = some (0, out) := by
  unfold frameSkipLoop
  revert h
  generalize ReadStream true (-ov) 0 (L : Int) data s none = r
  obtain ⟨ok, d, st, a⟩ := r
  intro h
  simp only at h
  subst h
  rfl

/-- The loop for frames that do not overlap, entered after the frame at `q` was read in full:
it writes the frames at `q + P`, `q + 2 P`, ... whose first sample lies before the end of the
data, and `main` returns 0. -/
theorem skipLoop_run (x : List (Dbl F)) (L P c : Nat) (hL : 1 ≤ L) (hLP : L ≤ P) (hc : c ≤ L) :
    ∀ (fuel q : Nat) (data : List (Dbl F)) (out : List (List (Dbl F))),
      data.length = L → q + L - c ≤ x.length →
      (x.length - (q + L - c)) + 2 ≤ fuel →
      ∃ k, frameSkipLoop L ((L : Int) - (P : Int)) false fuel data
            ⟨x.drop (q + L - c), false, false⟩ out =
          some (0, out ++ (List.range' (q + P) k P).map (frameAt x L c)) ∧
        (∀ m, m < k → q + P + m * P < x.length + c) ∧ x.length + c ≤ q + P + k * P := by
  intro fuel
  induction fuel with
  | zero =>
    intro q data out _ _ hfuel
    omega
  | succ fuel ih =>
    intro q data out hlen hq hfuel
    have hrl : (x.drop (q + L - c)).length = x.length - (q + L - c) := List.length_drop _ _
    have hov : -((L : Int) - (P : Int)) = ((P - L : Nat) : Int) := by omega
    by_cases hk : P - L < (x.drop (q + L - c)).length
    · obtain ⟨data1, hread, hlen1, hget1⟩ := ReadStream_ok (P - L) 0 L hL data
        (x.drop (q + L - c)) none (by omega) hk
      have hd1 : data1 = frameAt x L c (q + P) := by
        apply eq_frameAt x _ L c (q + P) (by rw [hlen1, hlen])
        intro i hi
        rw [hget1 i, if_pos ⟨by omega, by omega⟩, getD_drop_eq]
        have h2 : ((q + P : Nat) : Int) + (i : Int) - (c : Int) =
            ((q + L - c + (P - L + (i - 0)) : Nat) : Int) := by omega
        rw [h2, frameSample_natCast]
      rw [Nat.cast_zero] at hread
      unfold frameSkipLoop
      rw [hov, hread]
      simp only [if_true, WriteData, Bool.false_eq_true, if_false, hd1]
      by_cases hfull : P ≤ (x.drop (q + L - c)).length
      · have hS : (if P - L + L ≤ (x.drop (q + L - c)).length then
            (⟨(x.drop (q + L - c)).drop (P - L + L), false, false⟩ : IStream F)
            else ⟨[], true, true⟩) = ⟨x.drop (q + P + L - c), false, false⟩ := by
          rw [if_pos (by omega), List.drop_drop]
          congr 2
          omega
        rw [hS]
        obtain ⟨k, hk1, hk2, hk3⟩ := ih (q + P) (frameAt x L c (q + P))
          (out ++ [frameAt x L c (q + P)]) (length_frameAt x L c (q + P)) (by omega) (by omega)
        refine ⟨k + 1, ?_, ?_, ?_⟩
        · rw [hk1]
          simp [List.range']
        · intro m hm
          cases m with
          | zero => omega
          | succ m =>
            have := hk2 m (by omega)
            rw [Nat.succ_mul]
            omega
        · rw [Nat.succ_mul]
          omega
      · rw [if_neg (by omega)]
        cases fuel with
        | zero => omega
        | succ fuel =>
          rw [skipLoop_stop L _ fuel _ _ _ (ReadStream_eof _ _ _ _ _ _ _ rfl)]
          refine ⟨1, by simp [List.range'], ?_, ?_⟩
          · intro m hm
            have hm0 : m = 0 := by omega
            subst hm0
            omega
          · omega
    · have hstop := ReadStream_end (P - L) 0 L hL data (x.drop (q + L - c)) none (by omega)
        (by omega)
      rw [← hov] at hstop
      rw [skipLoop_stop L _ fuel _ _ _ hstop]
      exact ⟨0, by simp, fun m hm => absurd hm (by omega), by omega⟩

theorem range'_step_eq_map (P k : Nat) : ∀ q : Nat,
    List.range' q k P = (List.range k).map (fun m => q + m * P) := by
  induction k with
  | zero => intro q; rfl
  | succ k ih =>
    intro q
    rw [List.range_succ_eq_map, List.map_cons, List.map_map]
    show q :: List.range' (q + P) k P = _
    rw [ih (q + P)]
    simp only [Nat.zero_mul, Nat.add_zero, List.cons.injEq, true_and]
    apply List.map_congr_left
    intro m _
    simp only [Function.comp, Nat.succ_mul]
    omega

/-- The tool `frame` with enough fuel: `main` returns 0 after writing the frames at `0`, `P`,
..., `(k - 1) P`; nothing is written for an empty input, and otherwise `k` is the least number
with `T + d ≤ k P`, where `d = 0` for overlapping frames and `d = c` for the others. -/
theorem frame_eq (L P : Nat) (hL : 1 ≤ L) (hP : 1 ≤ P) (ft : FramingTypes) (x : List (Dbl F))
    (fuel : Nat) (hfuel : x.length + L + 2 ≤ fuel) :
    ∃ k, frame fuel L P ft false x =
        some (0, (List.range' 0 k P).map (frameAt x L (frameCenter L ft))) ∧
      ((x.length = 0 ∧ k = 0) ∨
        (0 < x.length ∧
          (∀ m, m < k → m * P < x.length + (if P < L then 0 else frameCenter L ft)) ∧
          x.length + (if P < L then 0 else frameCenter L ft) ≤ k * P)) := by
  have hpair : ∀ t : FramingTypes, (match t with
      | FramingTypes.kBegginingOfDataIsCenterOfFirstFrame =>
        if L % 2 = 0 then ((L : Int) / 2, (L : Int) / 2)
        else (((L : Int) - 1) / 2, ((L : Int) + 1) / 2)
      | FramingTypes.kBegginingOfDataIsStartOfFirstFrame => (0, (L : Int))) =
      (((frameCenter L t : Nat) : Int), ((L - frameCenter L t : Nat) : Int)) := by
    intro t
    cases t
    · simp only [frameCenter]
      split_ifs with h
      · refine Prod.ext ?_ ?_ <;> simp only <;> omega
      · refine Prod.ext ?_ ?_ <;> simp only <;> omega
    · simp [frameCenter]
  have hcen : ∀ t : FramingTypes, (match t with
      | FramingTypes.kBegginingOfDataIsCenterOfFirstFrame => (L : Int) / 2
      | FramingTypes.kBegginingOfDataIsStartOfFirstFrame => 0) =
      ((frameCenter L t : Nat) : Int) := by
    intro t
    cases t
    · simp only [frameCenter]
      omega
    · simp [frameCenter]
  have hc : frameCenter L ft < L := by
    cases ft
    · show L / 2 < L
      omega
    · exact hL
  unfold frame
  simp only [hpair, hcen]
  by_cases hx : x.length = 0
  · have hstop := ReadStream_end 0 (frameCenter L ft) (L - frameCenter L ft) (by omega)
      (List.replicate L 0) x (some 0) (by rw [List.length_replicate]; omega) (by omega)
    rw [Nat.cast_zero] at hstop
    rw [hstop]
    exact ⟨0, rfl, Or.inl ⟨hx, rfl⟩⟩
  · obtain ⟨data1, hread, hlen1, hget1⟩ := ReadStream_ok 0 (frameCenter L ft)
      (L - frameCenter L ft) (by omega) (List.replicate L 0) x (some 0)
      (by rw [List.length_replicate]; omega) (by omega)
    rw [List.length_replicate] at hlen1
    have hd1 : data1 = frameAt x L (frameCenter L ft) 0 := by
      apply eq_frameAt x _ L _ 0 hlen1
      intro i hi
      rw [hget1 i]
      by_cases h1 : frameCenter L ft ≤ i
      · rw [if_pos ⟨h1, by omega⟩]
        have h2 : ((0 : Nat) : Int) + (i : Int) - (frameCenter L ft : Int) =
            ((0 + (i - frameCenter L ft) : Nat) : Int) := by omega
        rw [h2, frameSample_natCast]
      · rw [if_neg (by omega), getD_replicate_zero, frameSample_neg _ _ (by omega)]
    rw [Nat.cast_zero] at hread
    rw [hread]
    simp only [Bool.not_true, Bool.false_eq_true, if_false, Option.map_some', Option.getD_some,
      hd1, WriteData, List.nil_append]
    have hS : 0 + (L - frameCenter L ft) ≤ x.length →
        (if 0 + (L - frameCenter L ft) ≤ x.length then
          (⟨x.drop (0 + (L - frameCenter L ft)), false, false⟩ : IStream F)
          else ⟨[], true, true⟩) = ⟨x.drop (0 + L - frameCenter L ft), false, false⟩ := by
      intro h
      rw [if_pos h]
      congr 2
      omega
    by_cases hov : P < L
    · rw [if_pos (by omega), if_pos hov]
      by_cases hfull : L - frameCenter L ft < x.length
      · rw [hS (by omega), peek_good _ (by rw [List.length_drop]; omega),
          Nat.min_eq_left (by omega)]
        have hlast : ((frameCenter L ft : Nat) : Int) + ((L - frameCenter L ft : Nat) : Int) - 1 =
            (L : Int) - 1 := by omega
        rw [hlast]
        obtain ⟨k, hk1, hk2, hk3⟩ := overlapLoop_run x L P (frameCenter L ft) hP hov hc fuel 0
          ((L - frameCenter L ft : Nat) : Int) [] (by omega) (by omega)
        refine ⟨k, ?_, Or.inr ⟨by omega, fun m hm => ?_, ?_⟩⟩
        · rw [hk1, List.nil_append]
        · have := hk2 m hm
          omega
        · omega
      · have hpk : (IStream.peekIsEof (if 0 + (L - frameCenter L ft) ≤ x.length then
            (⟨x.drop (0 + (L - frameCenter L ft)), false, false⟩ : IStream F)
            else ⟨[], true, true⟩)).1 = true := by
          apply peek_true
          by_cases h1 : 0 + (L - frameCenter L ft) ≤ x.length
          · rw [if_pos h1]
            exact Or.inr (List.drop_eq_nil_of_le (by omega))
          · rw [if_neg h1]
            exact Or.inl rfl
        have hlast : ((frameCenter L ft : Nat) : Int) + ((x.length - 0 : Nat) : Int) - 1 =
            (x.length : Int) - 1 + ((frameCenter L ft : Nat) : Int) - ((0 : Nat) : Int) := by
          omega
        rw [hpk, Nat.min_eq_right (by omega), hlast]
        obtain ⟨k, hk1, hk2, hk3⟩ := overlapLoop_eof x L P (frameCenter L ft) hP fuel 0
          (frameAt x L (frameCenter L ft) 0)
          (IStream.peekIsEof (if 0 + (L - frameCenter L ft) ≤ x.length then
            (⟨x.drop (0 + (L - frameCenter L ft)), false, false⟩ : IStream F)
            else ⟨[], true, true⟩)).2 (some ((x.length - 0 : Nat) : Int)) []
          (length_frameAt x L _ 0) (by omega) (fun i hi _ => getD_frameAt x L _ 0 i hi) (by omega)
        refine ⟨k, ?_, Or.inr ⟨by omega, fun m hm => ?_, ?_⟩⟩
        · rw [hk1, List.nil_append]
        · have := hk2 m hm
          omega
        · omega
    · rw [if_neg (by omega), if_neg hov]
      by_cases hfull : L - frameCenter L ft ≤ x.length
      · rw [hS (by omega)]
        obtain ⟨k, hk1, hk2, hk3⟩ := skipLoop_run x L P (frameCenter L ft) hL (by omega)
          (le_of_lt hc) fuel 0 (frameAt x L (frameCenter L ft) 0)
          [frameAt x L (frameCenter L ft) 0] (length_frameAt x L _ 0) (by omega) (by omega)
        refine ⟨k + 1, ?_, Or.inr ⟨by omega, fun m hm => ?_, ?_⟩⟩
        · rw [hk1]
          simp [List.range']
        · cases m with
          | zero => omega
          | succ m =>
            have := hk2 m (by omega)
            rw [Nat.succ_mul]
            omega
        · rw [Nat.succ_mul]
          omega
      · rw [if_neg (by omega)]
        cases fuel with
        | zero => omega
        | succ fuel =>
          rw [skipLoop_stop L _ fuel _ _ _ (ReadStream_eof _ _ _ _ _ _ _ rfl)]
          refine ⟨1, by simp [List.range'], Or.inr ⟨by omega, fun m hm => ?_, ?_⟩⟩
          · have hm0 : m = 0 := by omega
            subst hm0
            omega
          · omega

end FrameLemmas

section Claims4

variable {F : Type} [LinearOrderedField F]

end Claims4
